/-
  Verification of the WordCounter repository (C sources under src/).

  Shallow embedding conventions:
  * bytes are `Nat` (fgetc results 0..255; non-ASCII bytes fall into the
    OTHER character class, exactly as in the C classification functions);
  * words/tokens are `List Nat` of bytes, without the terminating NUL;
  * the string pool is a byte store indexed by offset from its base
    address, plus an abstract base address `memBase`; `realloc` moves are
    modelled by changing `memBase` while preserving the byte store, so a
    stale absolute address would read the wrong offsets, faithfully;
  * arrays (`entries`, pool memory) are functions from indices, with the
    capacity tracked separately; `alphOrderArray` is modelled as the list
    of its first `size` cells, the only cells the C code ever reads;
  * allocation failure of `malloc`/`realloc` (fatal in the program) is not
    modelled: the modelled `expand` operations always succeed, and the
    caller's retry loop carries explicit fuel whose exhaustion corresponds
    to the fatal out-of-memory exit of `main`.
-/
import Mathlib

set_option autoImplicit false

namespace WordCounter

/-! ### utils.c -/

/-- `RetStatus` from memstructs.h. -/
inductive RetStatus where
  | SUCCESS
  | DATA_STRUCT_FULL
  | GEN_FAIL
  deriving DecidableEq, Repr

/-- FNV offset basis (utils.c `FNV_OFFSET`). -/
def FNV_OFFSET : Nat := 0xcbf29ce484222325

/-- FNV prime (utils.c `FNV_PRIME`). -/
def FNV_PRIME : Nat := 0x100000001b3

/-- `fnvhash` from utils.c: 64-bit FNV-1a over the given bytes.
The C routine reads `wlen` bytes as `uint8_t`; callers pass the word
including its terminating NUL.  64-bit wraparound is `% 2^64`. -/
def fnvhash (bytes : List Nat) : Nat :=
  bytes.foldl (fun h b => ((h ^^^ (b % 256)) * FNV_PRIME) % 2 ^ 64) FNV_OFFSET

/-- `next_2power` from utils.c: rounds up to the next power of two by bit
smearing (inputs are `size_t`; the model keeps the exact bit operations). -/
def next_2power (num : Nat) : Nat :=
  if num = 0 then 1 else
    let v := num - 1
    let v := v ||| (v >>> 1)
    let v := v ||| (v >>> 2)
    let v := v ||| (v >>> 4)
    let v := v ||| (v >>> 8)
    let v := v ||| (v >>> 16)
    let v := v ||| (v >>> 32)
    v + 1

/-- libc `strcmp` on NUL-terminated strings, expressed on the byte lists
of the words (terminator excluded).  All strings compared by the program
are NUL-terminated with no interior NUL and bytes below 256, for which
`strcmp` is exactly this three-valued lexicographic comparison (running
off the end of a list is reading the terminator 0, smaller than any
word byte). -/
def c_strcmp : List Nat → List Nat → Int
  | [], [] => 0
  | [], _ :: _ => -1
  | _ :: _, [] => 1
  | a :: as, b :: bs => if a < b then -1 else if b < a then 1 else c_strcmp as bs

/-! ### Tokenizer (wordcount.c `get_input` and its helpers) -/

/-- `to_lowercase` from wordcount.c. -/
def to_lowercase (c : Nat) : Nat := c ||| 0x20

/-- `is_letter` from wordcount.c. -/
def is_letter (c : Nat) : Bool :=
  let lowch := to_lowercase c
  97 ≤ lowch && lowch ≤ 122

/-- `is_number` from wordcount.c. -/
def is_number (c : Nat) : Bool := 48 ≤ c && c ≤ 57

/-- `is_inword_symbol` from wordcount.c: the fixed set `- ' % , . @`. -/
def is_inword_symbol (c : Nat) : Bool :=
  c == 45 || c == 39 || c == 37 || c == 44 || c == 46 || c == 64

/-- `InputCharType` from wordcount.c. -/
inductive InputCharType where
  | LETTER
  | NUMBER
  | IN_WORD_SYMBOL
  | OTHER_SYMBOL
  deriving DecidableEq, Repr

/-- `get_char_type` from wordcount.c. -/
def get_char_type (c : Nat) : InputCharType :=
  if is_letter c then .LETTER
  else if is_number c then .NUMBER
  else if is_inword_symbol c then .IN_WORD_SYMBOL
  else .OTHER_SYMBOL

/-- `InputState` from wordcount.c. -/
inductive InputState where
  | BETWEEN_WORDS
  | IN_WORD_AFTER_ALPHARITH
  | IN_WORD_AFTER_SYMBOL
  deriving DecidableEq, Repr

/-- Tokenizer machine configuration: current state, the Word Buffer's
contents (`letters[0..curPosition)`), and the Word Buffer Vector contents
(tokens pushed so far, in order).  Buffer reallocation never fails in the
model, so `WordBuffer_push_char` is plain append and `WordBuffer_backspace`
drops the last character. -/
abbrev TokState := InputState × List Nat × List (List Nat)

/-- One step of the `get_input` character loop of wordcount.c. -/
def tokenizeStep (s : TokState) (c : Nat) : TokState :=
  let (state, buf, toks) := s
  match state, get_char_type c with
  | .BETWEEN_WORDS, .LETTER => (.IN_WORD_AFTER_ALPHARITH, buf ++ [to_lowercase c], toks)
  | .BETWEEN_WORDS, .NUMBER => (.IN_WORD_AFTER_ALPHARITH, buf ++ [c], toks)
  | .BETWEEN_WORDS, _ => (.BETWEEN_WORDS, buf, toks)
  | .IN_WORD_AFTER_ALPHARITH, .LETTER => (.IN_WORD_AFTER_ALPHARITH, buf ++ [to_lowercase c], toks)
  | .IN_WORD_AFTER_ALPHARITH, .NUMBER => (.IN_WORD_AFTER_ALPHARITH, buf ++ [c], toks)
  | .IN_WORD_AFTER_ALPHARITH, .IN_WORD_SYMBOL => (.IN_WORD_AFTER_SYMBOL, buf ++ [c], toks)
  | .IN_WORD_AFTER_ALPHARITH, .OTHER_SYMBOL => (.BETWEEN_WORDS, [], toks ++ [buf])
  | .IN_WORD_AFTER_SYMBOL, .LETTER => (.IN_WORD_AFTER_ALPHARITH, buf ++ [to_lowercase c], toks)
  | .IN_WORD_AFTER_SYMBOL, .NUMBER => (.IN_WORD_AFTER_ALPHARITH, buf ++ [c], toks)
  | .IN_WORD_AFTER_SYMBOL, _ => (.BETWEEN_WORDS, [], toks ++ [buf.dropLast])

/-- End-of-stream handling of `get_input` (the `switch(state)` after the
read loop): a pending word is flushed, with the trailing in-word symbol
backspaced first when the state is `IN_WORD_AFTER_SYMBOL`. -/
def tokenizeFinish (s : TokState) : List (List Nat) :=
  let (state, buf, toks) := s
  match state with
  | .BETWEEN_WORDS => toks
  | .IN_WORD_AFTER_ALPHARITH => toks ++ [buf]
  | .IN_WORD_AFTER_SYMBOL => toks ++ [buf.dropLast]

/-- `get_input` from wordcount.c: the full tokenization of an input byte
stream into the Word Buffer Vector. -/
def tokenize (input : List Nat) : List (List Nat) :=
  tokenizeFinish (input.foldl tokenizeStep (.BETWEEN_WORDS, [], []))

/-! ### Memory pool (memstructs.c `MemoryPool`) -/

/-- `MemoryPool` from memstructs.c.  `memBase` is the abstract address of
`memSpace`; `mem` lists the bytes of the buffer by offset from the base
(a `realloc` move changes `memBase` but copies the contents, hence
preserves the byte at each offset). -/
structure MemoryPool where
  memBase : Nat
  mem : List Nat
  nextChar : Nat
  capacity : Nat
  deriving DecidableEq, Repr

/-- `MemoryPool_alloc_block` from memstructs.c: returns the absolute
address of the block and bumps `nextChar` if `nextChar + numChars <
capacity` (strictly), otherwise `NULL` (`none`) without mutating. -/
def MemoryPool_alloc_block (memp : MemoryPool) (numChars : Nat) : Option Nat × MemoryPool :=
  if memp.nextChar + numChars < memp.capacity then
    (some (memp.memBase + memp.nextChar), { memp with nextChar := memp.nextChar + numChars })
  else (none, memp)

/-- `MemoryPool_size_below` from memstructs.c. -/
def MemoryPool_size_below (memp : MemoryPool) (limitPrc : Nat) : Bool :=
  memp.nextChar < memp.capacity * limitPrc / 100

/-- `MemoryPool_expand` from memstructs.c: doubles the capacity.  The C
`realloc` may move the backing store; the model takes the (environment
chosen) new base address as a parameter and preserves the contents at
their offsets.  The upper half is uninitialized in C and never read
before being written; the model zero-fills it. -/
def MemoryPool_expand (memp : MemoryPool) (newBase : Nat) : MemoryPool :=
  { memp with
    capacity := 2 * memp.capacity
    memBase := newBase
    mem := memp.mem ++ List.replicate memp.capacity 0 }

/-- Write a byte sequence into a byte store at consecutive offsets
(the effect of `string_copy` into a pool block). -/
def writeBytes (m : List Nat) : Nat → List Nat → List Nat
  | _, [] => m
  | off, b :: bs => writeBytes (m.set off b) (off + 1) bs

/-- Read `n` consecutive bytes at offset `off` from a byte store. -/
def readBytes (m : List Nat) (off n : Nat) : List Nat :=
  (List.range n).map (fun j => m.getD (off + j) 0)

/-! ### Word hash table (memstructs.c `WordHashTable`) -/

/-- `WordHashTabEntry` from memstructs.c.  `letters` is the absolute pool
address of the entry's NUL-terminated string (`0` models `NULL`);
`length` counts the terminator (`curPosition + 1`); `count == 0` marks an
empty slot; `displacement` is the signed offset from the ideal slot. -/
structure WordHashTabEntry where
  letters : Nat
  count : Nat
  length : Nat
  displacement : Int
  deriving DecidableEq, Repr

instance : Inhabited WordHashTabEntry := ⟨⟨0, 0, 0, 0⟩⟩

/-- `WordHashTable` from memstructs.c, with `HashStats` (the integer
counters) and `PrintFormatStats` inlined.  `entries` is the entry array
(capacity tracked in `capacity`); `alphOrderArray` is the list of its
first `size` cells.  The floating-point mean/median fields of `HashStats`
are presentation-only outputs of `WordHashTable_hstats_update` and are
not modelled. -/
structure WordHashTable where
  entries : List WordHashTabEntry
  alphOrderArray : List Nat
  capacity : Nat
  size : Nat
  stringsPool : MemoryPool
  totalInsertions : Nat
  totalCollisions : Nat
  maxLengthWordIndex : Nat
  maxCountWordIndex : Nat
  deriving DecidableEq, Repr

/-- `WordHashTable_create` from memstructs.c: zeroed entries and order
array, string pool of `6 * capacity` bytes at the given base address. -/
def WordHashTable_create (initCapacity : Nat) (poolBase : Nat) : WordHashTable where
  entries := List.replicate initCapacity default
  alphOrderArray := []
  capacity := initCapacity
  size := 0
  stringsPool :=
    { memBase := poolBase
      mem := List.replicate (6 * initCapacity) 0
      nextChar := 0
      capacity := 6 * initCapacity }
  totalInsertions := 0
  totalCollisions := 0
  maxLengthWordIndex := 0
  maxCountWordIndex := 0

/-- The word stored by the entry at slot `j`, read back through the pool:
`length - 1` bytes at the entry's address (the stored string without its
terminator). -/
def entryWordFn (entries : List WordHashTabEntry) (pool : MemoryPool) (j : Nat) : List Nat :=
  let e := entries.getD j default
  readBytes pool.mem (e.letters - pool.memBase) (e.length - 1)

/-- The word stored at slot `j` of the table. -/
def wordAt (t : WordHashTable) (j : Nat) : List Nat :=
  entryWordFn t.entries t.stringsPool j

/-- `orderArray_insert` from memstructs.c, on the reversed order array:
the C code scans backwards from the end, shifting every index whose word
compares `≥` the new word one cell to the right, and writes the new index
one past the first index whose word is strictly smaller. -/
def orderInsertRev (wordOf : Nat → List Nat) (newWord : List Nat) (ind : Nat) :
    List Nat → List Nat
  | [] => [ind]
  | j :: rest =>
    if c_strcmp newWord (wordOf j) ≤ 0 then j :: orderInsertRev wordOf newWord ind rest
    else ind :: j :: rest

/-- `orderArray_insert` from memstructs.c (the `size == 0` case writes at
cell 0, which coincides with insertion into the empty list). -/
def orderArray_insert (wordOf : Nat → List Nat) (newWord : List Nat) (ind : Nat)
    (order : List Nat) : List Nat :=
  (orderInsertRev wordOf newWord ind order.reverse).reverse

/-- The fast-path match pre-check of `WordHashTable_add_word`
(memstructs.c lines 633-637 and 715-719): same length, same displacement,
same first byte, same last byte.  The byte reads go through the pool at
the entry's address; `buf->letters[0]` and `buf->letters[curPosition-1]`
are the word's first and last byte. -/
def preCheckB (e : WordHashTabEntry) (pool : MemoryPool) (w : List Nat) (displ : Int) : Bool :=
  e.length == w.length + 1 && e.displacement == displ &&
  pool.mem.getD (e.letters - pool.memBase) 0 == w.getD 0 0 &&
  pool.mem.getD (e.letters - pool.memBase + (e.length - 2)) 0 == w.getD (w.length - 1) 0

/-- The body of one slot visit of `WordHashTable_add_word`'s probe loop:
on an empty slot, allocate from the pool (returning `DATA_STRUCT_FULL`
with the failed `NULL` assignment to the dead slot's `letters` if the
pool is full), copy the word, initialize the entry, insert the slot into
the alphabetical order array and update statistics; on an occupied slot,
increment the count if the fast-path pre-check matches; otherwise `none`
(probing continues). -/
def probeSlot (t : WordHashTable) (w : List Nat) (curIndex : Nat) (displ : Int) :
    Option (RetStatus × WordHashTable) :=
  let curEntry := t.entries.getD curIndex default
  if curEntry.count = 0 then
    match MemoryPool_alloc_block t.stringsPool (w.length + 1) with
    | (none, _) =>
      some (.DATA_STRUCT_FULL,
        { t with entries := t.entries.set curIndex { curEntry with letters := 0 } })
    | (some addr, pool1) =>
      let pool2 : MemoryPool := { pool1 with mem := writeBytes pool1.mem (addr - pool1.memBase) (w ++ [0]) }
      let newEntry : WordHashTabEntry :=
        { letters := addr, count := curEntry.count + 1, length := w.length + 1, displacement := displ }
      let entries1 := t.entries.set curIndex newEntry
      let order1 := orderArray_insert (entryWordFn entries1 pool2) w curIndex t.alphOrderArray
      let coll1 := if 0 < displ.natAbs then t.totalCollisions + displ.natAbs else t.totalCollisions
      let pf :=
        if t.size = 0 then (curIndex, curIndex)
        else
          let maxLengthWord := entries1.getD t.maxLengthWordIndex default
          if maxLengthWord.length < newEntry.length then (t.maxCountWordIndex, curIndex)
          else (t.maxCountWordIndex, t.maxLengthWordIndex)
      some (.SUCCESS,
        { entries := entries1
          alphOrderArray := order1
          capacity := t.capacity
          size := t.size + 1
          stringsPool := pool2
          totalInsertions := t.totalInsertions + 1
          totalCollisions := coll1
          maxCountWordIndex := pf.1
          maxLengthWordIndex := pf.2 })
  else
    if preCheckB curEntry t.stringsPool w displ then
      let entries1 := t.entries.set curIndex { curEntry with count := curEntry.count + 1 }
      let maxCountWord := entries1.getD t.maxCountWordIndex default
      let mc := if maxCountWord.count < curEntry.count + 1 then curIndex else t.maxCountWordIndex
      some (.SUCCESS, { t with entries := entries1, maxCountWordIndex := mc })
    else none

/-- The bidirectional probe loop of `WordHashTable_add_word`
(memstructs.c lines 570-739): at displacement `newDispl` it visits slot
`hashIndex + newDispl` when in range, then slot `hashIndex - newDispl`
when `newDispl ≤ hashIndex` and `0 < newDispl`, then increments the
displacement; the `do`-`while` guard keeps looping while
`hashIndex + newDispl < capacity` or `newDispl ≤ hashIndex`, and the
fall-through on exhaustion returns `GEN_FAIL`.  Recursion is driven by
the `gas` counter so that the definition computes by kernel reduction;
the loop guard bounds `newDispl` by `capacity + hashIndex`, so with the
`capacity + hashIndex + 1` gas supplied by `WordHashTable_add_word` the
gas-exhaustion branch is unreachable (`addWordLoop_gas_irrelevant`). -/
def addWordLoop (t : WordHashTable) (w : List Nat) (hashIndex : Nat) :
    Nat → Nat → RetStatus × WordHashTable
  | 0, _ => (.GEN_FAIL, t)
  | gas + 1, newDispl =>
    let step1 :=
      if hashIndex + newDispl < t.capacity then
        probeSlot t w (hashIndex + newDispl) (Int.ofNat newDispl)
      else none
    match step1 with
    | some r => r
    | none =>
      let step2 :=
        if newDispl ≤ hashIndex ∧ 0 < newDispl then
          probeSlot t w (hashIndex - newDispl) (-(Int.ofNat newDispl))
        else none
      match step2 with
      | some r => r
      | none =>
        if hashIndex + (newDispl + 1) < t.capacity ∨ newDispl + 1 ≤ hashIndex then
          addWordLoop t w hashIndex gas (newDispl + 1)
        else (.GEN_FAIL, t)

/-- `WordHashTable_add_word` from memstructs.c: hashes the buffer
(`curPosition + 1` bytes: the word plus its NUL), reduces modulo the
capacity and runs the probe loop from displacement 0. -/
def WordHashTable_add_word (t : WordHashTable) (w : List Nat) : RetStatus × WordHashTable :=
  let hashIndex := fnvhash (w ++ [0]) % t.capacity
  addWordLoop t w hashIndex (t.capacity + hashIndex + 1) 0

/-- `WordHashTable_size_below` from memstructs.c. -/
def WordHashTable_size_below (t : WordHashTable) (limitPrc : Nat) : Bool :=
  t.size < t.capacity * limitPrc / 100

/-- `stringPointers_update` from memstructs.c: rebases the string address
of every live entry (those listed in the order array) from the previous
pool base to the current one. -/
def stringPointers_update (t : WordHashTable) (prevPoolBase : Nat) : WordHashTable :=
  let rebase := fun (es : List WordHashTabEntry) (validIndex : Nat) =>
    let oldEntry := es.getD validIndex default
    es.set validIndex
      { oldEntry with letters := oldEntry.letters - prevPoolBase + t.stringsPool.memBase }
  { t with entries := t.alphOrderArray.foldl rebase t.entries }

/-- `WordHashTable_MemoryPool_expand` from memstructs.c: doubles the pool
and, if the backing store moved, rebases every live string pointer. -/
def WordHashTable_MemoryPool_expand (t : WordHashTable) (newBase : Nat) : WordHashTable :=
  let prevPoolBase := t.stringsPool.memBase
  let t1 := { t with stringsPool := MemoryPool_expand t.stringsPool newBase }
  if prevPoolBase = t1.stringsPool.memBase then t1
  else stringPointers_update t1 prevPoolBase

/-- The empty-slot-only probe loop of `WordHashTable_migrate`
(memstructs.c lines 817-904): same visit order and exhaustion guard as
`addWordLoop`, but looks only for an empty slot in the extended entry
array and reports the slot and signed displacement found; exhaustion
falls out of the loop with the entry unplaced (`none`).  As in
`addWordLoop`, the `gas` counter only drives the recursion and is
supplied large enough to be unreachable. -/
def migrateProbe (ext : List WordHashTabEntry) (capacity hashIndex : Nat) :
    Nat → Nat → Option (Nat × Int)
  | 0, _ => none
  | gas + 1, newDispl =>
    if hashIndex + newDispl < capacity ∧ (ext.getD (hashIndex + newDispl) default).count = 0 then
      some (hashIndex + newDispl, Int.ofNat newDispl)
    else if newDispl ≤ hashIndex ∧ 0 < newDispl ∧
        (ext.getD (hashIndex - newDispl) default).count = 0 then
      some (hashIndex - newDispl, -(Int.ofNat newDispl))
    else if hashIndex + (newDispl + 1) < capacity ∨ newDispl + 1 ≤ hashIndex then
      migrateProbe ext capacity hashIndex gas (newDispl + 1)
    else none

/-- One iteration of the `for` loop of `WordHashTable_migrate`: re-probe
the entry at old slot `alphOrderArray[i]` (hashing its stored bytes,
`length` of them, against the already-doubled capacity), place it at the
first empty slot of the extended array, rewrite `alphOrderArray[i]` to
the new slot, remap the max-count/max-length indices when the old index
coincides with them, and accumulate insertion/collision counters. -/
def migrateOne (acc : WordHashTable × List WordHashTabEntry) (i : Nat) :
    WordHashTable × List WordHashTabEntry :=
  let t := acc.1
  let ext := acc.2
  let oldIndex := t.alphOrderArray.getD i 0
  let oldEntry := t.entries.getD oldIndex default
  let hashIndex :=
    fnvhash (readBytes t.stringsPool.mem (oldEntry.letters - t.stringsPool.memBase) oldEntry.length)
      % t.capacity
  match migrateProbe ext t.capacity hashIndex (t.capacity + hashIndex + 1) 0 with
  | none => (t, ext)
  | some (curIndex, displ) =>
    let ext1 := ext.set curIndex
      { letters := oldEntry.letters, length := oldEntry.length,
        count := oldEntry.count, displacement := displ }
    let order1 := t.alphOrderArray.set i curIndex
    let mc := if oldIndex = t.maxCountWordIndex then curIndex else t.maxCountWordIndex
    let ml := if oldIndex = t.maxLengthWordIndex then curIndex else t.maxLengthWordIndex
    let coll1 := if 0 < displ.natAbs then t.totalCollisions + displ.natAbs else t.totalCollisions
    let t1 :=
      { t with
        alphOrderArray := order1
        maxCountWordIndex := mc
        maxLengthWordIndex := ml
        totalInsertions := t.totalInsertions + 1
        totalCollisions := coll1 }
    (t1, ext1)

/-- `WordHashTable_migrate` from memstructs.c: rehashes the `size` live
entries, in alphabetical-index order, into the extended entry array. -/
def WordHashTable_migrate (t : WordHashTable) (ext0 : List WordHashTabEntry) :
    WordHashTable × List WordHashTabEntry :=
  (List.range t.size).foldl migrateOne (t, ext0)

/-- `WordHashTable_expand` from memstructs.c: doubles the capacity
(the order array reallocation preserves its contents), expands the pool
first when its usage is at least 80% (with pointer rebasing), migrates
every live entry into a zeroed entry array of the new capacity and
installs that array. -/
def WordHashTable_expand (t : WordHashTable) (newPoolBase : Nat) : WordHashTable :=
  let t1 := { t with capacity := t.capacity * 2 }
  let t2 :=
    if MemoryPool_size_below t1.stringsPool 80 then t1
    else WordHashTable_MemoryPool_expand t1 newPoolBase
  let r := WordHashTable_migrate t2 (List.replicate t2.capacity default)
  { r.1 with entries := r.2 }

/-- The observable output of `WordHashTable_count_print` from
memstructs.c: the `(word, count)` rows in alphabetical-index order
(the column formatting is presentation). -/
def WordHashTable_report (t : WordHashTable) : List (List Nat × Nat) :=
  t.alphOrderArray.map (fun j => (wordAt t j, (t.entries.getD j default).count))

/-! ### The driver (wordcount.c `main`) -/

/-- The model's deterministic choice of where a moving `realloc` places
the grown pool: just past the old block.  The pipeline theorems do not
depend on this choice (the report never mentions addresses); theorems
about relocation quantify over the new base explicitly. -/
def movedBase (memp : MemoryPool) : Nat := memp.memBase + memp.capacity

/-- The pool-retry loop of `main` (wordcount.c lines 116-132): while
`WordHashTable_add_word` reports `DATA_STRUCT_FULL`, expand the pool and
retry the same word.  The fuel models the possibility of `realloc`
failure: running out of fuel is the fatal out-of-memory exit, and
`retryFuel` fuel is proven sufficient for the loop to finish. -/
def addWithRetry : Nat → WordHashTable → List Nat → RetStatus × WordHashTable
  | 0, t, _ => (.GEN_FAIL, t)
  | fuel + 1, t, w =>
    match WordHashTable_add_word t w with
    | (.DATA_STRUCT_FULL, t1) =>
      addWithRetry fuel (WordHashTable_MemoryPool_expand t1 (movedBase t1.stringsPool)) w
    | r => r

/-- Fuel sufficient for `addWithRetry`: each pool doubling from a
positive capacity grows it by at least one byte, so this many doublings
exceed any allocation request of `w.length + 1` bytes. -/
def retryFuel (t : WordHashTable) (w : List Nat) : Nat :=
  t.stringsPool.nextChar + w.length + 2

/-- One iteration of `main`'s counting loop: add the word (with the
pool-retry loop), then expand the table once its occupancy is no longer
below 70%. -/
def processWord (t : WordHashTable) (w : List Nat) : RetStatus × WordHashTable :=
  match addWithRetry (retryFuel t w) t w with
  | (.SUCCESS, t1) =>
    if WordHashTable_size_below t1 70 then (.SUCCESS, t1)
    else (.SUCCESS, WordHashTable_expand t1 (movedBase t1.stringsPool))
  | r => r

/-- `main`'s counting loop over the Word Buffer Vector; a non-`SUCCESS`
status aborts the run (the process exits with a failure status). -/
def runWords : WordHashTable → List (List Nat) → RetStatus × WordHashTable
  | t, [] => (.SUCCESS, t)
  | t, w :: ws =>
    match processWord t w with
    | (.SUCCESS, t1) => runWords t1 ws
    | r => r

/-- The initial table capacity chosen by `main` (wordcount.c lines
92-96): the nearer of the two neighbouring powers of two, with the bias
rule `inputSize - floorSize ≥ floorSize / 2`. -/
def wtabInitSize (inputSize : Nat) : Nat :=
  let ceilSize := next_2power inputSize
  let floorSize := ceilSize / 2
  if floorSize / 2 ≤ inputSize - floorSize then ceilSize else floorSize

/-- The whole engine run of `main` on an input byte stream: tokenize,
create the table at the derived capacity (pool base address 0), and count
every token. -/
def wordcount_final (input : List Nat) : RetStatus × WordHashTable :=
  let toks := tokenize input
  runWords (WordHashTable_create (wtabInitSize toks.length) 0) toks

/-- The rows printed by `WordHashTable_count_print` at the end of a run. -/
def wordcountReport (input : List Nat) : List (List Nat × Nat) :=
  WordHashTable_report (wordcount_final input).2

/-- `main`'s observable outcome: the printed report on success, `none`
when the process exits with a failure status. -/
def wordcount_main (input : List Nat) : Option (List (List Nat × Nat)) :=
  match wordcount_final input with
  | (.SUCCESS, t) => some (WordHashTable_report t)
  | _ => none

/-- Feeding a word sequence directly into a table of capacity `cap`
with the pool-retry loop but no table expansion: the comparison run of
the idempotent-resize property, a table "created large enough to never
resize". -/
def runWordsNoResize : WordHashTable → List (List Nat) → RetStatus × WordHashTable
  | t, [] => (.SUCCESS, t)
  | t, w :: ws =>
    match addWithRetry (retryFuel t w) t w with
    | (.SUCCESS, t1) => runWordsNoResize t1 ws
    | r => r

/-! ### Specification-level definitions -/

/-- A valid token: non-empty, every byte nonzero and below 256.  Every
token the tokenizer produces is valid (`tokenize_validWord`). -/
def validWord (w : List Nat) : Prop := w ≠ [] ∧ ∀ b ∈ w, 0 < b ∧ b < 256

/-- The data the fast-path match pre-check can observe about a word:
its length, first byte and last byte. -/
def wordSig (w : List Nat) : Nat × Nat × Nat := (w.length, w.getD 0 0, w.getD (w.length - 1) 0)

/-- A collection of words none of which the fast-path pre-check can
confuse: any two words agreeing on (length, first byte, last byte) are
equal. -/
def Distinguishable (ws : List (List Nat)) : Prop :=
  ∀ w1 ∈ ws, ∀ w2 ∈ ws, wordSig w1 = wordSig w2 → w1 = w2

/-- Total count reported for word `w` by a report (0 when absent). -/
def reportCountFor (r : List (List Nat × Nat)) (w : List Nat) : Nat :=
  ((r.filter (fun p => p.1 = w)).map Prod.snd).sum

/-- Sum of all reported occurrence counts. -/
def sumCounts (r : List (List Nat × Nat)) : Nat := (r.map Prod.snd).sum

/-- The entry stored at slot `j`. -/
def entryAt (t : WordHashTable) (j : Nat) : WordHashTabEntry := t.entries.getD j default

/-- The pool offset of the string of the entry at slot `j`. -/
def offAt (t : WordHashTable) (j : Nat) : Nat := (entryAt t j).letters - t.stringsPool.memBase

/-- The ideal slot of the entry at slot `j`: the FNV-1a hash of its
stored bytes (`length` of them, the word plus its NUL) reduced modulo the
capacity — exactly what `WordHashTable_add_word` computes for the same
word and what `WordHashTable_migrate` recomputes from the entry. -/
def idealSlot (t : WordHashTable) (j : Nat) : Nat :=
  fnvhash (readBytes t.stringsPool.mem (offAt t j) (entryAt t j).length) % t.capacity

/-- Position of slot `i` in the bidirectional probe sequence issued from
ideal slot `h`: the sequence visits `h, h+1, h-1, h+2, h-2, …`, so slot
`h + d` has rank `2d - 1` (rank 0 for `d = 0`) and slot `h - d` has rank
`2d`. -/
def probeRank (h i : Nat) : Nat := if h ≤ i then 2 * (i - h) - 1 else 2 * (h - i)

/-- Soundness of one live slot `j` of the table: its string lies inside
the allocated prefix of the pool, is NUL-terminated with nonzero bytes
below 256 before the terminator, its stored displacement is exactly the
signed distance from its ideal slot, and every slot the probe sequence
from its ideal slot visits strictly before reaching `j` is occupied. -/
structure EntryOK (t : WordHashTable) (j : Nat) : Prop where
  base_le : t.stringsPool.memBase ≤ (entryAt t j).letters
  len2 : 2 ≤ (entryAt t j).length
  fits : offAt t j + (entryAt t j).length ≤ t.stringsPool.nextChar
  terminator : t.stringsPool.mem.getD (offAt t j + ((entryAt t j).length - 1)) 0 = 0
  bytes_pos : ∀ k < (entryAt t j).length - 1, 0 < t.stringsPool.mem.getD (offAt t j + k) 0
  bytes_lt : ∀ k < (entryAt t j).length - 1, t.stringsPool.mem.getD (offAt t j + k) 0 < 256
  ideal_displ : (idealSlot t j : Int) + (entryAt t j).displacement = j
  path_occupied : ∀ i < t.capacity,
    probeRank (idealSlot t j) i < probeRank (idealSlot t j) j → 0 < (entryAt t i).count

/-- Well-formedness of a table state, maintained by every engine
operation (`WF_reachable`). -/
structure WF (t : WordHashTable) : Prop where
  cap_pos : 0 < t.capacity
  entries_len : t.entries.length = t.capacity
  mem_len : t.stringsPool.mem.length = t.stringsPool.capacity
  pool_lt : t.stringsPool.nextChar < t.stringsPool.capacity
  order_len : t.alphOrderArray.length = t.size
  order_lt : ∀ j ∈ t.alphOrderArray, j < t.capacity
  order_live : ∀ j ∈ t.alphOrderArray, 0 < (entryAt t j).count
  live_in_order : ∀ j, j < t.capacity → 0 < (entryAt t j).count → j ∈ t.alphOrderArray
  sorted : t.alphOrderArray.Pairwise (fun a b => c_strcmp (wordAt t a) (wordAt t b) < 0)
  entries_ok : ∀ j ∈ t.alphOrderArray, EntryOK t j

/-- The engine states reachable by any sequence of
`WordHashTable_add_word` (on tokenizer-produced words),
`WordHashTable_expand` and `WordHashTable_MemoryPool_expand` operations
from a freshly created table of positive capacity. -/
inductive Reachable : WordHashTable → Prop where
  | create : ∀ cap base, 0 < cap → Reachable (WordHashTable_create cap base)
  | add : ∀ t w, Reachable t → validWord w → Reachable (WordHashTable_add_word t w).2
  | expand : ∀ t newPoolBase, Reachable t → Reachable (WordHashTable_expand t newPoolBase)
  | poolExpand : ∀ t newBase, Reachable t →
      Reachable (WordHashTable_MemoryPool_expand t newBase)

/-- The input text `as ac ac ac xa xb xc xd xe xf xg xh xi xj` (ASCII
bytes), which drives the engine through an expansion whose index
remapping corrupts the max-count tracking. -/
def stealInput : List Nat :=
  [97,115,32,97,99,32,97,99,32,97,99,32,120,97,32,120,98,32,120,99,32,120,100,32,
   120,101,32,120,102,32,120,103,32,120,104,32,120,105,32,120,106]

/-- The input text `aaa aea` (ASCII bytes): both words hash to the same
ideal slot at the capacities the run passes through, agree in length,
first and last character, and so are merged by the fast-path match
pre-check. -/
def mergeInput : List Nat := [97,97,97,32,97,101,97]

/-- Proof infrastructure: the state `probeSlot` produces when it inserts
`w` into the empty slot `curIndex` with displacement `displ`
(`probeSlot_empty_ok`). -/
def insertedTable (t : WordHashTable) (w : List Nat) (curIndex : Nat) (displ : Int) :
    WordHashTable :=
  let pool2 : MemoryPool :=
    { t.stringsPool with
      nextChar := t.stringsPool.nextChar + (w.length + 1)
      mem := writeBytes t.stringsPool.mem t.stringsPool.nextChar (w ++ [0]) }
  let newEntry : WordHashTabEntry :=
    { letters := t.stringsPool.memBase + t.stringsPool.nextChar
      count := 1
      length := w.length + 1
      displacement := displ }
  let entries1 := t.entries.set curIndex newEntry
  let order1 := orderArray_insert (entryWordFn entries1 pool2) w curIndex t.alphOrderArray
  let coll1 := if 0 < displ.natAbs then t.totalCollisions + displ.natAbs else t.totalCollisions
  let pf :=
    if t.size = 0 then (curIndex, curIndex)
    else
      let maxLengthWord := entries1.getD t.maxLengthWordIndex default
      if maxLengthWord.length < newEntry.length then (t.maxCountWordIndex, curIndex)
      else (t.maxCountWordIndex, t.maxLengthWordIndex)
  { entries := entries1
    alphOrderArray := order1
    capacity := t.capacity
    size := t.size + 1
    stringsPool := pool2
    totalInsertions := t.totalInsertions + 1
    totalCollisions := coll1
    maxCountWordIndex := pf.1
    maxLengthWordIndex := pf.2 }

/-- Proof infrastructure: the state `probeSlot` produces when the
fast-path pre-check matches at the occupied slot `curIndex`
(`probeSlot_occupied_match`). -/
def bumpedTable (t : WordHashTable) (curIndex : Nat) : WordHashTable :=
  let curEntry := t.entries.getD curIndex default
  let entries1 := t.entries.set curIndex { curEntry with count := curEntry.count + 1 }
  let maxCountWord := entries1.getD t.maxCountWordIndex default
  let mc := if maxCountWord.count < curEntry.count + 1 then curIndex else t.maxCountWordIndex
  { t with entries := entries1, maxCountWordIndex := mc }

/-- Proof infrastructure: the state `probeSlot` leaves behind when the
pool cannot fit the new word (`probeSlot_empty_full`): only the dead
slot's `letters` field has been overwritten with `NULL`. -/
def fullFailTable (t : WordHashTable) (curIndex : Nat) : WordHashTable :=
  let curEntry := t.entries.getD curIndex default
  { t with entries := t.entries.set curIndex { curEntry with letters := 0 } }

/-- Proof infrastructure: probing for `w` from its hash slot stops first
at slot `iStar`: visiting `iStar` yields an outcome, and every valid slot
of smaller probe rank is occupied with a failing pre-check. -/
def StopsAt (t : WordHashTable) (w : List Nat) (iStar : Nat) : Prop :=
  iStar < t.capacity ∧
  probeSlot t w iStar ((iStar : Int) - (fnvhash (w ++ [0]) % t.capacity)) ≠ none ∧
  ∀ i, i < t.capacity →
    probeRank (fnvhash (w ++ [0]) % t.capacity) i
      < probeRank (fnvhash (w ++ [0]) % t.capacity) iStar →
    probeSlot t w i ((i : Int) - (fnvhash (w ++ [0]) % t.capacity)) = none

/-- Bytes appended to the Word Buffer are nonzero and below 256. -/
def validBytes (w : List Nat) : Prop := ∀ b ∈ w, 0 < b ∧ b < 256

/-- The tokenizer invariant: the Word Buffer is empty between words,
non-empty inside a word, and of length at least 2 right after an in-word
symbol; all buffered bytes and all flushed tokens are valid. -/
def TokInv (s : TokState) : Prop :=
  (match s.1 with
    | .BETWEEN_WORDS => s.2.1 = []
    | .IN_WORD_AFTER_ALPHARITH => s.2.1 ≠ []
    | .IN_WORD_AFTER_SYMBOL => 2 ≤ s.2.1.length) ∧
  validBytes s.2.1 ∧ ∀ tok ∈ s.2.2, validWord tok

/-- A first empty slot for the migration probe issued from ideal slot
`hashIndex`: the slot is empty and every slot of strictly smaller probe
rank is occupied in the extended entry array. -/
def MStopsAt (ext : List WordHashTabEntry) (capacity hashIndex iStar : Nat) : Prop :=
  iStar < capacity ∧ (ext.getD iStar default).count = 0 ∧
  ∀ i, i < capacity → probeRank hashIndex i < probeRank hashIndex iStar →
    (ext.getD i default).count ≠ 0

/-- The old slot number stored at position `m` of the alphabetical index
of the pre-migration table. -/
def oldSlotAt (tp : WordHashTable) (m : Nat) : Nat := tp.alphOrderArray.getD m 0

/-- The entry being migrated from position `m` of the alphabetical
index. -/
def oldEntryAt (tp : WordHashTable) (m : Nat) : WordHashTabEntry :=
  tp.entries.getD (oldSlotAt tp m) default

/-- The hash slot `WordHashTable_migrate` recomputes for the entry at
position `m`, against the doubled capacity `C`. -/
def migHash (tp : WordHashTable) (C m : Nat) : Nat :=
  fnvhash (readBytes tp.stringsPool.mem
    ((oldEntryAt tp m).letters - tp.stringsPool.memBase)
    (oldEntryAt tp m).length) % C

/-- Proof infrastructure: the invariant of the `WordHashTable_migrate`
fold over the pre-migration table `tp` after the first `k` live entries
have been re-placed into the extended array. -/
def MigInv (tp : WordHashTable) (C k : Nat)
    (s : WordHashTable × List WordHashTabEntry) : Prop :=
  s.1.entries = tp.entries ∧
  s.1.stringsPool = tp.stringsPool ∧
  s.1.capacity = C ∧
  s.1.size = tp.size ∧
  s.2.length = C ∧
  s.1.alphOrderArray.length = tp.alphOrderArray.length ∧
  (∀ m, k ≤ m → s.1.alphOrderArray.getD m 0 = tp.alphOrderArray.getD m 0) ∧
  (∀ m1 m2, m1 < k → m2 < k → m1 ≠ m2 →
    s.1.alphOrderArray.getD m1 0 ≠ s.1.alphOrderArray.getD m2 0) ∧
  (∀ i, i < C → 0 < (s.2.getD i default).count →
    ∃ m, m < k ∧ s.1.alphOrderArray.getD m 0 = i) ∧
  (∀ m, m < k →
    s.1.alphOrderArray.getD m 0 < C ∧
    (s.2.getD (s.1.alphOrderArray.getD m 0) default).letters = (oldEntryAt tp m).letters ∧
    (s.2.getD (s.1.alphOrderArray.getD m 0) default).length = (oldEntryAt tp m).length ∧
    (s.2.getD (s.1.alphOrderArray.getD m 0) default).count = (oldEntryAt tp m).count ∧
    ((migHash tp C m : Nat) : Int)
        + (s.2.getD (s.1.alphOrderArray.getD m 0) default).displacement
      = s.1.alphOrderArray.getD m 0 ∧
    (∀ i, i < C → probeRank (migHash tp C m) i
        < probeRank (migHash tp C m) (s.1.alphOrderArray.getD m 0) →
      0 < (s.2.getD i default).count))

/-- One row update of the specification-level report model: increment
the count of the row holding word `w`. -/
def bumpRow (w : List Nat) (r : List (List Nat × Nat)) : List (List Nat × Nat) :=
  r.map (fun p => if p.1 = w then (p.1, p.2 + 1) else p)

/-- Sorted insertion of a fresh `(w, 1)` row before the first row whose
word compares greater or equal. -/
def insertRow (w : List Nat) : List (List Nat × Nat) → List (List Nat × Nat)
  | [] => [(w, 1)]
  | p :: rest =>
    if c_strcmp w p.1 ≤ 0 then (w, 1) :: p :: rest else p :: insertRow w rest

/-- The specification-level effect of counting one word in a report. -/
def modelAdd (r : List (List Nat × Nat)) (w : List Nat) : List (List Nat × Nat) :=
  if w ∈ r.map Prod.fst then bumpRow w r else insertRow w r

/-- The reference report of a token list: fold the one-word effect over
the tokens, starting from the empty report. -/
def modelReport (toks : List (List Nat)) : List (List Nat × Nat) :=
  toks.foldl modelAdd []

/-- The number of occurrences of `u` in a list of words. -/
def countTok (u : List Nat) (l : List (List Nat)) : Nat :=
  l.countP (fun v => v = u)

/-! ## Theorems -/

/-! ### Tokenizer facts -/

theorem get_char_type_LETTER {c : Nat} (h : get_char_type c = .LETTER) :
    97 ≤ to_lowercase c ∧ to_lowercase c ≤ 122 := by
  unfold get_char_type at h
  split at h
  · rename_i hl
    unfold is_letter at hl
    simp only [Bool.and_eq_true, decide_eq_true_eq] at hl
    exact hl
  · split at h <;> [skip; split at h] <;> simp_all

theorem get_char_type_NUMBER {c : Nat} (h : get_char_type c = .NUMBER) :
    48 ≤ c ∧ c ≤ 57 := by
  unfold get_char_type at h
  split at h
  · simp_all
  · split at h
    · rename_i hn
      unfold is_number at hn
      simp only [Bool.and_eq_true, decide_eq_true_eq] at hn
      exact hn
    · split at h <;> simp_all

theorem get_char_type_SYMBOL {c : Nat} (h : get_char_type c = .IN_WORD_SYMBOL) :
    c = 45 ∨ c = 39 ∨ c = 37 ∨ c = 44 ∨ c = 46 ∨ c = 64 := by
  unfold get_char_type at h
  split at h
  · simp_all
  · split at h
    · simp_all
    · split at h
      · rename_i hs
        unfold is_inword_symbol at hs
        simp only [Bool.or_eq_true, beq_iff_eq] at hs
        tauto
      · simp_all

theorem validBytes_append {w : List Nat} {c : Nat} (hw : validBytes w)
    (h0 : 0 < c) (h1 : c < 256) : validBytes (w ++ [c]) := by
  intro b hb
  rcases List.mem_append.1 hb with h | h
  · exact hw b h
  · simp only [List.mem_singleton] at h
    subst h
    exact ⟨h0, h1⟩

theorem validBytes_dropLast {w : List Nat} (hw : validBytes w) : validBytes w.dropLast :=
  fun b hb => hw b (List.dropLast_sublist w |>.mem hb)

theorem toksValid_append {toks : List (List Nat)} {b : List Nat}
    (htoks : ∀ tok ∈ toks, validWord tok) (hb : validWord b) :
    ∀ tok ∈ toks ++ [b], validWord tok := by
  intro tok htok
  rcases List.mem_append.1 htok with h | h
  · exact htoks tok h
  · simp only [List.mem_singleton] at h
    subst h
    exact hb

theorem dropLast_ne_nil {buf : List Nat} (h : 2 ≤ buf.length) : buf.dropLast ≠ [] := by
  have hl : buf.dropLast.length = buf.length - 1 := List.length_dropLast buf
  intro hnil
  rw [hnil] at hl
  simp at hl
  omega

theorem tokenizeStep_inv {s : TokState} {c : Nat} (h : TokInv s) : TokInv (tokenizeStep s c) := by
  obtain ⟨st, buf, toks⟩ := s
  obtain ⟨hbuf, hval, htoks⟩ := h
  simp only [TokInv] at hbuf
  rcases st with _ | _ | _ <;> rcases hct : get_char_type c with _ | _ | _ | _ <;>
      simp only [tokenizeStep, hct, TokInv]
  -- BETWEEN_WORDS, LETTER
  · obtain ⟨hlo, hhi⟩ := get_char_type_LETTER hct
    exact ⟨by simp, validBytes_append hval (by omega) (by omega), htoks⟩
  -- BETWEEN_WORDS, NUMBER
  · obtain ⟨hlo, hhi⟩ := get_char_type_NUMBER hct
    exact ⟨by simp, validBytes_append hval (by omega) (by omega), htoks⟩
  -- BETWEEN_WORDS, IN_WORD_SYMBOL
  · exact ⟨hbuf, hval, htoks⟩
  -- BETWEEN_WORDS, OTHER_SYMBOL
  · exact ⟨hbuf, hval, htoks⟩
  -- IN_WORD_AFTER_ALPHARITH, LETTER
  · obtain ⟨hlo, hhi⟩ := get_char_type_LETTER hct
    exact ⟨by simp, validBytes_append hval (by omega) (by omega), htoks⟩
  -- IN_WORD_AFTER_ALPHARITH, NUMBER
  · obtain ⟨hlo, hhi⟩ := get_char_type_NUMBER hct
    exact ⟨by simp, validBytes_append hval (by omega) (by omega), htoks⟩
  -- IN_WORD_AFTER_ALPHARITH, IN_WORD_SYMBOL: buffer grows to length ≥ 2
  · rcases get_char_type_SYMBOL hct with h45 | h39 | h37 | h44 | h46 | h64 <;>
      subst_vars <;>
      refine ⟨?_, validBytes_append hval (by omega) (by omega), htoks⟩ <;>
      · have : 1 ≤ buf.length := List.length_pos.2 hbuf
        simp only [List.length_append, List.length_singleton]
        omega
  -- IN_WORD_AFTER_ALPHARITH, OTHER_SYMBOL: flush the buffer
  · exact ⟨True.intro, (by intro b hb; cases hb), toksValid_append htoks ⟨hbuf, hval⟩⟩
  -- IN_WORD_AFTER_SYMBOL, LETTER
  · obtain ⟨hlo, hhi⟩ := get_char_type_LETTER hct
    exact ⟨by simp, validBytes_append hval (by omega) (by omega), htoks⟩
  -- IN_WORD_AFTER_SYMBOL, NUMBER
  · obtain ⟨hlo, hhi⟩ := get_char_type_NUMBER hct
    exact ⟨by simp, validBytes_append hval (by omega) (by omega), htoks⟩
  -- IN_WORD_AFTER_SYMBOL, IN_WORD_SYMBOL: backspace then flush
  · exact ⟨True.intro, (by intro b hb; cases hb),
      toksValid_append htoks ⟨dropLast_ne_nil hbuf, validBytes_dropLast hval⟩⟩
  -- IN_WORD_AFTER_SYMBOL, OTHER_SYMBOL: backspace then flush
  · exact ⟨True.intro, (by intro b hb; cases hb),
      toksValid_append htoks ⟨dropLast_ne_nil hbuf, validBytes_dropLast hval⟩⟩

theorem tokenize_foldl_inv {s : TokState} (h : TokInv s) (input : List Nat) :
    TokInv (input.foldl tokenizeStep s) := by
  induction input generalizing s with
  | nil => exact h
  | cons c rest ih => exact ih (tokenizeStep_inv h)

/-- Every token the tokenizer flushes is a valid word: non-empty with
nonzero bytes below 256. -/
theorem tokenize_validWord (input : List Nat) : ∀ tok ∈ tokenize input, validWord tok := by
  have hinv : TokInv (input.foldl tokenizeStep (.BETWEEN_WORDS, [], [])) := by
    refine tokenize_foldl_inv ⟨rfl, ?_, ?_⟩ input
    · intro b hb
      cases hb
    · intro tok htok
      cases htok
  unfold tokenize
  generalize input.foldl tokenizeStep (.BETWEEN_WORDS, [], []) = s at hinv ⊢
  obtain ⟨st, buf, toks⟩ := s
  obtain ⟨hbuf, hval, htoks⟩ := hinv
  unfold tokenizeFinish
  rcases st with _ | _ | _
  · exact htoks
  · exact toksValid_append htoks ⟨hbuf, hval⟩
  · exact toksValid_append htoks ⟨dropLast_ne_nil hbuf, validBytes_dropLast hval⟩

end WordCounter

namespace WordCounter

theorem tokenize_foldl_between {input : List Nat} {buf : List Nat} {toks : List (List Nat)}
    (h : ∀ c ∈ input, get_char_type c ≠ .LETTER ∧ get_char_type c ≠ .NUMBER) :
    input.foldl tokenizeStep (.BETWEEN_WORDS, buf, toks) = (.BETWEEN_WORDS, buf, toks) := by
  induction input with
  | nil => rfl
  | cons c rest ih =>
    have hc := h c (List.mem_cons_self c rest)
    have hstep : tokenizeStep (.BETWEEN_WORDS, buf, toks) c = (.BETWEEN_WORDS, buf, toks) := by
      rcases hct : get_char_type c with _ | _ | _ | _
      · exact absurd hct hc.1
      · exact absurd hct hc.2
      · simp [tokenizeStep, hct]
      · simp [tokenizeStep, hct]
    rw [List.foldl_cons, hstep]
    exact ih (fun cc hcc => h cc (List.mem_cons_of_mem c hcc))

/-- C10: every token the tokenizer pushes into the Token List is
non-empty (length ≥ 1): a word is only started by appending an
alphanumeric character, and the backspace-before-flush path removes only
the single trailing symbol of a buffer of length at least 2.
Consequently the `letters[0]` and `letters[curPosition-1]` reads of the
match pre-check stay inside the token. -/
theorem C10_tokens_nonempty (input : List Nat) :
    ∀ tok ∈ tokenize input, 1 ≤ tok.length := by
  intro tok htok
  have hv := tokenize_validWord input tok htok
  have := List.length_pos.2 hv.1
  omega

/-- Witness for C10 at a concrete input: the single token of input `a`
is non-empty. -/
theorem C10_tokens_nonempty_witness : 1 ≤ ([97] : List Nat).length :=
  C10_tokens_nonempty [97] [97] (by decide)

/-- C4 fails as stated: on input `a--b` the tokenizer does NOT produce
the single token `a--b`; the second consecutive symbol retroactively
terminates the word, yielding tokens `a` and `b`. -/
theorem C4_counterexample :
    tokenize [97, 45, 45, 98] = [[97], [98]] ∧
    tokenize [97, 45, 45, 98] ≠ [[97, 45, 45, 98]] := by
  constructor
  · decide
  · decide

/-- C4 (amended): the tokenizer boundary cases as the code implements
them: `it's` → one token `it's`; `end.` → one token `end`; `a--b` →
tokens `a`,`b` (the second consecutive in-word symbol ends the word, as
does whitespace in `a-- b`); empty input → zero tokens; input consisting
only of symbols/whitespace (no letters or digits) → zero tokens. -/
theorem C4_amended :
    tokenize [105, 116, 39, 115] = [[105, 116, 39, 115]] ∧
    tokenize [101, 110, 100, 46] = [[101, 110, 100]] ∧
    tokenize [97, 45, 45, 98] = [[97], [98]] ∧
    tokenize [97, 45, 45, 32, 98] = [[97], [98]] ∧
    tokenize [] = [] ∧
    ∀ input : List Nat,
      (∀ c ∈ input, get_char_type c ≠ .LETTER ∧ get_char_type c ≠ .NUMBER) →
      tokenize input = [] := by
  refine ⟨by decide, by decide, by decide, by decide, by decide, ?_⟩
  intro input h
  unfold tokenize
  rw [tokenize_foldl_between h]
  rfl

/-- Witness for C4 (amended) at a concrete input: the symbols-only
input `- .` tokenizes to nothing. -/
theorem C4_amended_witness : tokenize [45, 32, 46] = [] :=
  C4_amended.2.2.2.2.2 [45, 32, 46] (by decide)

end WordCounter

namespace WordCounter

/-! ### List and byte-store lemmas -/

theorem getD_set_eq {l : List Nat} {i : Nat} {v d : Nat} (h : i < l.length) :
    (l.set i v).getD i d = v := by
  rw [List.getD_eq_getElem _ _ (by simpa using h)]
  simp

theorem getD_set_ne {l : List Nat} {i j : Nat} {v d : Nat} (h : i ≠ j) :
    (l.set i v).getD j d = l.getD j d := by
  rcases Nat.lt_or_ge j l.length with hj | hj
  · rw [List.getD_eq_getElem _ _ (by simpa using hj), List.getD_eq_getElem _ _ hj]
    exact List.getElem_set_ne h _
  · rw [List.getD_eq_default _ _ (by simpa using hj), List.getD_eq_default _ _ hj]

theorem getD_set_eq' {l : List WordHashTabEntry} {i : Nat} {v d : WordHashTabEntry}
    (h : i < l.length) : (l.set i v).getD i d = v := by
  rw [List.getD_eq_getElem _ _ (by simpa using h)]
  simp

theorem getD_set_ne' {l : List WordHashTabEntry} {i j : Nat} {v d : WordHashTabEntry}
    (h : i ≠ j) : (l.set i v).getD j d = l.getD j d := by
  rcases Nat.lt_or_ge j l.length with hj | hj
  · rw [List.getD_eq_getElem _ _ (by simpa using hj), List.getD_eq_getElem _ _ hj]
    exact List.getElem_set_ne h _
  · rw [List.getD_eq_default _ _ (by simpa using hj), List.getD_eq_default _ _ hj]

theorem writeBytes_length (bs : List Nat) (m : List Nat) (off : Nat) :
    (writeBytes m off bs).length = m.length := by
  induction bs generalizing m off with
  | nil => rfl
  | cons b rest ih => rw [writeBytes, ih, List.length_set]

theorem writeBytes_getD_low {bs : List Nat} {m : List Nat} {off x : Nat} (h : x < off) :
    (writeBytes m off bs).getD x 0 = m.getD x 0 := by
  induction bs generalizing m off with
  | nil => rfl
  | cons b rest ih =>
    rw [writeBytes, ih (by omega), getD_set_ne (by omega)]

theorem writeBytes_getD_high {bs : List Nat} {m : List Nat} {off x : Nat}
    (h : off + bs.length ≤ x) : (writeBytes m off bs).getD x 0 = m.getD x 0 := by
  induction bs generalizing m off with
  | nil => rfl
  | cons b rest ih =>
    rw [List.length_cons] at h
    rw [writeBytes, ih (by omega), getD_set_ne (by omega)]

theorem writeBytes_getD_in {bs : List Nat} {m : List Nat} {off k : Nat}
    (hk : k < bs.length) (hfit : off + bs.length ≤ m.length) :
    (writeBytes m off bs).getD (off + k) 0 = bs.getD k 0 := by
  induction bs generalizing m off k with
  | nil => cases hk
  | cons b rest ih =>
    rw [writeBytes]
    rcases k with _ | k
    · rw [writeBytes_getD_low (by omega), Nat.add_zero, getD_set_eq (by simp at hfit ⊢; omega)]
      rfl
    · have : off + (k + 1) = (off + 1) + k := by omega
      rw [List.length_cons] at hfit
      rw [this, ih (by simpa using hk) (by simp; omega)]
      rfl

theorem readBytes_length (m : List Nat) (off n : Nat) : (readBytes m off n).length = n := by
  simp [readBytes]

theorem readBytes_getD {m : List Nat} {off n k : Nat} (hk : k < n) :
    (readBytes m off n).getD k 0 = m.getD (off + k) 0 := by
  unfold readBytes
  rw [List.getD_eq_getElem _ _ (by simpa using hk)]
  simp

theorem readBytes_congr {m1 m2 : List Nat} {off1 off2 n : Nat}
    (h : ∀ k < n, m1.getD (off1 + k) 0 = m2.getD (off2 + k) 0) :
    readBytes m1 off1 n = readBytes m2 off2 n := by
  unfold readBytes
  exact List.map_congr_left (fun j hj => h j (List.mem_range.1 hj))

theorem readBytes_writeBytes_self {bs : List Nat} {m : List Nat} {off : Nat}
    (hfit : off + bs.length ≤ m.length) :
    readBytes (writeBytes m off bs) off bs.length = bs := by
  apply List.ext_getElem
  · simp [readBytes_length]
  · intro k h1 h2
    rw [← List.getD_eq_getElem _ 0 h1, ← List.getD_eq_getElem _ 0 h2,
      readBytes_getD (by simpa [readBytes_length] using h1), writeBytes_getD_in (by simpa using h2) hfit]

/-! ### Lexicographic comparison lemmas -/

theorem c_strcmp_eq_zero_iff : ∀ {a b : List Nat}, c_strcmp a b = 0 ↔ a = b := by
  intro a
  induction a with
  | nil =>
    intro b
    cases b <;> simp [c_strcmp]
  | cons x xs ih =>
    intro b
    cases b with
    | nil => simp [c_strcmp]
    | cons y ys =>
      unfold c_strcmp
      split
      · rename_i hlt
        constructor
        · intro h
          cases h
        · intro h
          injection h with h1 _
          omega
      · split
        · rename_i hgt
          constructor
          · intro h
            cases h
          · intro h
            injection h with h1 _
            omega
        · rename_i h1 h2
          have hxy : x = y := by omega
          subst hxy
          rw [ih]
          constructor
          · intro h
            rw [h]
          · intro h
            injection h

theorem c_strcmp_neg : ∀ (a b : List Nat), c_strcmp a b = -(c_strcmp b a) := by
  intro a
  induction a with
  | nil =>
    intro b
    cases b <;> simp [c_strcmp]
  | cons x xs ih =>
    intro b
    cases b with
    | nil => simp [c_strcmp]
    | cons y ys =>
      unfold c_strcmp
      rcases Nat.lt_trichotomy x y with h | h | h
      · rw [if_pos h, if_neg (show ¬ y < x by omega), if_pos h]
      · subst h
        rw [if_neg (by omega), if_neg (by omega), if_neg (by omega), if_neg (by omega)]
        exact ih ys
      · rw [if_neg (show ¬ x < y by omega), if_pos h, if_pos h]
        decide

theorem c_strcmp_lt_trans : ∀ {a b c : List Nat},
    c_strcmp a b < 0 → c_strcmp b c < 0 → c_strcmp a c < 0 := by
  intro a
  induction a with
  | nil =>
    intro b c hab hbc
    cases c with
    | nil =>
      cases b with
      | nil => simp [c_strcmp] at hab
      | cons y ys => simp [c_strcmp] at hbc
    | cons z zs => simp [c_strcmp]
  | cons x xs ih =>
    intro b c hab hbc
    cases b with
    | nil => simp [c_strcmp] at hab
    | cons y ys =>
      cases c with
      | nil => simp [c_strcmp] at hbc
      | cons z zs =>
        unfold c_strcmp at hab hbc ⊢
        rcases Nat.lt_trichotomy x y with hxy | hxy | hxy
        · rcases Nat.lt_trichotomy y z with hyz | hyz | hyz
          · rw [if_pos (by omega)]
            exact (by omega)
          · subst hyz
            rw [if_pos (by omega)]
            omega
          · rw [if_neg (by omega), if_pos hyz] at hbc
            omega
        · subst hxy
          rw [if_neg (by omega), if_neg (by omega)] at hab
          rcases Nat.lt_trichotomy x z with hyz | hyz | hyz
          · rw [if_pos hyz]
            omega
          · subst hyz
            rw [if_neg (by omega), if_neg (by omega)] at hbc ⊢
            exact ih hab hbc
          · rw [if_neg (by omega), if_pos hyz] at hbc
            omega
        · rw [if_neg (by omega), if_pos hxy] at hab
          omega

theorem c_strcmp_pos_of_not_le {a b : List Nat} (h : ¬ c_strcmp a b ≤ 0) :
    c_strcmp b a < 0 := by
  have := c_strcmp_neg a b
  omega

end WordCounter

namespace WordCounter

/-! ### Probe rank arithmetic -/

theorem probeRank_plus {h i : Nat} (hle : h ≤ i) : probeRank h i = 2 * (i - h) - 1 := by
  unfold probeRank
  rw [if_pos hle]

theorem probeRank_minus {h i : Nat} (hlt : i < h) : probeRank h i = 2 * (h - i) := by
  unfold probeRank
  rw [if_neg (by omega)]

theorem probeRank_inj {h i j : Nat} (hij : probeRank h i = probeRank h j) : i = j := by
  unfold probeRank at hij
  rcases le_or_lt h i with hi | hi <;> rcases le_or_lt h j with hj | hj
  · rw [if_pos hi, if_pos hj] at hij
    omega
  · rw [if_pos hi, if_neg (by omega)] at hij
    omega
  · rw [if_neg (by omega), if_pos hj] at hij
    omega
  · rw [if_neg (by omega), if_neg (by omega)] at hij
    omega

/-! ### probeSlot outcome characterization -/

theorem probeSlot_occupied_nomatch {t : WordHashTable} {w : List Nat} {i : Nat} {displ : Int}
    (h0 : (entryAt t i).count ≠ 0)
    (hpre : preCheckB (entryAt t i) t.stringsPool w displ = false) :
    probeSlot t w i displ = none := by
  unfold probeSlot
  unfold entryAt at h0 hpre
  rw [if_neg h0, if_neg (by rw [hpre]; simp)]

theorem probeSlot_occupied_match {t : WordHashTable} {w : List Nat} {i : Nat} {displ : Int}
    (h0 : (entryAt t i).count ≠ 0)
    (hpre : preCheckB (entryAt t i) t.stringsPool w displ = true) :
    probeSlot t w i displ = some (.SUCCESS, bumpedTable t i) := by
  unfold probeSlot bumpedTable
  unfold entryAt at h0 hpre
  rw [if_neg h0, if_pos hpre]

theorem probeSlot_empty_full {t : WordHashTable} {w : List Nat} {i : Nat} {displ : Int}
    (h0 : (entryAt t i).count = 0)
    (hfull : ¬ t.stringsPool.nextChar + (w.length + 1) < t.stringsPool.capacity) :
    probeSlot t w i displ = some (.DATA_STRUCT_FULL, fullFailTable t i) := by
  unfold probeSlot fullFailTable MemoryPool_alloc_block
  unfold entryAt at h0
  rw [if_pos h0, if_neg hfull]

theorem probeSlot_empty_ok {t : WordHashTable} {w : List Nat} {i : Nat} {displ : Int}
    (h0 : (entryAt t i).count = 0)
    (hroom : t.stringsPool.nextChar + (w.length + 1) < t.stringsPool.capacity) :
    probeSlot t w i displ = some (.SUCCESS, insertedTable t w i displ) := by
  unfold probeSlot insertedTable MemoryPool_alloc_block
  unfold entryAt at h0
  rw [if_pos h0, if_pos hroom]
  simp only [Nat.add_sub_cancel_left, h0, Nat.zero_add]

theorem probeSlot_eq_none_iff {t : WordHashTable} {w : List Nat} {i : Nat} {displ : Int} :
    probeSlot t w i displ = none ↔
    ((entryAt t i).count ≠ 0 ∧ preCheckB (entryAt t i) t.stringsPool w displ = false) := by
  constructor
  · intro hnone
    by_cases h0 : (entryAt t i).count = 0
    · by_cases hroom : t.stringsPool.nextChar + (w.length + 1) < t.stringsPool.capacity
      · rw [probeSlot_empty_ok h0 hroom] at hnone
        cases hnone
      · rw [probeSlot_empty_full h0 hroom] at hnone
        cases hnone
    · by_cases hpre : preCheckB (entryAt t i) t.stringsPool w displ = true
      · rw [probeSlot_occupied_match h0 hpre] at hnone
        cases hnone
      · exact ⟨h0, by simpa using hpre⟩
  · intro ⟨h0, hpre⟩
    exact probeSlot_occupied_nomatch h0 hpre

end WordCounter

namespace WordCounter

/-! ### Probe loop characterization -/

theorem addWordLoop_exhaust {t : WordHashTable} {w : List Nat} {hashIndex : Nat}
    (hcap : hashIndex < t.capacity)
    (hall : ∀ i, i < t.capacity → probeSlot t w i ((i : Int) - hashIndex) = none) :
    ∀ gas newDispl, addWordLoop t w hashIndex gas newDispl = (.GEN_FAIL, t) := by
  intro gas
  induction gas with
  | zero => intro newDispl; rfl
  | succ gas ih =>
    intro newDispl
    rw [addWordLoop]
    have hstep1 : (if hashIndex + newDispl < t.capacity then
        probeSlot t w (hashIndex + newDispl) (Int.ofNat newDispl) else none) = none := by
      split
      · rename_i hin
        have := hall (hashIndex + newDispl) hin
        rw [show ((hashIndex + newDispl : Nat) : Int) - hashIndex = Int.ofNat newDispl by
          rw [Int.ofNat_eq_natCast]; omega] at this
        exact this
      · rfl
    simp only [hstep1]
    have hstep2 : (if newDispl ≤ hashIndex ∧ 0 < newDispl then
        probeSlot t w (hashIndex - newDispl) (-(Int.ofNat newDispl)) else none) = none := by
      split
      · rename_i hc
        have := hall (hashIndex - newDispl) (by omega)
        rw [show ((hashIndex - newDispl : Nat) : Int) - hashIndex = -(Int.ofNat newDispl) by
          rw [Int.ofNat_eq_natCast]; omega] at this
        exact this
      · rfl
    simp only [hstep2]
    split
    · exact ih (newDispl + 1)
    · rfl

end WordCounter

namespace WordCounter

theorem addWordLoop_reaches {t : WordHashTable} {w : List Nat} {hashIndex iStar : Nat}
    {r : RetStatus × WordHashTable} (hcap : hashIndex < t.capacity) (hi : iStar < t.capacity)
    (hbefore : ∀ i, i < t.capacity → probeRank hashIndex i < probeRank hashIndex iStar →
      probeSlot t w i ((i : Int) - hashIndex) = none)
    (hstop : probeSlot t w iStar ((iStar : Int) - hashIndex) = some r) :
    ∀ gas newDispl, gas + newDispl = t.capacity + hashIndex + 1 →
      2 * newDispl - 1 ≤ probeRank hashIndex iStar →
      addWordLoop t w hashIndex gas newDispl = r := by
  intro gas
  induction gas with
  | zero =>
    intro newDispl hsum hrank
    exfalso
    have hr : probeRank hashIndex iStar ≤ 2 * t.capacity + 2 * hashIndex := by
      unfold probeRank
      split <;> omega
    omega
  | succ gas ih =>
    intro newDispl hsum hrank
    rw [addWordLoop]
    by_cases hi1 : hashIndex + newDispl = iStar
    · -- the forward probe hits the target
      have hin : hashIndex + newDispl < t.capacity := hi1 ▸ hi
      have : (if hashIndex + newDispl < t.capacity then
          probeSlot t w (hashIndex + newDispl) (Int.ofNat newDispl) else none) = some r := by
        rw [if_pos hin, hi1,
          show Int.ofNat newDispl = (iStar : Int) - hashIndex by rw [Int.ofNat_eq_natCast]; omega]
        exact hstop
      simp only [this]
    · have hstep1 : (if hashIndex + newDispl < t.capacity then
          probeSlot t w (hashIndex + newDispl) (Int.ofNat newDispl) else none) = none := by
        split
        · rename_i hin
          have hrk1 : probeRank hashIndex (hashIndex + newDispl) = 2 * newDispl - 1 := by
            rw [probeRank_plus (by omega)]
            omega
          have hlt : probeRank hashIndex (hashIndex + newDispl) < probeRank hashIndex iStar := by
            rcases Nat.lt_or_ge (probeRank hashIndex (hashIndex + newDispl))
              (probeRank hashIndex iStar) with h | h
            · exact h
            · exfalso
              have : probeRank hashIndex (hashIndex + newDispl) = probeRank hashIndex iStar := by
                omega
              exact hi1 (probeRank_inj this)
          have := hbefore (hashIndex + newDispl) hin hlt
          rw [show ((hashIndex + newDispl : Nat) : Int) - hashIndex = Int.ofNat newDispl by
            rw [Int.ofNat_eq_natCast]; omega] at this
          exact this
        · rfl
      simp only [hstep1]
      by_cases hi2 : (newDispl ≤ hashIndex ∧ 0 < newDispl) ∧ hashIndex - newDispl = iStar
      · have : (if newDispl ≤ hashIndex ∧ 0 < newDispl then
            probeSlot t w (hashIndex - newDispl) (-(Int.ofNat newDispl)) else none) = some r := by
          rw [if_pos hi2.1, hi2.2,
            show -(Int.ofNat newDispl) = (iStar : Int) - hashIndex by
              rw [Int.ofNat_eq_natCast]
              have := hi2.2
              have := hi2.1.1
              omega]
          exact hstop
        simp only [this]
      · have hstep2 : (if newDispl ≤ hashIndex ∧ 0 < newDispl then
            probeSlot t w (hashIndex - newDispl) (-(Int.ofNat newDispl)) else none) = none := by
          split
          · rename_i hc
            have hne : hashIndex - newDispl ≠ iStar := fun he => hi2 ⟨hc, he⟩
            have hrk2 : probeRank hashIndex (hashIndex - newDispl) = 2 * newDispl := by
              rw [probeRank_minus (by omega)]
              omega
            have hlt : probeRank hashIndex (hashIndex - newDispl) < probeRank hashIndex iStar := by
              rcases Nat.lt_or_ge (probeRank hashIndex (hashIndex - newDispl))
                (probeRank hashIndex iStar) with h | h
              · exact h
              · exfalso
                -- rank of the backward probe is 2*newDispl ≥ rank iStar ≥ 2*newDispl - 1;
                -- equality would force the slots equal
                have heq : probeRank hashIndex (hashIndex - newDispl) = probeRank hashIndex iStar
                    ∨ probeRank hashIndex iStar = 2 * newDispl - 1 := by omega
                rcases heq with heq | heq
                · exact hne (probeRank_inj heq)
                · -- rank iStar = 2*newDispl - 1 is the rank of the forward slot, which differs
                  rcases Nat.eq_zero_or_pos newDispl with h0 | h0
                  · subst h0
                    have : probeRank hashIndex iStar = 0 := by omega
                    have : probeRank hashIndex hashIndex = probeRank hashIndex iStar := by
                      rw [probeRank_plus (le_refl _)]
                      omega
                    exact hi1 (by simpa using probeRank_inj this)
                  · -- forward slot hashIndex + newDispl has the same rank
                    have hfwd : probeRank hashIndex (hashIndex + newDispl)
                        = probeRank hashIndex iStar := by
                      rw [probeRank_plus (by omega)]
                      omega
                    exact hi1 (probeRank_inj hfwd)
            have := hbefore (hashIndex - newDispl) (by omega) hlt
            rw [show ((hashIndex - newDispl : Nat) : Int) - hashIndex = -(Int.ofNat newDispl) by
              rw [Int.ofNat_eq_natCast]
              omega] at this
            exact this
          · rfl
        simp only [hstep2]
        -- the target is still ahead: its rank exceeds both ranks of this iteration
        have hrankgt : 2 * (newDispl + 1) - 1 ≤ probeRank hashIndex iStar := by
          rcases le_or_lt hashIndex iStar with hdir | hdir
          · have : probeRank hashIndex iStar = 2 * (iStar - hashIndex) - 1 := probeRank_plus hdir
            -- iStar ≠ hashIndex + newDispl, so its forward distance differs from newDispl
            have : iStar - hashIndex ≠ newDispl := by
              intro he
              exact hi1 (by omega)
            omega
          · have hrk : probeRank hashIndex iStar = 2 * (hashIndex - iStar) := probeRank_minus hdir
            have : hashIndex - iStar ≠ newDispl := by
              intro he
              rcases Nat.eq_zero_or_pos newDispl with h0 | h0
              · omega
              · exact hi2 ⟨⟨by omega, h0⟩, by omega⟩
            omega
        have hguard : hashIndex + (newDispl + 1) < t.capacity ∨ newDispl + 1 ≤ hashIndex := by
          rcases le_or_lt hashIndex iStar with hdir | hdir
          · left
            have : probeRank hashIndex iStar = 2 * (iStar - hashIndex) - 1 := probeRank_plus hdir
            omega
          · right
            have : probeRank hashIndex iStar = 2 * (hashIndex - iStar) := probeRank_minus hdir
            omega
        rw [if_pos hguard]
        exact ih (newDispl + 1) (by omega) hrankgt

end WordCounter

namespace WordCounter

theorem add_word_eq_of_stopsAt {t : WordHashTable} {w : List Nat} {iStar : Nat}
    {r : RetStatus × WordHashTable} (hcap : 0 < t.capacity) (hs : StopsAt t w iStar)
    (hr : probeSlot t w iStar ((iStar : Int) - (fnvhash (w ++ [0]) % t.capacity)) = some r) :
    WordHashTable_add_word t w = r := by
  unfold WordHashTable_add_word
  exact addWordLoop_reaches (Nat.mod_lt _ hcap) hs.1 hs.2.2 hr _ 0 (by omega) (by omega)

theorem add_word_gen_fail {t : WordHashTable} {w : List Nat} (hcap : 0 < t.capacity)
    (hall : ∀ i, i < t.capacity →
      probeSlot t w i ((i : Int) - (fnvhash (w ++ [0]) % t.capacity)) = none) :
    WordHashTable_add_word t w = (.GEN_FAIL, t) := by
  unfold WordHashTable_add_word
  exact addWordLoop_exhaust (Nat.mod_lt _ hcap) hall _ 0

theorem stopsAt_exists {t : WordHashTable} {w : List Nat} {i0 : Nat} (hi0 : i0 < t.capacity)
    (hstop : probeSlot t w i0 ((i0 : Int) - (fnvhash (w ++ [0]) % t.capacity)) ≠ none) :
    ∃ iStar, StopsAt t w iStar := by
  classical
  set h := fnvhash (w ++ [0]) % t.capacity with hh
  let P : Nat → Prop := fun rk => ∃ i, i < t.capacity ∧ probeRank h i = rk ∧
    probeSlot t w i ((i : Int) - h) ≠ none
  have hP : P (probeRank h i0) := ⟨i0, hi0, rfl, hstop⟩
  obtain ⟨iStar, hical, hirank, histop⟩ := Nat.find_spec (⟨probeRank h i0, hP⟩ : ∃ rk, P rk)
  refine ⟨iStar, hical, histop, ?_⟩
  intro i hi hlt
  by_contra hne
  rw [hirank] at hlt
  exact Nat.find_min (⟨probeRank h i0, hP⟩ : ∃ rk, P rk) hlt ⟨i, hi, rfl, hne⟩

/-- Dichotomy for a single `WordHashTable_add_word` call on a table of
positive capacity: either the probe stops at a first slot, or every slot
is occupied with a failing pre-check and the call returns `GEN_FAIL`
leaving the table untouched. -/
theorem add_word_dichotomy (t : WordHashTable) (w : List Nat) (hcap : 0 < t.capacity) :
    (∃ iStar, StopsAt t w iStar) ∨
    ((∀ i, i < t.capacity →
        probeSlot t w i ((i : Int) - (fnvhash (w ++ [0]) % t.capacity)) = none) ∧
      WordHashTable_add_word t w = (.GEN_FAIL, t)) := by
  classical
  by_cases hex : ∃ i, i < t.capacity ∧
      probeSlot t w i ((i : Int) - (fnvhash (w ++ [0]) % t.capacity)) ≠ none
  · obtain ⟨i0, hi0, hstop⟩ := hex
    exact Or.inl (stopsAt_exists hi0 hstop)
  · push_neg at hex
    exact Or.inr ⟨fun i hi => hex i hi, add_word_gen_fail hcap (fun i hi => hex i hi)⟩

end WordCounter

namespace WordCounter

/-- C9: `WordHashTable_add_word`'s bidirectional probing loop terminates
(the model's loop is total, with the probe displacement strictly
increasing and the loop guard failing exactly when both `ideal + d ≥
capacity` and `ideal - d < 0`), and when the table is exhausted — every
slot occupied and none passing the match pre-check for the probed word —
the call returns the fatal `GEN_FAIL`, not a recoverable status, and
leaves the table unchanged. -/
theorem C9_exhaustion_GEN_FAIL (t : WordHashTable) (w : List Nat) (hcap : 0 < t.capacity)
    (hall : ∀ i, i < t.capacity → (entryAt t i).count ≠ 0 ∧
      preCheckB (entryAt t i) t.stringsPool w
        ((i : Int) - (fnvhash (w ++ [0]) % t.capacity)) = false) :
    WordHashTable_add_word t w = (.GEN_FAIL, t) :=
  add_word_gen_fail hcap (fun i hi => probeSlot_eq_none_iff.2 (hall i hi))

/-- Witness for C9: a capacity-1 table holding only `aa` is exhausted for
the word `bb` (same length, same displacement, different first byte), and
`add_word` returns `GEN_FAIL` leaving the table unchanged. -/
theorem C9_exhaustion_GEN_FAIL_witness :
    WordHashTable_add_word (WordHashTable_add_word (WordHashTable_create 1 0) [97, 97]).2
      [98, 98] =
    (.GEN_FAIL, (WordHashTable_add_word (WordHashTable_create 1 0) [97, 97]).2) :=
  C9_exhaustion_GEN_FAIL _ _ (by decide) (by decide)

/-- C7 fails on the code: running the engine on the text
`as ac ac ac xa xb xc xd xe xf xg xh xi xj` ends with
`maxCountWordIndex` naming an entry of count 1 (`as`) while the live
entry at slot 7 (`ac`) has count 3.  During the 16-to-32 expansion,
`WordHashTable_migrate` remaps `maxCountWordIndex` by comparing each
entry's OLD slot number against a field that may already hold a NEW slot
number: `ac` migrates first into the old slot number of `as`, and when
`as` later migrates, `oldIndex == maxCountWordIndex` spuriously fires and
redirects the max-count pointer to `as`. -/
theorem C7_maxCount_steal :
    (wordcount_final stealInput).1 = .SUCCESS ∧
    7 ∈ (wordcount_final stealInput).2.alphOrderArray ∧
    ((wordcount_final stealInput).2.entries.getD
      (wordcount_final stealInput).2.maxCountWordIndex default).count = 1 ∧
    ((wordcount_final stealInput).2.entries.getD 7 default).count = 3 := by
  decide

/-- C1 fails as stated: on input text `aaa aea` the report counts `aaa`
twice although only one token equals `aaa`, and `aea` is missing: the
fast-path match pre-check (length, displacement, first and last byte)
cannot tell the two words apart once they hash to the same ideal slot. -/
theorem C1_counterexample :
    wordcountReport mergeInput = [([97, 97, 97], 2)] ∧
    reportCountFor (wordcountReport mergeInput) [97, 97, 97] = 2 ∧
    (tokenize mergeInput).count [97, 97, 97] = 1 ∧
    (tokenize mergeInput).count [97, 101, 97] = 1 := by
  decide

/-- C5 fails as stated: the same two words `aaa`, `aea` merge into one
entry when fed through the resizing pipeline (capacities 2 then 4), but
stay distinct in a table created at capacity 64, large enough to never
resize, so the two final reports differ. -/
theorem C5_counterexample :
    wordcountReport mergeInput = [([97, 97, 97], 2)] ∧
    WordHashTable_report (runWordsNoResize (WordHashTable_create 64 0) (tokenize mergeInput)).2
      = [([97, 97, 97], 1), ([97, 101, 97], 1)] ∧
    wordcountReport mergeInput ≠
      WordHashTable_report
        (runWordsNoResize (WordHashTable_create 64 0) (tokenize mergeInput)).2 := by
  decide

end WordCounter

namespace WordCounter

/-! ### Order-array insertion -/

theorem orderInsertRev_split (wordOf : Nat → List Nat) (newWord : List Nat) (ind : Nat) :
    ∀ rev : List Nat, ∃ r1 r2 : List Nat, rev = r1 ++ r2 ∧
      orderInsertRev wordOf newWord ind rev = r1 ++ ind :: r2 ∧
      (∀ j ∈ r1, c_strcmp newWord (wordOf j) ≤ 0) ∧
      (r2 = [] ∨ ∃ j0 r2t, r2 = j0 :: r2t ∧ ¬ c_strcmp newWord (wordOf j0) ≤ 0) := by
  intro rev
  induction rev with
  | nil => exact ⟨[], [], rfl, rfl, by simp, Or.inl rfl⟩
  | cons j rest ih =>
    by_cases hc : c_strcmp newWord (wordOf j) ≤ 0
    · obtain ⟨r1, r2, hsplit, heq, hr1, hr2⟩ := ih
      refine ⟨j :: r1, r2, by rw [hsplit]; rfl, ?_, ?_, hr2⟩
      · rw [orderInsertRev, if_pos hc, heq]
        rfl
      · intro x hx
        rcases List.mem_cons.1 hx with h | h
        · subst h
          exact hc
        · exact hr1 x h
    · refine ⟨[], j :: rest, rfl, ?_, by simp, Or.inr ⟨j, rest, rfl, hc⟩⟩
      rw [orderInsertRev, if_neg hc]
      rfl

/-! ### Sum helpers -/

theorem sum_map_congr {l : List Nat} {f g : Nat → Nat} (h : ∀ j ∈ l, f j = g j) :
    (l.map f).sum = (l.map g).sum := by
  rw [List.map_congr_left h]

theorem sum_map_bump {l : List Nat} {f g : Nat → Nat} {j : Nat} (hnd : l.Nodup) (hj : j ∈ l)
    (hsame : ∀ k ∈ l, k ≠ j → g k = f k) (hbump : g j = f j + 1) :
    (l.map g).sum = (l.map f).sum + 1 := by
  induction l with
  | nil => cases hj
  | cons a rest ih =>
    rcases List.mem_cons.1 hj with he | h
    · have hrest : ∀ k ∈ rest, g k = f k := by
        intro k hk
        refine hsame k (List.mem_cons_of_mem _ hk) (fun hkj => ?_)
        have : a ∈ rest := by
          rw [← he, ← hkj]
          exact hk
        exact (List.nodup_cons.1 hnd).1 this
      have hga : g a = f a + 1 := by
        rw [← he]
        exact hbump
      simp only [List.map_cons, List.sum_cons, hga, sum_map_congr hrest]
      omega
    · have ha : g a = f a := hsame a (List.mem_cons_self _ _)
        (fun he => (List.nodup_cons.1 hnd).1 (he ▸ h))
      simp only [List.map_cons, List.sum_cons, ha,
        ih (List.nodup_cons.1 hnd).2 h
          (fun k hk hne => hsame k (List.mem_cons_of_mem _ hk) hne)]
      omega

end WordCounter

namespace WordCounter

/-! ### Pointwise facts about the `add_word` outcome states -/

theorem readBytes_snoc (m : List Nat) (off n : Nat) :
    readBytes m off (n + 1) = readBytes m off n ++ [m.getD (off + n) 0] := by
  unfold readBytes
  rw [List.range_succ, List.map_append]
  rfl

theorem bumpedTable_order (t : WordHashTable) (j : Nat) :
    (bumpedTable t j).alphOrderArray = t.alphOrderArray := rfl

theorem bumpedTable_capacity (t : WordHashTable) (j : Nat) :
    (bumpedTable t j).capacity = t.capacity := rfl

theorem bumpedTable_size (t : WordHashTable) (j : Nat) : (bumpedTable t j).size = t.size := rfl

theorem bumpedTable_pool (t : WordHashTable) (j : Nat) :
    (bumpedTable t j).stringsPool = t.stringsPool := rfl

theorem bumpedTable_entries_length (t : WordHashTable) (j : Nat) :
    (bumpedTable t j).entries.length = t.entries.length := by
  unfold bumpedTable
  simp

theorem bumpedTable_entryAt_ne {t : WordHashTable} {j k : Nat} (hne : j ≠ k) :
    entryAt (bumpedTable t j) k = entryAt t k := by
  unfold bumpedTable entryAt
  exact getD_set_ne' hne

theorem bumpedTable_entryAt_eq {t : WordHashTable} {j : Nat} (hj : j < t.entries.length) :
    entryAt (bumpedTable t j) j = { entryAt t j with count := (entryAt t j).count + 1 } := by
  unfold bumpedTable entryAt
  exact getD_set_eq' hj

theorem bumpedTable_count_ne {t : WordHashTable} {j k : Nat} (hne : j ≠ k) :
    (entryAt (bumpedTable t j) k).count = (entryAt t k).count := by
  rw [bumpedTable_entryAt_ne hne]

theorem bumpedTable_letters (t : WordHashTable) (j k : Nat) :
    (entryAt (bumpedTable t j) k).letters = (entryAt t k).letters ∧
    (entryAt (bumpedTable t j) k).length = (entryAt t k).length ∧
    (entryAt (bumpedTable t j) k).displacement = (entryAt t k).displacement := by
  by_cases hk : j = k
  · subst hk
    by_cases hj : j < t.entries.length
    · rw [bumpedTable_entryAt_eq hj]
      exact ⟨rfl, rfl, rfl⟩
    · simp only [bumpedTable, entryAt]
      rw [List.set_eq_of_length_le (by omega)]
      exact ⟨rfl, rfl, rfl⟩
  · rw [bumpedTable_entryAt_ne hk]
    exact ⟨rfl, rfl, rfl⟩

theorem bumpedTable_wordAt (t : WordHashTable) (j k : Nat) :
    wordAt (bumpedTable t j) k = wordAt t k := by
  have h := bumpedTable_letters t j k
  unfold wordAt entryWordFn
  simp only [show (bumpedTable t j).entries.getD k default = entryAt (bumpedTable t j) k from rfl,
    show t.entries.getD k default = entryAt t k from rfl, h.1, h.2.1, bumpedTable_pool]

theorem bumpedTable_count_eq {t : WordHashTable} {j : Nat} (hj : j < t.entries.length) :
    (entryAt (bumpedTable t j) j).count = (entryAt t j).count + 1 := by
  rw [bumpedTable_entryAt_eq hj]

theorem fullFailTable_order (t : WordHashTable) (j : Nat) :
    (fullFailTable t j).alphOrderArray = t.alphOrderArray := rfl

theorem fullFailTable_capacity (t : WordHashTable) (j : Nat) :
    (fullFailTable t j).capacity = t.capacity := rfl

theorem fullFailTable_size (t : WordHashTable) (j : Nat) : (fullFailTable t j).size = t.size := rfl

theorem fullFailTable_pool (t : WordHashTable) (j : Nat) :
    (fullFailTable t j).stringsPool = t.stringsPool := rfl

theorem fullFailTable_stats (t : WordHashTable) (j : Nat) :
    (fullFailTable t j).totalInsertions = t.totalInsertions ∧
    (fullFailTable t j).totalCollisions = t.totalCollisions ∧
    (fullFailTable t j).maxCountWordIndex = t.maxCountWordIndex ∧
    (fullFailTable t j).maxLengthWordIndex = t.maxLengthWordIndex := ⟨rfl, rfl, rfl, rfl⟩

theorem fullFailTable_entries_length (t : WordHashTable) (j : Nat) :
    (fullFailTable t j).entries.length = t.entries.length := by
  unfold fullFailTable
  simp

theorem fullFailTable_entryAt_ne {t : WordHashTable} {j k : Nat} (hne : j ≠ k) :
    entryAt (fullFailTable t j) k = entryAt t k := by
  unfold fullFailTable entryAt
  exact getD_set_ne' hne

theorem fullFailTable_count (t : WordHashTable) (j k : Nat) :
    (entryAt (fullFailTable t j) k).count = (entryAt t k).count := by
  by_cases hk : j = k
  · subst hk
    by_cases hj : j < t.entries.length
    · unfold fullFailTable entryAt
      rw [getD_set_eq' (by simpa using hj)]
    · simp only [fullFailTable, entryAt]
      rw [List.set_eq_of_length_le (by omega)]
  · rw [fullFailTable_entryAt_ne hk]

theorem fullFailTable_wordAt_ne {t : WordHashTable} {j k : Nat} (hne : j ≠ k) :
    wordAt (fullFailTable t j) k = wordAt t k := by
  unfold wordAt entryWordFn
  simp only [show (fullFailTable t j).entries.getD k default = entryAt (fullFailTable t j) k
      from rfl,
    show t.entries.getD k default = entryAt t k from rfl, fullFailTable_entryAt_ne hne,
    fullFailTable_pool]

end WordCounter

namespace WordCounter

theorem bumpedTable_idealSlot (t : WordHashTable) (j k : Nat) :
    idealSlot (bumpedTable t j) k = idealSlot t k := by
  have h := bumpedTable_letters t j k
  unfold idealSlot offAt
  simp only [h.1, h.2.1, bumpedTable_pool, bumpedTable_capacity]

theorem fullFailTable_idealSlot_ne {t : WordHashTable} {j k : Nat} (hne : j ≠ k) :
    idealSlot (fullFailTable t j) k = idealSlot t k := by
  unfold idealSlot offAt
  simp only [fullFailTable_entryAt_ne hne, fullFailTable_pool, fullFailTable_capacity]

/-! ### Pointwise facts about `insertedTable` -/

theorem insertedTable_capacity (t : WordHashTable) (w : List Nat) (c : Nat) (displ : Int) :
    (insertedTable t w c displ).capacity = t.capacity := rfl

theorem insertedTable_size (t : WordHashTable) (w : List Nat) (c : Nat) (displ : Int) :
    (insertedTable t w c displ).size = t.size + 1 := rfl

theorem insertedTable_pool (t : WordHashTable) (w : List Nat) (c : Nat) (displ : Int) :
    (insertedTable t w c displ).stringsPool.memBase = t.stringsPool.memBase ∧
    (insertedTable t w c displ).stringsPool.nextChar
      = t.stringsPool.nextChar + (w.length + 1) ∧
    (insertedTable t w c displ).stringsPool.capacity = t.stringsPool.capacity ∧
    (insertedTable t w c displ).stringsPool.mem
      = writeBytes t.stringsPool.mem t.stringsPool.nextChar (w ++ [0]) :=
  ⟨rfl, rfl, rfl, rfl⟩

theorem insertedTable_mem_length (t : WordHashTable) (w : List Nat) (c : Nat) (displ : Int) :
    (insertedTable t w c displ).stringsPool.mem.length = t.stringsPool.mem.length :=
  writeBytes_length _ _ _

theorem insertedTable_entries_length (t : WordHashTable) (w : List Nat) (c : Nat) (displ : Int) :
    (insertedTable t w c displ).entries.length = t.entries.length := by
  unfold insertedTable
  simp

theorem insertedTable_order (t : WordHashTable) (w : List Nat) (c : Nat) (displ : Int) :
    (insertedTable t w c displ).alphOrderArray =
      orderArray_insert
        (entryWordFn (insertedTable t w c displ).entries (insertedTable t w c displ).stringsPool)
        w c t.alphOrderArray := rfl

theorem insertedTable_entryAt_ne {t : WordHashTable} {w : List Nat} {c : Nat} {displ : Int}
    {k : Nat} (hne : c ≠ k) : entryAt (insertedTable t w c displ) k = entryAt t k := by
  unfold insertedTable entryAt
  exact getD_set_ne' hne

theorem insertedTable_entryAt_eq {t : WordHashTable} {w : List Nat} {c : Nat} {displ : Int}
    (hc : c < t.entries.length) :
    entryAt (insertedTable t w c displ) c =
      { letters := t.stringsPool.memBase + t.stringsPool.nextChar
        count := 1
        length := w.length + 1
        displacement := displ } := by
  unfold insertedTable entryAt
  exact getD_set_eq' hc

theorem insertedTable_mem_low {t : WordHashTable} {w : List Nat} {c : Nat} {displ : Int}
    {x : Nat} (hx : x < t.stringsPool.nextChar) :
    (insertedTable t w c displ).stringsPool.mem.getD x 0 = t.stringsPool.mem.getD x 0 :=
  writeBytes_getD_low hx

theorem insertedTable_wordAt_ne {t : WordHashTable} {w : List Nat} {c : Nat} {displ : Int}
    {k : Nat} (hne : c ≠ k)
    (hfits : offAt t k + (entryAt t k).length ≤ t.stringsPool.nextChar)
    (hlen : 1 ≤ (entryAt t k).length) :
    wordAt (insertedTable t w c displ) k = wordAt t k := by
  unfold wordAt entryWordFn
  simp only [show (insertedTable t w c displ).entries.getD k default
      = entryAt (insertedTable t w c displ) k from rfl,
    show t.entries.getD k default = entryAt t k from rfl, insertedTable_entryAt_ne hne,
    (insertedTable_pool t w c displ).1]
  refine readBytes_congr ?_
  intro kk hkk
  exact insertedTable_mem_low (by unfold offAt at hfits; omega)

theorem insertedTable_storedBytes {t : WordHashTable} {w : List Nat} {c : Nat} {displ : Int}
    (hroom : t.stringsPool.nextChar + (w.length + 1) < t.stringsPool.capacity)
    (hmem : t.stringsPool.mem.length = t.stringsPool.capacity) :
    readBytes (insertedTable t w c displ).stringsPool.mem t.stringsPool.nextChar (w.length + 1)
      = w ++ [0] := by
  rw [(insertedTable_pool t w c displ).2.2.2,
    show w.length + 1 = (w ++ [0]).length by simp]
  exact readBytes_writeBytes_self (by simp; omega)

theorem insertedTable_wordAt_self {t : WordHashTable} {w : List Nat} {c : Nat} {displ : Int}
    (hc : c < t.entries.length)
    (hroom : t.stringsPool.nextChar + (w.length + 1) < t.stringsPool.capacity)
    (hmem : t.stringsPool.mem.length = t.stringsPool.capacity) :
    wordAt (insertedTable t w c displ) c = w := by
  unfold wordAt entryWordFn
  simp only [show (insertedTable t w c displ).entries.getD c default
      = entryAt (insertedTable t w c displ) c from rfl, insertedTable_entryAt_eq hc,
    (insertedTable_pool t w c displ).1]
  have hoff : t.stringsPool.memBase + t.stringsPool.nextChar - t.stringsPool.memBase
      = t.stringsPool.nextChar := by omega
  rw [hoff, show w.length + 1 - 1 = w.length from rfl]
  have hfull := @insertedTable_storedBytes t w c displ hroom hmem
  rw [readBytes_snoc] at hfull
  have := congrArg (fun l => l.take w.length) hfull
  simpa [readBytes_length] using this

theorem insertedTable_idealSlot_ne {t : WordHashTable} {w : List Nat} {c : Nat} {displ : Int}
    {k : Nat} (hne : c ≠ k)
    (hfits : offAt t k + (entryAt t k).length ≤ t.stringsPool.nextChar) :
    idealSlot (insertedTable t w c displ) k = idealSlot t k := by
  unfold idealSlot offAt
  simp only [show entryAt (insertedTable t w c displ) k = entryAt t k
      from insertedTable_entryAt_ne hne, (insertedTable_pool t w c displ).1,
    insertedTable_capacity]
  congr 2
  refine readBytes_congr ?_
  intro kk hkk
  exact insertedTable_mem_low (by unfold offAt at hfits; omega)

theorem insertedTable_idealSlot_self {t : WordHashTable} {w : List Nat} {c : Nat} {displ : Int}
    (hc : c < t.entries.length)
    (hroom : t.stringsPool.nextChar + (w.length + 1) < t.stringsPool.capacity)
    (hmem : t.stringsPool.mem.length = t.stringsPool.capacity) :
    idealSlot (insertedTable t w c displ) c = fnvhash (w ++ [0]) % t.capacity := by
  unfold idealSlot offAt
  simp only [insertedTable_entryAt_eq hc, (insertedTable_pool t w c displ).1,
    insertedTable_capacity]
  have hoff : t.stringsPool.memBase + t.stringsPool.nextChar - t.stringsPool.memBase
      = t.stringsPool.nextChar := by omega
  rw [hoff, insertedTable_storedBytes hroom hmem]

end WordCounter

namespace WordCounter

/-! ### Well-formedness: creation and the simple outcomes -/

theorem getD_replicate_entry {n j : Nat} :
    (List.replicate n (default : WordHashTabEntry)).getD j default = default := by
  rcases Nat.lt_or_ge j n with hj | hj
  · rw [List.getD_eq_getElem _ _ (by simpa using hj)]
    simp
  · rw [List.getD_eq_default _ _ (by simpa using hj)]

theorem WF_create (cap base : Nat) (hcap : 0 < cap) : WF (WordHashTable_create cap base) := by
  refine ⟨hcap, by simp [WordHashTable_create], by simp [WordHashTable_create],
    by simp [WordHashTable_create]; omega, rfl, ?_, ?_, ?_, ?_, ?_⟩
  · intro j hj
    cases hj
  · intro j hj
    cases hj
  · intro j hjcap hpos
    exfalso
    have : entryAt (WordHashTable_create cap base) j = default := getD_replicate_entry
    rw [this] at hpos
    cases hpos
  · exact List.Pairwise.nil
  · intro j hj
    cases hj

theorem WF.order_nodup {t : WordHashTable} (h : WF t) : t.alphOrderArray.Nodup := by
  refine h.sorted.imp ?_
  intro a b hab he
  subst he
  rw [c_strcmp_eq_zero_iff.2 rfl] at hab
  omega

theorem WF.words_nodup {t : WordHashTable} (h : WF t) :
    ∀ a ∈ t.alphOrderArray, ∀ b ∈ t.alphOrderArray, a ≠ b → wordAt t a ≠ wordAt t b := by
  have hp : t.alphOrderArray.Pairwise (fun a b => wordAt t a ≠ wordAt t b) := by
    refine h.sorted.imp ?_
    intro a b hab he
    rw [he, c_strcmp_eq_zero_iff.2 rfl] at hab
    omega
  intro a ha b hb hne
  exact hp.forall (fun _ _ hxy => Ne.symm hxy) ha hb hne

theorem WF.dead_not_in_order {t : WordHashTable} (h : WF t) {c : Nat}
    (hc : (entryAt t c).count = 0) : c ∉ t.alphOrderArray := by
  intro hmem
  have := h.order_live c hmem
  omega

theorem WF_bumpedTable {t : WordHashTable} (h : WF t) {j : Nat} (hj : j ∈ t.alphOrderArray) :
    WF (bumpedTable t j) := by
  have hjcap : j < t.capacity := h.order_lt j hj
  have hjlen : j < t.entries.length := by
    rw [h.entries_len]
    exact hjcap
  have hcount : ∀ k, 0 < (entryAt t k).count → 0 < (entryAt (bumpedTable t j) k).count := by
    intro k hk
    by_cases hkj : j = k
    · subst hkj
      rw [bumpedTable_count_eq hjlen]
      omega
    · rw [bumpedTable_count_ne hkj]
      exact hk
  refine ⟨?_, ?_, ?_, ?_, ?_, ?_, ?_, ?_, ?_, ?_⟩
  · rw [bumpedTable_capacity]
    exact h.cap_pos
  · rw [bumpedTable_entries_length, bumpedTable_capacity]
    exact h.entries_len
  · rw [bumpedTable_pool]
    exact h.mem_len
  · rw [bumpedTable_pool]
    exact h.pool_lt
  · rw [bumpedTable_order, bumpedTable_size]
    exact h.order_len
  · intro k hk
    rw [bumpedTable_order] at hk
    rw [bumpedTable_capacity]
    exact h.order_lt k hk
  · intro k hk
    rw [bumpedTable_order] at hk
    exact hcount k (h.order_live k hk)
  · intro k hkcap hkpos
    rw [bumpedTable_capacity] at hkcap
    rw [bumpedTable_order]
    by_cases hkj : j = k
    · subst hkj
      exact hj
    · rw [bumpedTable_count_ne hkj] at hkpos
      exact h.live_in_order k hkcap hkpos
  · rw [bumpedTable_order]
    refine h.sorted.imp ?_
    intro a b hab
    rwa [bumpedTable_wordAt, bumpedTable_wordAt]
  · intro k hk
    rw [bumpedTable_order] at hk
    obtain ⟨b1, b2, b3, b4, b5, b6, b7, b8⟩ := h.entries_ok k hk
    have hl := bumpedTable_letters t j k
    refine ⟨?_, ?_, ?_, ?_, ?_, ?_, ?_, ?_⟩
    · rw [bumpedTable_pool, hl.1]
      exact b1
    · rw [hl.2.1]
      exact b2
    · unfold offAt
      rw [bumpedTable_pool, hl.1, hl.2.1]
      exact b3
    · unfold offAt
      rw [bumpedTable_pool, hl.1, hl.2.1]
      exact b4
    · unfold offAt
      rw [bumpedTable_pool, hl.1, hl.2.1]
      exact b5
    · unfold offAt
      rw [bumpedTable_pool, hl.1, hl.2.1]
      exact b6
    · rw [bumpedTable_idealSlot, hl.2.2]
      exact b7
    · intro i hicap hirank
      rw [bumpedTable_capacity] at hicap
      rw [bumpedTable_idealSlot] at hirank
      exact hcount i (b8 i hicap hirank)

theorem WF_fullFailTable {t : WordHashTable} (h : WF t) {c : Nat}
    (hc : (entryAt t c).count = 0) : WF (fullFailTable t c) := by
  have hnot : c ∉ t.alphOrderArray := h.dead_not_in_order hc
  have hne : ∀ k ∈ t.alphOrderArray, c ≠ k := fun k hk he => hnot (he ▸ hk)
  refine ⟨?_, ?_, ?_, ?_, ?_, ?_, ?_, ?_, ?_, ?_⟩
  · rw [fullFailTable_capacity]
    exact h.cap_pos
  · rw [fullFailTable_entries_length, fullFailTable_capacity]
    exact h.entries_len
  · rw [fullFailTable_pool]
    exact h.mem_len
  · rw [fullFailTable_pool]
    exact h.pool_lt
  · rw [fullFailTable_order, fullFailTable_size]
    exact h.order_len
  · intro k hk
    rw [fullFailTable_order] at hk
    rw [fullFailTable_capacity]
    exact h.order_lt k hk
  · intro k hk
    rw [fullFailTable_order] at hk
    rw [fullFailTable_count]
    exact h.order_live k hk
  · intro k hkcap hkpos
    rw [fullFailTable_capacity] at hkcap
    rw [fullFailTable_count] at hkpos
    rw [fullFailTable_order]
    exact h.live_in_order k hkcap hkpos
  · rw [fullFailTable_order]
    refine List.Pairwise.imp_of_mem ?_ h.sorted
    intro a b ha hb hab
    rwa [fullFailTable_wordAt_ne (hne a ha), fullFailTable_wordAt_ne (hne b hb)]
  · intro k hk
    rw [fullFailTable_order] at hk
    obtain ⟨b1, b2, b3, b4, b5, b6, b7, b8⟩ := h.entries_ok k hk
    have hek : entryAt (fullFailTable t c) k = entryAt t k := fullFailTable_entryAt_ne (hne k hk)
    refine ⟨?_, ?_, ?_, ?_, ?_, ?_, ?_, ?_⟩
    · rw [fullFailTable_pool, hek]
      exact b1
    · rw [hek]
      exact b2
    · unfold offAt
      rw [fullFailTable_pool, hek]
      exact b3
    · unfold offAt
      rw [fullFailTable_pool, hek]
      exact b4
    · unfold offAt
      rw [fullFailTable_pool, hek]
      exact b5
    · unfold offAt
      rw [fullFailTable_pool, hek]
      exact b6
    · rw [fullFailTable_idealSlot_ne (hne k hk), hek]
      exact b7
    · intro i hicap hirank
      rw [fullFailTable_capacity] at hicap
      rw [fullFailTable_idealSlot_ne (hne k hk)] at hirank
      rw [fullFailTable_count]
      exact b8 i hicap hirank

end WordCounter

namespace WordCounter

theorem orderArray_insert_decomp (wordOf : Nat → List Nat) (w : List Nat) (ind : Nat)
    (order : List Nat) :
    ∃ l1 l2 : List Nat, order = l1 ++ l2 ∧
      orderArray_insert wordOf w ind order = l1 ++ ind :: l2 ∧
      (∀ j ∈ l2, c_strcmp w (wordOf j) ≤ 0) ∧
      (l1 = [] ∨ ∃ j0 l1f, l1 = l1f ++ [j0] ∧ ¬ c_strcmp w (wordOf j0) ≤ 0) := by
  obtain ⟨r1, r2, hsplit, heq, hr1, hr2⟩ := orderInsertRev_split wordOf w ind order.reverse
  refine ⟨r2.reverse, r1.reverse, ?_, ?_, ?_, ?_⟩
  · have := congrArg List.reverse hsplit
    simpa using this
  · unfold orderArray_insert
    rw [heq]
    simp
  · intro j hj
    exact hr1 j (by simpa using hj)
  · rcases hr2 with h | ⟨j0, r2t, hr2eq, hgt⟩
    · left
      simp [h]
    · right
      exact ⟨j0, r2t.reverse, by rw [hr2eq]; simp, hgt⟩

theorem getD_append_lt {l1 l2 : List Nat} {k : Nat} (h : k < l1.length) :
    (l1 ++ l2).getD k 0 = l1.getD k 0 := by
  rw [List.getD_eq_getElem _ _ (by simp; omega), List.getD_eq_getElem _ _ h]
  exact List.getElem_append_left h

theorem getD_append_len {l1 : List Nat} {b : Nat} : (l1 ++ [b]).getD l1.length 0 = b := by
  rw [List.getD_eq_getElem _ _ (by simp)]
  simp

theorem getD_mem {l : List Nat} {k : Nat} (h : k < l.length) : l.getD k 0 ∈ l := by
  rw [List.getD_eq_getElem _ _ h]
  exact List.getElem_mem _

theorem insertedTable_count_ne {t : WordHashTable} {w : List Nat} {c : Nat} {displ : Int}
    {k : Nat} (hne : c ≠ k) :
    (entryAt (insertedTable t w c displ) k).count = (entryAt t k).count := by
  rw [insertedTable_entryAt_ne hne]

theorem insertedTable_count_self {t : WordHashTable} {w : List Nat} {c : Nat} {displ : Int}
    (hc : c < t.entries.length) : (entryAt (insertedTable t w c displ) c).count = 1 := by
  rw [insertedTable_entryAt_eq hc]

theorem insertedTable_count_pos {t : WordHashTable} {w : List Nat} {c : Nat} {displ : Int}
    {k : Nat} (hc : c < t.entries.length) (hk : 0 < (entryAt t k).count) :
    0 < (entryAt (insertedTable t w c displ) k).count := by
  by_cases hck : c = k
  · subst hck
    rw [insertedTable_count_self hc]
    omega
  · rw [insertedTable_count_ne hck]
    exact hk

theorem insertedTable_offAt_self {t : WordHashTable} {w : List Nat} {c : Nat} {displ : Int}
    (hc : c < t.entries.length) :
    offAt (insertedTable t w c displ) c = t.stringsPool.nextChar := by
  unfold offAt
  rw [insertedTable_entryAt_eq hc, (insertedTable_pool t w c displ).1]
  simp

theorem insertedTable_mem_at_new {t : WordHashTable} {w : List Nat} {c : Nat} {displ : Int}
    (hroom : t.stringsPool.nextChar + (w.length + 1) < t.stringsPool.capacity)
    (hmem : t.stringsPool.mem.length = t.stringsPool.capacity) :
    ∀ k < w.length + 1,
      (insertedTable t w c displ).stringsPool.mem.getD (t.stringsPool.nextChar + k) 0
        = (w ++ [0]).getD k 0 := by
  intro k hk
  have hfull := @insertedTable_storedBytes t w c displ hroom hmem
  have := @readBytes_getD (insertedTable t w c displ).stringsPool.mem
    t.stringsPool.nextChar (w.length + 1) k hk
  rw [hfull] at this
  exact this.symm

end WordCounter

namespace WordCounter

theorem WF_insertedTable {t : WordHashTable} (h : WF t) {w : List Nat} {c : Nat} {displ : Int}
    (hw : validWord w) (hc0 : (entryAt t c).count = 0) (hccap : c < t.capacity)
    (hroom : t.stringsPool.nextChar + (w.length + 1) < t.stringsPool.capacity)
    (hdispl : displ = (c : Int) - (fnvhash (w ++ [0]) % t.capacity : Nat))
    (hpath : ∀ i, i < t.capacity →
      probeRank (fnvhash (w ++ [0]) % t.capacity) i
        < probeRank (fnvhash (w ++ [0]) % t.capacity) c → 0 < (entryAt t i).count)
    (hnostore : ∀ j ∈ t.alphOrderArray, wordAt t j ≠ w) :
    WF (insertedTable t w c displ) := by
  have hclen : c < t.entries.length := by
    rw [h.entries_len]
    exact hccap
  have hcnot : c ∉ t.alphOrderArray := h.dead_not_in_order hc0
  have hcne : ∀ k ∈ t.alphOrderArray, c ≠ k := fun k hk he => hcnot (he ▸ hk)
  have hmem := h.mem_len
  have hwpos : 0 < w.length := List.length_pos.2 hw.1
  have hword : ∀ k ∈ t.alphOrderArray, wordAt (insertedTable t w c displ) k = wordAt t k := by
    intro k hk
    obtain ⟨b1, b2, b3, b4, b5, b6, b7, b8⟩ := h.entries_ok k hk
    exact insertedTable_wordAt_ne (hcne k hk) b3 (by omega)
  have hwc : wordAt (insertedTable t w c displ) c = w :=
    insertedTable_wordAt_self hclen hroom hmem
  obtain ⟨l1, l2, hsplit, heq, hl2, hl1⟩ :=
    orderArray_insert_decomp
      (entryWordFn (insertedTable t w c displ).entries (insertedTable t w c displ).stringsPool)
      w c t.alphOrderArray
  have horder : (insertedTable t w c displ).alphOrderArray = l1 ++ c :: l2 := by
    rw [insertedTable_order]
    exact heq
  have hsub1 : ∀ j ∈ l1, j ∈ t.alphOrderArray := fun j hj =>
    hsplit ▸ List.mem_append_left _ hj
  have hsub2 : ∀ j ∈ l2, j ∈ t.alphOrderArray := fun j hj =>
    hsplit ▸ List.mem_append_right _ hj
  have hmem_iff : ∀ k, k ∈ (insertedTable t w c displ).alphOrderArray ↔
      k = c ∨ k ∈ t.alphOrderArray := by
    intro k
    rw [horder, hsplit]
    simp only [List.mem_append, List.mem_cons]
    tauto
  have hR : t.alphOrderArray.Pairwise (fun a b =>
      c_strcmp (wordAt (insertedTable t w c displ) a)
        (wordAt (insertedTable t w c displ) b) < 0) := by
    refine List.Pairwise.imp_of_mem ?_ h.sorted
    intro a b ha hb hab
    rwa [hword a ha, hword b hb]
  have hP := List.pairwise_append.1 (hsplit ▸ hR)
  have hsorted' : (l1 ++ c :: l2).Pairwise (fun a b =>
      c_strcmp (wordAt (insertedTable t w c displ) a)
        (wordAt (insertedTable t w c displ) b) < 0) := by
    refine List.pairwise_append.2 ⟨hP.1, ?_, ?_⟩
    · refine List.pairwise_cons.2 ⟨?_, hP.2.1⟩
      intro b hb
      rw [hwc]
      have hle : c_strcmp w (wordAt (insertedTable t w c displ) b) ≤ 0 := hl2 b hb
      have hne : wordAt (insertedTable t w c displ) b ≠ w := by
        rw [hword b (hsub2 b hb)]
        exact hnostore b (hsub2 b hb)
      have hz : c_strcmp w (wordAt (insertedTable t w c displ) b) ≠ 0 := by
        intro hz
        exact hne (c_strcmp_eq_zero_iff.1 hz).symm
      omega
    · intro a ha b hb
      rcases List.mem_cons.1 hb with heqb | hb'
      · rw [heqb, hwc]
        rcases hl1 with hnil | ⟨j0, l1f, hleq, hgt⟩
        · rw [hnil] at ha
          cases ha
        · have hj0w : c_strcmp (wordAt (insertedTable t w c displ) j0) w < 0 :=
            c_strcmp_pos_of_not_le hgt
          have ha' : a ∈ l1f ++ [j0] := hleq ▸ ha
          rcases List.mem_append.1 ha' with haf | halast
          · have hP1 := hP.1
            rw [hleq] at hP1
            have := (List.pairwise_append.1 hP1).2.2 a haf j0 (by simp)
            exact c_strcmp_lt_trans this hj0w
          · have : a = j0 := by simpa using halast
            subst this
            exact hj0w
      · exact hP.2.2 a ha b hb'
  have hnew : ∀ k < w.length + 1,
      (insertedTable t w c displ).stringsPool.mem.getD (t.stringsPool.nextChar + k) 0
        = (w ++ [0]).getD k 0 := insertedTable_mem_at_new hroom hmem
  refine ⟨?_, ?_, ?_, ?_, ?_, ?_, ?_, ?_, ?_, ?_⟩
  · rw [insertedTable_capacity]
    exact h.cap_pos
  · rw [insertedTable_entries_length, insertedTable_capacity]
    exact h.entries_len
  · rw [insertedTable_mem_length, (insertedTable_pool t w c displ).2.2.1]
    exact h.mem_len
  · rw [(insertedTable_pool t w c displ).2.1, (insertedTable_pool t w c displ).2.2.1]
    exact hroom
  · rw [horder, insertedTable_size]
    have h1 : (l1 ++ c :: l2).length = (l1 ++ l2).length + 1 := by
      simp
      omega
    rw [h1, ← hsplit, h.order_len]
  · intro k hk
    rw [insertedTable_capacity]
    rcases (hmem_iff k).1 hk with rfl | hk'
    · exact hccap
    · exact h.order_lt k hk'
  · intro k hk
    rcases (hmem_iff k).1 hk with rfl | hk'
    · rw [insertedTable_count_self hclen]
      omega
    · rw [insertedTable_count_ne (hcne k hk')]
      exact h.order_live k hk'
  · intro k hkcap hkpos
    rw [insertedTable_capacity] at hkcap
    rw [hmem_iff]
    by_cases hck : c = k
    · exact Or.inl hck.symm
    · rw [insertedTable_count_ne hck] at hkpos
      exact Or.inr (h.live_in_order k hkcap hkpos)
  · rw [horder]
    exact hsorted'
  · intro k hk
    rcases (hmem_iff k).1 hk with heqk | hk'
    · subst heqk
      have hent := @insertedTable_entryAt_eq t w k displ hclen
      have hoff := @insertedTable_offAt_self t w k displ hclen
      have hideal := @insertedTable_idealSlot_self t w k displ hclen hroom hmem
      refine ⟨?_, ?_, ?_, ?_, ?_, ?_, ?_, ?_⟩
      · rw [hent, (insertedTable_pool t w k displ).1]
        exact Nat.le_add_right _ _
      · rw [hent]
        simp only []
        omega
      · rw [hoff, hent, (insertedTable_pool t w k displ).2.1]
      · rw [hoff, hent]
        have : w.length + 1 - 1 = w.length := by omega
        simp only [this]
        rw [hnew w.length (by omega), getD_append_len]
      · intro kk hkk
        rw [hent] at hkk
        simp only [] at hkk
        rw [hoff, hnew kk (by omega), getD_append_lt (by omega)]
        exact (hw.2 _ (getD_mem (by omega))).1
      · intro kk hkk
        rw [hent] at hkk
        simp only [] at hkk
        rw [hoff, hnew kk (by omega), getD_append_lt (by omega)]
        exact (hw.2 _ (getD_mem (by omega))).2
      · rw [hideal, hent]
        simp only []
        rw [hdispl]
        omega
      · intro i hicap hirank
        rw [insertedTable_capacity] at hicap
        rw [hideal] at hirank
        exact insertedTable_count_pos hclen (hpath i hicap hirank)
    · obtain ⟨b1, b2, b3, b4, b5, b6, b7, b8⟩ := h.entries_ok k hk'
      have hek : entryAt (insertedTable t w c displ) k = entryAt t k :=
        insertedTable_entryAt_ne (hcne k hk')
      have hoffk : offAt (insertedTable t w c displ) k = offAt t k := by
        unfold offAt
        rw [hek, (insertedTable_pool t w c displ).1]
      refine ⟨?_, ?_, ?_, ?_, ?_, ?_, ?_, ?_⟩
      · rw [hek, (insertedTable_pool t w c displ).1]
        exact b1
      · rw [hek]
        exact b2
      · rw [hoffk, hek, (insertedTable_pool t w c displ).2.1]
        omega
      · rw [hoffk, hek, insertedTable_mem_low (by omega)]
        exact b4
      · intro kk hkk
        rw [hek] at hkk
        rw [hoffk, insertedTable_mem_low (by omega)]
        exact b5 kk hkk
      · intro kk hkk
        rw [hek] at hkk
        rw [hoffk, insertedTable_mem_low (by omega)]
        exact b6 kk hkk
      · rw [insertedTable_idealSlot_ne (hcne k hk') b3, hek]
        exact b7
      · intro i hicap hirank
        rw [insertedTable_capacity] at hicap
        rw [insertedTable_idealSlot_ne (hcne k hk') b3] at hirank
        exact insertedTable_count_pos hclen (b8 i hicap hirank)

end WordCounter

namespace WordCounter

theorem wordAt_length (t : WordHashTable) (j : Nat) :
    (wordAt t j).length = (entryAt t j).length - 1 := by
  unfold wordAt entryWordFn
  rw [readBytes_length]
  rfl

theorem wordAt_getD {t : WordHashTable} {j k : Nat} (hk : k < (entryAt t j).length - 1) :
    (wordAt t j).getD k 0 = t.stringsPool.mem.getD (offAt t j + k) 0 := by
  unfold wordAt entryWordFn offAt
  exact readBytes_getD hk

theorem WF.storedBytes {t : WordHashTable} (h : WF t) {j : Nat} (hj : j ∈ t.alphOrderArray) :
    readBytes t.stringsPool.mem (offAt t j) (entryAt t j).length = wordAt t j ++ [0] := by
  obtain ⟨b1, b2, b3, b4, b5, b6, b7, b8⟩ := h.entries_ok j hj
  have hlen : (entryAt t j).length = ((entryAt t j).length - 1) + 1 := by omega
  rw [hlen, readBytes_snoc, b4]
  rfl

theorem WF.idealSlot_eq {t : WordHashTable} (h : WF t) {j : Nat} (hj : j ∈ t.alphOrderArray) :
    idealSlot t j = fnvhash (wordAt t j ++ [0]) % t.capacity := by
  unfold idealSlot
  rw [h.storedBytes hj]

theorem preCheckB_self {t : WordHashTable} (h : WF t) {j : Nat} (hj : j ∈ t.alphOrderArray) :
    preCheckB (entryAt t j) t.stringsPool (wordAt t j)
      ((j : Int) - (fnvhash (wordAt t j ++ [0]) % t.capacity : Nat)) = true := by
  obtain ⟨b1, b2, b3, b4, b5, b6, b7, b8⟩ := h.entries_ok j hj
  have hwl : (wordAt t j).length = (entryAt t j).length - 1 := wordAt_length t j
  unfold preCheckB
  simp only [Bool.and_eq_true, beq_iff_eq]
  refine ⟨⟨⟨by omega, ?_⟩, ?_⟩, ?_⟩
  · rw [← h.idealSlot_eq hj]
    omega
  · rw [wordAt_getD (show (0 : Nat) < (entryAt t j).length - 1 by omega)]
    rfl
  · have hidx : (entryAt t j).letters - t.stringsPool.memBase + ((entryAt t j).length - 2)
        = offAt t j + ((wordAt t j).length - 1) := by
      unfold offAt
      omega
    rw [hidx, wordAt_getD (show (wordAt t j).length - 1 < (entryAt t j).length - 1 by omega)]

theorem preCheckB_sig {t : WordHashTable} (h : WF t) {j : Nat} (hj : j ∈ t.alphOrderArray)
    {w : List Nat} {displ : Int}
    (hpre : preCheckB (entryAt t j) t.stringsPool w displ = true) :
    wordSig (wordAt t j) = wordSig w := by
  obtain ⟨b1, b2, b3, b4, b5, b6, b7, b8⟩ := h.entries_ok j hj
  have hwl : (wordAt t j).length = (entryAt t j).length - 1 := wordAt_length t j
  unfold preCheckB at hpre
  simp only [Bool.and_eq_true, beq_iff_eq] at hpre
  obtain ⟨⟨⟨hlen, hdis⟩, hfirst⟩, hlast⟩ := hpre
  unfold wordSig
  have hl : (wordAt t j).length = w.length := by omega
  refine Prod.ext (by simpa using hl) (Prod.ext ?_ ?_)
  · simp only []
    rw [wordAt_getD (show (0 : Nat) < (entryAt t j).length - 1 by omega)]
    rw [show offAt t j + 0 = (entryAt t j).letters - t.stringsPool.memBase by
      unfold offAt; omega]
    exact hfirst
  · simp only []
    rw [hwl, wordAt_getD (show (entryAt t j).length - 1 - 1 < (entryAt t j).length - 1 by omega)]
    rw [show offAt t j + ((entryAt t j).length - 1 - 1)
        = (entryAt t j).letters - t.stringsPool.memBase + ((entryAt t j).length - 2) by
      unfold offAt; omega]
    rw [hlast]

theorem exists_empty_slot {t : WordHashTable} (h : WF t) (hsz : t.size < t.capacity) :
    ∃ c, c < t.capacity ∧ (entryAt t c).count = 0 := by
  by_contra hno
  push_neg at hno
  have hsub : ∀ c ∈ Finset.range t.capacity, c ∈ t.alphOrderArray.toFinset := by
    intro c hc
    rw [List.mem_toFinset]
    have hcc := Finset.mem_range.1 hc
    exact h.live_in_order c hcc (Nat.pos_of_ne_zero (hno c hcc))
  have hcard := Finset.card_le_card hsub
  rw [Finset.card_range] at hcard
  have := List.toFinset_card_le t.alphOrderArray
  rw [h.order_len] at this
  omega

end WordCounter

namespace WordCounter

theorem not_stored_of_stopsAt_empty {t : WordHashTable} (h : WF t) {w : List Nat} {c : Nat}
    (hs : StopsAt t w c) (hc0 : (entryAt t c).count = 0) :
    ∀ j ∈ t.alphOrderArray, wordAt t j ≠ w := by
  intro j hj he
  obtain ⟨b1, b2, b3, b4, b5, b6, b7, b8⟩ := h.entries_ok j hj
  have hjcap : j < t.capacity := h.order_lt j hj
  have hjpos : 0 < (entryAt t j).count := h.order_live j hj
  have hideal : idealSlot t j = fnvhash (w ++ [0]) % t.capacity := by
    rw [h.idealSlot_eq hj, he]
  have hjc : j ≠ c := by
    intro hjc
    rw [hjc] at hjpos
    omega
  -- c is empty, so the probe path of j cannot pass through c: rank j < rank c
  have hrankjc : probeRank (fnvhash (w ++ [0]) % t.capacity) j
      < probeRank (fnvhash (w ++ [0]) % t.capacity) c := by
    rcases Nat.lt_or_ge (probeRank (fnvhash (w ++ [0]) % t.capacity) j)
      (probeRank (fnvhash (w ++ [0]) % t.capacity) c) with hlt | hge
    · exact hlt
    · exfalso
      rcases Nat.eq_or_lt_of_le hge with heqr | hltr
      · exact hjc (probeRank_inj heqr.symm)
      · have := b8 c hs.1 (by rw [hideal]; exact hltr)
        omega
  -- so probing stopped before j: the pre-check at j must have failed
  have hnone := hs.2.2 j hjcap hrankjc
  rw [probeSlot_eq_none_iff] at hnone
  have hpre := preCheckB_self h hj
  rw [he] at hpre
  push_cast at hpre hnone
  rw [hnone.2] at hpre
  cases hpre

theorem add_word_step {t : WordHashTable} (h : WF t) {w : List Nat} (hw : validWord w)
    (hsz : t.size < t.capacity) :
    (∃ j, j ∈ t.alphOrderArray ∧ wordSig (wordAt t j) = wordSig w ∧
      WordHashTable_add_word t w = (.SUCCESS, bumpedTable t j)) ∨
    ((∀ j ∈ t.alphOrderArray, wordAt t j ≠ w) ∧
      ∃ c, (entryAt t c).count = 0 ∧ c < t.capacity ∧
        (∀ i, i < t.capacity → probeRank (fnvhash (w ++ [0]) % t.capacity) i <
            probeRank (fnvhash (w ++ [0]) % t.capacity) c → 0 < (entryAt t i).count) ∧
        ((t.stringsPool.nextChar + (w.length + 1) < t.stringsPool.capacity ∧
            WordHashTable_add_word t w = (.SUCCESS,
              insertedTable t w c ((c : Int) - (fnvhash (w ++ [0]) % t.capacity : Nat)))) ∨
          (¬ t.stringsPool.nextChar + (w.length + 1) < t.stringsPool.capacity ∧
            WordHashTable_add_word t w = (.DATA_STRUCT_FULL, fullFailTable t c)))) := by
  obtain ⟨c0, hc0cap, hc0⟩ := exists_empty_slot h hsz
  have hc0stop : probeSlot t w c0 ((c0 : Int) - (fnvhash (w ++ [0]) % t.capacity : Nat))
      ≠ none := by
    by_cases hroom : t.stringsPool.nextChar + (w.length + 1) < t.stringsPool.capacity
    · rw [probeSlot_empty_ok hc0 hroom]
      simp
    · rw [probeSlot_empty_full hc0 hroom]
      simp
  obtain ⟨iStar, hs⟩ := stopsAt_exists hc0cap hc0stop
  by_cases hocc : (entryAt t iStar).count = 0
  · -- stops at an empty slot: insertion or pool-full
    right
    have hnostore := not_stored_of_stopsAt_empty h hs hocc
    refine ⟨hnostore, iStar, hocc, hs.1, ?_, ?_⟩
    · intro i hi hrank
      have := hs.2.2 i hi hrank
      rw [probeSlot_eq_none_iff] at this
      omega
    · by_cases hroom : t.stringsPool.nextChar + (w.length + 1) < t.stringsPool.capacity
      · exact Or.inl ⟨hroom,
          add_word_eq_of_stopsAt h.cap_pos hs (probeSlot_empty_ok hocc hroom)⟩
      · exact Or.inr ⟨hroom,
          add_word_eq_of_stopsAt h.cap_pos hs (probeSlot_empty_full hocc hroom)⟩
  · -- stops at an occupied slot: the pre-check matched, count increment
    left
    have hpre : preCheckB (entryAt t iStar) t.stringsPool w
        ((iStar : Int) - (fnvhash (w ++ [0]) % t.capacity : Nat)) = true := by
      by_contra hne
      exact hs.2.1 (probeSlot_eq_none_iff.2 ⟨hocc, by simpa using hne⟩)
    have hmem : iStar ∈ t.alphOrderArray :=
      h.live_in_order iStar hs.1 (Nat.pos_of_ne_zero hocc)
    exact ⟨iStar, hmem, preCheckB_sig h hmem hpre,
      add_word_eq_of_stopsAt h.cap_pos hs (probeSlot_occupied_match hocc hpre)⟩

end WordCounter


namespace WordCounter

/-! ### Pool expansion and pointer rebasing -/

theorem rebase_foldl_length (newB prevB : Nat) :
    ∀ (order : List Nat) (es : List WordHashTabEntry),
      (order.foldl (fun es2 validIndex =>
          let oldEntry := es2.getD validIndex default
          es2.set validIndex
            { oldEntry with letters := oldEntry.letters - prevB + newB }) es).length
        = es.length := by
  intro order
  induction order with
  | nil => intro es; rfl
  | cons j rest ih =>
    intro es
    rw [List.foldl_cons]
    rw [ih]
    simp

theorem rebase_foldl_getD (newB prevB : Nat) :
    ∀ (order : List Nat) (es : List WordHashTabEntry), order.Nodup → ∀ x : Nat,
      ((order.foldl (fun es2 validIndex =>
          let oldEntry := es2.getD validIndex default
          es2.set validIndex
            { oldEntry with letters := oldEntry.letters - prevB + newB }) es).getD x default)
      = if x ∈ order ∧ x < es.length then
          { es.getD x default with letters := (es.getD x default).letters - prevB + newB }
        else es.getD x default := by
  intro order
  induction order with
  | nil =>
    intro es _ x
    simp
  | cons j rest ih =>
    intro es hnd x
    have hnd2 := List.nodup_cons.1 hnd
    rw [List.foldl_cons]
    show ((rest.foldl _ (es.set j { es.getD j default with
        letters := (es.getD j default).letters - prevB + newB })).getD x default) = _
    rw [ih _ hnd2.2 x]
    by_cases hxj : x = j
    · subst hxj
      rw [if_neg (fun hc => hnd2.1 hc.1)]
      by_cases hlen : x < es.length
      · rw [getD_set_eq' hlen, if_pos ⟨List.mem_cons_self _ _, hlen⟩]
      · have h2 : es.length ≤ x := Nat.le_of_not_lt hlen
        rw [if_neg (fun hc => hlen hc.2)]
        rw [List.getD_eq_default _ _ (by simpa using h2), List.getD_eq_default _ _ h2]
    · rw [getD_set_ne' (fun h => hxj h.symm)]
      have hcond : (x ∈ rest ∧ x < (es.set j { es.getD j default with
          letters := (es.getD j default).letters - prevB + newB }).length)
          ↔ (x ∈ j :: rest ∧ x < es.length) := by
        simp [List.mem_cons, hxj]
      exact if_congr hcond rfl rfl

theorem stringPointers_update_entryAt {t : WordHashTable} {prevB : Nat}
    (hnd : t.alphOrderArray.Nodup) (x : Nat) :
    entryAt (stringPointers_update t prevB) x =
      if x ∈ t.alphOrderArray ∧ x < t.entries.length then
        { entryAt t x with
          letters := (entryAt t x).letters - prevB + t.stringsPool.memBase }
      else entryAt t x :=
  rebase_foldl_getD t.stringsPool.memBase prevB t.alphOrderArray t.entries hnd x

end WordCounter


namespace WordCounter

theorem poolExpand_scalars (t : WordHashTable) (newBase : Nat) :
    (WordHashTable_MemoryPool_expand t newBase).alphOrderArray = t.alphOrderArray ∧
    (WordHashTable_MemoryPool_expand t newBase).capacity = t.capacity ∧
    (WordHashTable_MemoryPool_expand t newBase).size = t.size ∧
    (WordHashTable_MemoryPool_expand t newBase).stringsPool.nextChar
      = t.stringsPool.nextChar ∧
    (WordHashTable_MemoryPool_expand t newBase).stringsPool.capacity
      = 2 * t.stringsPool.capacity ∧
    (WordHashTable_MemoryPool_expand t newBase).stringsPool.memBase = newBase ∧
    (WordHashTable_MemoryPool_expand t newBase).stringsPool.mem
      = t.stringsPool.mem ++ List.replicate t.stringsPool.capacity 0 ∧
    (WordHashTable_MemoryPool_expand t newBase).entries.length = t.entries.length ∧
    (WordHashTable_MemoryPool_expand t newBase).totalInsertions = t.totalInsertions ∧
    (WordHashTable_MemoryPool_expand t newBase).totalCollisions = t.totalCollisions := by
  simp only [WordHashTable_MemoryPool_expand, MemoryPool_expand]
  by_cases hmove : t.stringsPool.memBase = newBase
  · rw [if_pos hmove]
    exact ⟨rfl, rfl, rfl, rfl, rfl, rfl, rfl, rfl, rfl, rfl⟩
  · rw [if_neg hmove]
    refine ⟨rfl, rfl, rfl, rfl, rfl, rfl, rfl, ?_, rfl, rfl⟩
    exact rebase_foldl_length _ _ _ _

end WordCounter

namespace WordCounter

theorem poolExpand_entryAt {t : WordHashTable} (hnd : t.alphOrderArray.Nodup)
    (newBase x : Nat)
    (hble : x ∈ t.alphOrderArray → t.stringsPool.memBase ≤ (entryAt t x).letters) :
    entryAt (WordHashTable_MemoryPool_expand t newBase) x =
      if x ∈ t.alphOrderArray ∧ x < t.entries.length then
        { entryAt t x with
          letters := (entryAt t x).letters - t.stringsPool.memBase + newBase }
      else entryAt t x := by
  simp only [WordHashTable_MemoryPool_expand, MemoryPool_expand]
  by_cases hmove : t.stringsPool.memBase = newBase
  · rw [if_pos hmove]
    by_cases hc : x ∈ t.alphOrderArray ∧ x < t.entries.length
    · rw [if_pos hc, ← hmove]
      have h2 : (entryAt t x).letters - t.stringsPool.memBase + t.stringsPool.memBase
          = (entryAt t x).letters := Nat.sub_add_cancel (hble hc.1)
      show entryAt t x = _
      rw [h2]
    · rw [if_neg hc]
      rfl
  · rw [if_neg hmove]
    refine Eq.trans (stringPointers_update_entryAt ?h1 x) ?h2
    · exact hnd
    · rfl

end WordCounter

namespace WordCounter

theorem poolExpand_entryAt_live {t : WordHashTable} (h : WF t) {x : Nat}
    (hx : x ∈ t.alphOrderArray) (newBase : Nat) :
    entryAt (WordHashTable_MemoryPool_expand t newBase) x =
      { entryAt t x with
        letters := (entryAt t x).letters - t.stringsPool.memBase + newBase } := by
  rw [poolExpand_entryAt h.order_nodup newBase x (fun hm => (h.entries_ok x hx).base_le)]
  rw [if_pos ⟨hx, by rw [h.entries_len]; exact h.order_lt x hx⟩]

theorem poolExpand_entryAt_dead {t : WordHashTable} (h : WF t) {x : Nat}
    (hx : x ∉ t.alphOrderArray) (newBase : Nat) :
    entryAt (WordHashTable_MemoryPool_expand t newBase) x = entryAt t x := by
  rw [poolExpand_entryAt h.order_nodup newBase x (fun hm => absurd hm hx)]
  rw [if_neg (fun hc => hx hc.1)]

theorem poolExpand_count {t : WordHashTable} (h : WF t) (newBase x : Nat) :
    (entryAt (WordHashTable_MemoryPool_expand t newBase) x).count
      = (entryAt t x).count := by
  by_cases hx : x ∈ t.alphOrderArray
  · rw [poolExpand_entryAt_live h hx newBase]
  · rw [poolExpand_entryAt_dead h hx newBase]

theorem poolExpand_offAt_live {t : WordHashTable} (h : WF t) {x : Nat}
    (hx : x ∈ t.alphOrderArray) (newBase : Nat) :
    offAt (WordHashTable_MemoryPool_expand t newBase) x = offAt t x := by
  obtain ⟨-, -, -, -, -, hbase, -, -, -, -⟩ := poolExpand_scalars t newBase
  unfold offAt
  rw [poolExpand_entryAt_live h hx newBase, hbase]
  show (entryAt t x).letters - t.stringsPool.memBase + newBase - newBase = _
  omega

theorem poolExpand_mem_getD {t : WordHashTable} (h : WF t) (newBase : Nat) {k : Nat}
    (hk : k < t.stringsPool.capacity) :
    (WordHashTable_MemoryPool_expand t newBase).stringsPool.mem.getD k 0
      = t.stringsPool.mem.getD k 0 := by
  obtain ⟨-, -, -, -, -, -, hmem, -, -, -⟩ := poolExpand_scalars t newBase
  rw [hmem]
  exact getD_append_lt (by rw [h.mem_len]; exact hk)

end WordCounter

namespace WordCounter

theorem poolExpand_length_live {t : WordHashTable} (h : WF t) {x : Nat}
    (hx : x ∈ t.alphOrderArray) (newBase : Nat) :
    (entryAt (WordHashTable_MemoryPool_expand t newBase) x).length
      = (entryAt t x).length := by
  rw [poolExpand_entryAt_live h hx newBase]

theorem poolExpand_displ_live {t : WordHashTable} (h : WF t) {x : Nat}
    (hx : x ∈ t.alphOrderArray) (newBase : Nat) :
    (entryAt (WordHashTable_MemoryPool_expand t newBase) x).displacement
      = (entryAt t x).displacement := by
  rw [poolExpand_entryAt_live h hx newBase]

theorem poolExpand_wordAt_live {t : WordHashTable} (h : WF t) {x : Nat}
    (hx : x ∈ t.alphOrderArray) (newBase : Nat) :
    wordAt (WordHashTable_MemoryPool_expand t newBase) x = wordAt t x := by
  have hfits := (h.entries_ok x hx).fits
  have hlt := h.pool_lt
  show readBytes (WordHashTable_MemoryPool_expand t newBase).stringsPool.mem
      (offAt (WordHashTable_MemoryPool_expand t newBase) x)
      ((entryAt (WordHashTable_MemoryPool_expand t newBase) x).length - 1)
    = readBytes t.stringsPool.mem (offAt t x) ((entryAt t x).length - 1)
  rw [poolExpand_offAt_live h hx newBase, poolExpand_length_live h hx newBase]
  refine readBytes_congr ?_
  intro k hk
  exact poolExpand_mem_getD h newBase (by omega)

theorem poolExpand_idealSlot_live {t : WordHashTable} (h : WF t) {x : Nat}
    (hx : x ∈ t.alphOrderArray) (newBase : Nat) :
    idealSlot (WordHashTable_MemoryPool_expand t newBase) x = idealSlot t x := by
  obtain ⟨-, hcap, -, -, -, -, -, -, -, -⟩ := poolExpand_scalars t newBase
  have hfits := (h.entries_ok x hx).fits
  have hlt := h.pool_lt
  unfold idealSlot
  rw [hcap, poolExpand_offAt_live h hx newBase, poolExpand_length_live h hx newBase]
  have hrb : readBytes (WordHashTable_MemoryPool_expand t newBase).stringsPool.mem
      (offAt t x) (entryAt t x).length
      = readBytes t.stringsPool.mem (offAt t x) (entryAt t x).length := by
    refine readBytes_congr ?_
    intro k hk
    exact poolExpand_mem_getD h newBase (by omega)
  rw [hrb]

theorem poolExpand_report {t : WordHashTable} (h : WF t) (newBase : Nat) :
    WordHashTable_report (WordHashTable_MemoryPool_expand t newBase)
      = WordHashTable_report t := by
  obtain ⟨hord, -, -, -, -, -, -, -, -, -⟩ := poolExpand_scalars t newBase
  unfold WordHashTable_report
  rw [hord]
  refine List.map_congr_left ?_
  intro j hj
  show (wordAt (WordHashTable_MemoryPool_expand t newBase) j,
      (entryAt (WordHashTable_MemoryPool_expand t newBase) j).count)
    = (wordAt t j, (entryAt t j).count)
  rw [poolExpand_wordAt_live h hj newBase, poolExpand_count h newBase j]

end WordCounter

namespace WordCounter

theorem WF_poolExpand {t : WordHashTable} (h : WF t) (newBase : Nat) :
    WF (WordHashTable_MemoryPool_expand t newBase) := by
  obtain ⟨hord, hcap, hsize, hnext, hpcap, hbase, hmem, helen, -, -⟩ :=
    poolExpand_scalars t newBase
  have hlt := h.pool_lt
  constructor
  · rw [hcap]; exact h.cap_pos
  · rw [helen, hcap, h.entries_len]
  · rw [hmem, hpcap, List.length_append, List.length_replicate, h.mem_len]
    omega
  · rw [hnext, hpcap]; omega
  · rw [hord, hsize]; exact h.order_len
  · intro j hj
    rw [hcap]
    exact h.order_lt j (hord ▸ hj)
  · intro j hj
    rw [poolExpand_count h newBase j]
    exact h.order_live j (hord ▸ hj)
  · intro j hjc hcount
    rw [hord]
    rw [poolExpand_count h newBase j] at hcount
    exact h.live_in_order j (hcap ▸ hjc) hcount
  · rw [hord]
    refine h.sorted.imp_of_mem ?_
    intro a b ha hb hab
    rw [poolExpand_wordAt_live h ha newBase, poolExpand_wordAt_live h hb newBase]
    exact hab
  · intro j hj
    have hj2 : j ∈ t.alphOrderArray := hord ▸ hj
    obtain ⟨b1, b2, b3, b4, b5, b6, b7, b8⟩ := h.entries_ok j hj2
    have hleq := poolExpand_length_live h hj2 newBase
    have hoeq := poolExpand_offAt_live h hj2 newBase
    constructor
    · rw [poolExpand_entryAt_live h hj2 newBase, hbase]
      show newBase ≤ (entryAt t j).letters - t.stringsPool.memBase + newBase
      omega
    · rw [hleq]; exact b2
    · rw [hoeq, hleq, hnext]; exact b3
    · rw [hoeq, hleq]
      rw [poolExpand_mem_getD h newBase (by omega)]
      exact b4
    · intro k hk
      rw [hleq] at hk
      rw [hoeq, poolExpand_mem_getD h newBase (by omega)]
      exact b5 k hk
    · intro k hk
      rw [hleq] at hk
      rw [hoeq, poolExpand_mem_getD h newBase (by omega)]
      exact b6 k hk
    · rw [poolExpand_idealSlot_live h hj2 newBase, poolExpand_displ_live h hj2 newBase]
      exact b7
    · intro i hi hrank
      rw [hcap] at hi
      rw [poolExpand_idealSlot_live h hj2 newBase] at hrank
      rw [poolExpand_count h newBase i]
      exact b8 i hi hrank

end WordCounter

namespace WordCounter

theorem WF_size_le {t : WordHashTable} (h : WF t) : t.size ≤ t.capacity := by
  have hsp : List.Subperm t.alphOrderArray (List.range t.capacity) :=
    List.subperm_of_subset h.order_nodup
      (fun j hj => List.mem_range.2 (h.order_lt j hj))
  have hlen := hsp.length_le
  rw [h.order_len, List.length_range] at hlen
  exact hlen

theorem WF_full_all_live {t : WordHashTable} (h : WF t) (hsz : t.size = t.capacity) :
    ∀ i, i < t.capacity → 0 < (entryAt t i).count := by
  intro i hi
  by_contra hdead
  have hi0 : (entryAt t i).count = 0 := by omega
  have hnot : i ∉ t.alphOrderArray := h.dead_not_in_order hi0
  have hsub : t.alphOrderArray ⊆ (List.range t.capacity).erase i := by
    intro j hj
    have hne : j ≠ i := fun he => hnot (he ▸ hj)
    exact (List.mem_erase_of_ne hne).2 (List.mem_range.2 (h.order_lt j hj))
  have hsp : List.Subperm t.alphOrderArray ((List.range t.capacity).erase i) :=
    List.subperm_of_subset h.order_nodup hsub
  have hlen := hsp.length_le
  rw [h.order_len, List.length_erase_of_mem (List.mem_range.2 hi),
    List.length_range] at hlen
  omega

theorem WF_add_word {t : WordHashTable} (h : WF t) {w : List Nat} (hw : validWord w) :
    WF (WordHashTable_add_word t w).2 := by
  rcases Nat.lt_or_ge t.size t.capacity with hsz | hsz
  · rcases add_word_step h hw hsz with ⟨j, hj, hsig, heq⟩ |
      ⟨hns, c, hc0, hccap, hpath, hcase⟩
    · rw [heq]
      exact WF_bumpedTable h hj
    · rcases hcase with ⟨hroom, heq⟩ | ⟨hfull, heq⟩
      · rw [heq]
        exact WF_insertedTable h hw hc0 hccap hroom rfl hpath hns
      · rw [heq]
        exact WF_fullFailTable h hc0
  · have hsz2 : t.size = t.capacity := le_antisymm (WF_size_le h) hsz
    have hall := WF_full_all_live h hsz2
    rcases add_word_dichotomy t w h.cap_pos with ⟨iStar, hs⟩ | ⟨-, heq⟩
    · have hipos : 0 < (entryAt t iStar).count := hall iStar hs.1
      have hne : (entryAt t iStar).count ≠ 0 := by omega
      by_cases hpre : preCheckB (entryAt t iStar) t.stringsPool w
          ((iStar : Int) - (fnvhash (w ++ [0]) % t.capacity)) = true
      · have heq := add_word_eq_of_stopsAt h.cap_pos hs (probeSlot_occupied_match hne hpre)
        rw [heq]
        exact WF_bumpedTable h (h.live_in_order iStar hs.1 hipos)
      · exact absurd (probeSlot_occupied_nomatch hne (by simpa using hpre)) hs.2.1
    · rw [heq]
      exact h

end WordCounter

namespace WordCounter

/-- **C6**: after any expansion of the table's string pool
(`WordHashTable_MemoryPool_expand`), the table is still well formed,
every live entry's stored text reads back byte-identically, and every
live entry's string pointer has been rebased from the old pool base to
the new one (no entry retains a stale address). -/
theorem C6_pool_relocation {t : WordHashTable} (h : WF t) (newBase : Nat) :
    WF (WordHashTable_MemoryPool_expand t newBase) ∧
    ∀ j ∈ t.alphOrderArray,
      wordAt (WordHashTable_MemoryPool_expand t newBase) j = wordAt t j ∧
      (entryAt (WordHashTable_MemoryPool_expand t newBase) j).letters
        = (entryAt t j).letters - t.stringsPool.memBase + newBase :=
  ⟨WF_poolExpand h newBase, fun j hj =>
    ⟨poolExpand_wordAt_live h hj newBase, by rw [poolExpand_entryAt_live h hj newBase]⟩⟩

/-- **C6 witness** at the table holding the single word `"a"` and a pool
move from base 100 to base 999. -/
theorem C6_pool_relocation_witness :
    WF (WordHashTable_MemoryPool_expand
        (WordHashTable_add_word (WordHashTable_create 4 100) [97]).2 999) ∧
    ∀ j ∈ (WordHashTable_add_word (WordHashTable_create 4 100) [97]).2.alphOrderArray,
      wordAt (WordHashTable_MemoryPool_expand
          (WordHashTable_add_word (WordHashTable_create 4 100) [97]).2 999) j
        = wordAt (WordHashTable_add_word (WordHashTable_create 4 100) [97]).2 j ∧
      (entryAt (WordHashTable_MemoryPool_expand
          (WordHashTable_add_word (WordHashTable_create 4 100) [97]).2 999) j).letters
        = (entryAt (WordHashTable_add_word (WordHashTable_create 4 100) [97]).2 j).letters
          - (WordHashTable_add_word (WordHashTable_create 4 100) [97]).2.stringsPool.memBase
          + 999 :=
  C6_pool_relocation
    (WF_add_word (WF_create 4 100 (by decide))
      (show validWord [97] from ⟨by decide, by decide⟩)) 999

end WordCounter

namespace WordCounter

theorem fullFailTable_report {t : WordHashTable} {c : Nat} (h : WF t)
    (hc : (entryAt t c).count = 0) :
    WordHashTable_report (fullFailTable t c) = WordHashTable_report t := by
  have hnot := h.dead_not_in_order hc
  unfold WordHashTable_report
  rw [fullFailTable_order]
  refine List.map_congr_left ?_
  intro j hj
  have hne : c ≠ j := fun he => hnot (he ▸ hj)
  show (wordAt (fullFailTable t c) j, (entryAt (fullFailTable t c) j).count) = _
  rw [fullFailTable_wordAt_ne hne, fullFailTable_count]
  rfl

theorem addWithRetry_succeeds {w : List Nat} (hw : validWord w) :
    ∀ fuel (t : WordHashTable), WF t → t.size < t.capacity →
      t.stringsPool.nextChar + w.length + 3 ≤ (fuel + 1) + t.stringsPool.capacity →
      (addWithRetry (fuel + 1) t w).1 = .SUCCESS := by
  intro fuel
  induction fuel with
  | zero =>
    intro t h hsz hfuel
    have hroom : t.stringsPool.nextChar + (w.length + 1) < t.stringsPool.capacity := by
      omega
    rcases add_word_step h hw hsz with ⟨j, hj, hsig, heq⟩ |
      ⟨hns, c, hc0, hccap, hpath, hcase⟩
    · simp only [addWithRetry, heq]
    · rcases hcase with ⟨hroom2, heq⟩ | ⟨hfull, heq⟩
      · simp only [addWithRetry, heq]
      · exact absurd hroom hfull
  | succ fuel ih =>
    intro t h hsz hfuel
    rcases add_word_step h hw hsz with ⟨j, hj, hsig, heq⟩ |
      ⟨hns, c, hc0, hccap, hpath, hcase⟩
    · simp only [addWithRetry, heq]
    · rcases hcase with ⟨hroom2, heq⟩ | ⟨hfull, heq⟩
      · simp only [addWithRetry, heq]
      · simp only [addWithRetry, heq]
        have hWFf : WF (fullFailTable t c) := WF_fullFailTable h hc0
        have hWF2 := WF_poolExpand hWFf (movedBase (fullFailTable t c).stringsPool)
        obtain ⟨-, hcap2, hsize2, hnext2, hpcap2, -, -, -, -, -⟩ :=
          poolExpand_scalars (fullFailTable t c) (movedBase (fullFailTable t c).stringsPool)
        refine ih _ hWF2 ?_ ?_
        · rw [hcap2, hsize2, fullFailTable_capacity, fullFailTable_size]
          exact hsz
        · rw [hnext2, hpcap2, fullFailTable_pool]
          have hc1 := h.pool_lt
          omega

end WordCounter

namespace WordCounter

/-- **C8**: a `DATA_STRUCT_FULL` failure of `WordHashTable_add_word`
leaves every observable of the table unchanged (alphabetical index,
size, capacity, pool, statistics, every live entry, and the report), and
the caller's expand-pool-and-retry loop, given its (sufficient) fuel,
succeeds whenever the table itself is not full — exhausting the fuel is
the fatal out-of-memory exit. -/
theorem C8_pool_full_rollback_retry {t : WordHashTable} (h : WF t) {w : List Nat}
    (hw : validWord w) :
    (∀ t1, WordHashTable_add_word t w = (.DATA_STRUCT_FULL, t1) →
      t1.alphOrderArray = t.alphOrderArray ∧ t1.size = t.size ∧
      t1.capacity = t.capacity ∧ t1.stringsPool = t.stringsPool ∧
      t1.totalInsertions = t.totalInsertions ∧
      t1.totalCollisions = t.totalCollisions ∧
      (∀ j ∈ t.alphOrderArray, entryAt t1 j = entryAt t j) ∧
      WordHashTable_report t1 = WordHashTable_report t) ∧
    (t.size < t.capacity → (addWithRetry (retryFuel t w) t w).1 = .SUCCESS) := by
  constructor
  · intro t1 heq1
    rcases Nat.lt_or_ge t.size t.capacity with hsz | hsz
    · rcases add_word_step h hw hsz with ⟨j, hj, hsig, heq⟩ |
        ⟨hns, c, hc0, hccap, hpath, hcase⟩
      · rw [heq] at heq1
        simp at heq1
      · rcases hcase with ⟨hroom, heq⟩ | ⟨hfull, heq⟩
        · rw [heq] at heq1
          simp at heq1
        · have h2 := heq.symm.trans heq1
          simp only [Prod.mk.injEq, true_and] at h2
          subst h2
          refine ⟨fullFailTable_order t c, fullFailTable_size t c,
            fullFailTable_capacity t c, fullFailTable_pool t c,
            (fullFailTable_stats t c).1, (fullFailTable_stats t c).2.1, ?_,
            fullFailTable_report h hc0⟩
          intro j hj
          have hne : c ≠ j := fun he => (h.dead_not_in_order hc0) (he ▸ hj)
          exact fullFailTable_entryAt_ne hne
    · have hsz2 : t.size = t.capacity := le_antisymm (WF_size_le h) hsz
      have hall := WF_full_all_live h hsz2
      rcases add_word_dichotomy t w h.cap_pos with ⟨iStar, hs⟩ | ⟨-, heq⟩
      · have hipos := hall iStar hs.1
        have hne0 : (entryAt t iStar).count ≠ 0 := by omega
        by_cases hpre : preCheckB (entryAt t iStar) t.stringsPool w
            ((iStar : Int) - (fnvhash (w ++ [0]) % t.capacity)) = true
        · have heq := add_word_eq_of_stopsAt h.cap_pos hs
            (probeSlot_occupied_match hne0 hpre)
          rw [heq] at heq1
          simp at heq1
        · exact absurd (probeSlot_occupied_nomatch hne0 (by simpa using hpre)) hs.2.1
      · rw [heq] at heq1
        simp at heq1
  · intro hsz
    have hc1 := h.pool_lt
    exact addWithRetry_succeeds hw (t.stringsPool.nextChar + w.length + 1) t h hsz
      (by omega)

end WordCounter

namespace WordCounter

/-- **C8 witness** at a fresh capacity-1 table (pool of 6 bytes) and the
five-letter word `"bbbbb"`, whose insertion overflows the pool once. -/
theorem C8_pool_full_rollback_retry_witness :
    (∀ t1, WordHashTable_add_word (WordHashTable_create 1 0) [98,98,98,98,98]
        = (.DATA_STRUCT_FULL, t1) →
      t1.alphOrderArray = (WordHashTable_create 1 0).alphOrderArray ∧
      t1.size = (WordHashTable_create 1 0).size ∧
      t1.capacity = (WordHashTable_create 1 0).capacity ∧
      t1.stringsPool = (WordHashTable_create 1 0).stringsPool ∧
      t1.totalInsertions = (WordHashTable_create 1 0).totalInsertions ∧
      t1.totalCollisions = (WordHashTable_create 1 0).totalCollisions ∧
      (∀ j ∈ (WordHashTable_create 1 0).alphOrderArray,
        entryAt t1 j = entryAt (WordHashTable_create 1 0) j) ∧
      WordHashTable_report t1 = WordHashTable_report (WordHashTable_create 1 0)) ∧
    ((WordHashTable_create 1 0).size < (WordHashTable_create 1 0).capacity →
      (addWithRetry (retryFuel (WordHashTable_create 1 0) [98,98,98,98,98])
        (WordHashTable_create 1 0) [98,98,98,98,98]).1 = .SUCCESS) :=
  C8_pool_full_rollback_retry (WF_create 1 0 (by decide))
    (show validWord [98,98,98,98,98] from ⟨by decide, by decide⟩)

end WordCounter

namespace WordCounter

theorem mStopsAt_exists (ext : List WordHashTabEntry) (capacity hashIndex i0 : Nat)
    (hi0 : i0 < capacity) (h0 : (ext.getD i0 default).count = 0) :
    ∃ iStar, MStopsAt ext capacity hashIndex iStar := by
  classical
  let P : Nat → Prop := fun rk => ∃ i, i < capacity ∧ probeRank hashIndex i = rk ∧
    (ext.getD i default).count = 0
  have hP : P (probeRank hashIndex i0) := ⟨i0, hi0, rfl, h0⟩
  obtain ⟨iStar, hical, hirank, histop⟩ := Nat.find_spec (⟨_, hP⟩ : ∃ rk, P rk)
  refine ⟨iStar, hical, histop, ?_⟩
  intro i hi hlt hc
  rw [hirank] at hlt
  exact Nat.find_min (⟨_, hP⟩ : ∃ rk, P rk) hlt ⟨i, hi, rfl, hc⟩

theorem migrateProbe_reaches {ext : List WordHashTabEntry} {capacity hashIndex iStar : Nat}
    (hcap : hashIndex < capacity) (hs : MStopsAt ext capacity hashIndex iStar) :
    ∀ gas newDispl, gas + newDispl = capacity + hashIndex + 1 →
      2 * newDispl - 1 ≤ probeRank hashIndex iStar →
      migrateProbe ext capacity hashIndex gas newDispl
        = some (iStar, (iStar : Int) - (hashIndex : Int)) := by
  have hi : iStar < capacity := hs.1
  intro gas
  induction gas with
  | zero =>
    intro newDispl hsum hrank
    exfalso
    have hr : probeRank hashIndex iStar ≤ 2 * capacity + 2 * hashIndex := by
      unfold probeRank
      split <;> omega
    omega
  | succ gas ih =>
    intro newDispl hsum hrank
    rw [migrateProbe]
    by_cases hi1 : hashIndex + newDispl = iStar
    · rw [if_pos ⟨by omega, hi1 ▸ hs.2.1⟩, hi1,
        show Int.ofNat newDispl = (iStar : Int) - (hashIndex : Int) by
          rw [Int.ofNat_eq_natCast]; omega]
    · have hc1 : ¬(hashIndex + newDispl < capacity ∧
          (ext.getD (hashIndex + newDispl) default).count = 0) := by
        rintro ⟨hin, h0⟩
        have hrk1 : probeRank hashIndex (hashIndex + newDispl) = 2 * newDispl - 1 := by
          rw [probeRank_plus (by omega)]
          omega
        have hlt : probeRank hashIndex (hashIndex + newDispl)
            < probeRank hashIndex iStar := by
          rcases Nat.lt_or_ge (probeRank hashIndex (hashIndex + newDispl))
            (probeRank hashIndex iStar) with h | h
          · exact h
          · exfalso
            have heqr : probeRank hashIndex (hashIndex + newDispl)
                = probeRank hashIndex iStar := by omega
            exact hi1 (probeRank_inj heqr)
        exact hs.2.2 (hashIndex + newDispl) hin hlt h0
      rw [if_neg hc1]
      by_cases hi2 : (newDispl ≤ hashIndex ∧ 0 < newDispl) ∧ hashIndex - newDispl = iStar
      · rw [if_pos ⟨hi2.1.1, hi2.1.2, hi2.2 ▸ hs.2.1⟩, hi2.2,
          show -(Int.ofNat newDispl) = (iStar : Int) - (hashIndex : Int) by
            rw [Int.ofNat_eq_natCast]
            have h1 := hi2.1.1
            have h2 := hi2.2
            omega]
      · have hc2 : ¬(newDispl ≤ hashIndex ∧ 0 < newDispl ∧
            (ext.getD (hashIndex - newDispl) default).count = 0) := by
          rintro ⟨ha, hb, h0⟩
          have hne : hashIndex - newDispl ≠ iStar := fun he => hi2 ⟨⟨ha, hb⟩, he⟩
          have hrk2 : probeRank hashIndex (hashIndex - newDispl) = 2 * newDispl := by
            rw [probeRank_minus (by omega)]
            omega
          have hlt : probeRank hashIndex (hashIndex - newDispl)
              < probeRank hashIndex iStar := by
            rcases Nat.lt_or_ge (probeRank hashIndex (hashIndex - newDispl))
              (probeRank hashIndex iStar) with h | h
            · exact h
            · exfalso
              have heq : probeRank hashIndex (hashIndex - newDispl)
                  = probeRank hashIndex iStar
                  ∨ probeRank hashIndex iStar = 2 * newDispl - 1 := by omega
              rcases heq with heq | heq
              · exact hne (probeRank_inj heq)
              · rcases Nat.eq_zero_or_pos newDispl with h0d | h0d
                · omega
                · have hfwd : probeRank hashIndex (hashIndex + newDispl)
                      = probeRank hashIndex iStar := by
                    rw [probeRank_plus (by omega)]
                    omega
                  exact hi1 (probeRank_inj hfwd)
          exact hs.2.2 (hashIndex - newDispl) (by omega) hlt h0
        rw [if_neg hc2]
        have hrankgt : 2 * (newDispl + 1) - 1 ≤ probeRank hashIndex iStar := by
          rcases le_or_lt hashIndex iStar with hdir | hdir
          · have hrk : probeRank hashIndex iStar = 2 * (iStar - hashIndex) - 1 :=
              probeRank_plus hdir
            have hne : iStar - hashIndex ≠ newDispl := by
              intro he
              exact hi1 (by omega)
            omega
          · have hrk : probeRank hashIndex iStar = 2 * (hashIndex - iStar) :=
              probeRank_minus hdir
            have hne : hashIndex - iStar ≠ newDispl := by
              intro he
              rcases Nat.eq_zero_or_pos newDispl with h0d | h0d
              · omega
              · exact hi2 ⟨⟨by omega, h0d⟩, by omega⟩
            omega
        have hguard : hashIndex + (newDispl + 1) < capacity ∨ newDispl + 1 ≤ hashIndex := by
          rcases le_or_lt hashIndex iStar with hdir | hdir
          · left
            have hrk : probeRank hashIndex iStar = 2 * (iStar - hashIndex) - 1 :=
              probeRank_plus hdir
            omega
          · right
            have hrk : probeRank hashIndex iStar = 2 * (hashIndex - iStar) :=
              probeRank_minus hdir
            omega
        rw [if_pos hguard]
        exact ih (newDispl + 1) (by omega) hrankgt

end WordCounter

namespace WordCounter

theorem migInv_step {tp : WordHashTable} (h : WF tp) {C : Nat} (hC : 0 < C)
    (hsz : tp.size < C) {k : Nat} (hk : k < tp.size)
    {s : WordHashTable × List WordHashTabEntry}
    (hinv : MigInv tp C k s) :
    MigInv tp C (k + 1) (migrateOne s k) := by
  obtain ⟨tS, ext⟩ := s
  obtain ⟨h1, h2, h3, h4, h5, h6, h7, h8, h9, h10⟩ := hinv
  have hordk : tS.alphOrderArray.getD k 0 = oldSlotAt tp k := h7 k (le_refl k)
  have hHlt : migHash tp C k < C := Nat.mod_lt _ hC
  have hexists : ∃ i0, i0 < C ∧ (ext.getD i0 default).count = 0 := by
    by_contra hno
    push_neg at hno
    have hsubset : List.range C ⊆
        (List.range k).map (fun m => tS.alphOrderArray.getD m 0) := by
      intro i hiR
      have hiC := List.mem_range.1 hiR
      have hpos : 0 < (ext.getD i default).count :=
        Nat.pos_of_ne_zero (hno i hiC)
      obtain ⟨m, hm, hmi⟩ := h9 i hiC hpos
      exact List.mem_map.2 ⟨m, List.mem_range.2 hm, hmi⟩
    have hsp : List.Subperm (List.range C)
        ((List.range k).map fun m => tS.alphOrderArray.getD m 0) :=
      List.subperm_of_subset (List.nodup_range C) hsubset
    have hle := hsp.length_le
    rw [List.length_range, List.length_map, List.length_range] at hle
    omega
  obtain ⟨i0, hi0C, hi00⟩ := hexists
  obtain ⟨iStar, hMS⟩ := mStopsAt_exists ext C (migHash tp C k) i0 hi0C hi00
  have hprobe : migrateProbe ext tS.capacity
      (fnvhash (readBytes tS.stringsPool.mem
          ((tS.entries.getD (tS.alphOrderArray.getD k 0) default).letters
            - tS.stringsPool.memBase)
          (tS.entries.getD (tS.alphOrderArray.getD k 0) default).length) % tS.capacity)
      (tS.capacity + (fnvhash (readBytes tS.stringsPool.mem
          ((tS.entries.getD (tS.alphOrderArray.getD k 0) default).letters
            - tS.stringsPool.memBase)
          (tS.entries.getD (tS.alphOrderArray.getD k 0) default).length) % tS.capacity) + 1) 0
      = some (iStar, (iStar : Int) - ((migHash tp C k : Nat) : Int)) := by
    rw [h1, h2, h3, hordk]
    exact migrateProbe_reaches hHlt hMS (C + migHash tp C k + 1) 0 (by omega) (by omega)
  have hstep : migrateOne (tS, ext) k =
      ({ tS with
          alphOrderArray := tS.alphOrderArray.set k iStar
          maxCountWordIndex :=
            if tS.alphOrderArray.getD k 0 = tS.maxCountWordIndex then iStar
            else tS.maxCountWordIndex
          maxLengthWordIndex :=
            if tS.alphOrderArray.getD k 0 = tS.maxLengthWordIndex then iStar
            else tS.maxLengthWordIndex
          totalInsertions := tS.totalInsertions + 1
          totalCollisions :=
            if 0 < ((iStar : Int) - ((migHash tp C k : Nat) : Int)).natAbs then
              tS.totalCollisions + ((iStar : Int) - ((migHash tp C k : Nat) : Int)).natAbs
            else tS.totalCollisions },
        ext.set iStar
          { letters := (tS.entries.getD (tS.alphOrderArray.getD k 0) default).letters
            count := (tS.entries.getD (tS.alphOrderArray.getD k 0) default).count
            length := (tS.entries.getD (tS.alphOrderArray.getD k 0) default).length
            displacement := (iStar : Int) - ((migHash tp C k : Nat) : Int) }) := by
    simp only [migrateOne]
    rw [hprobe]
  rw [hstep]
  have hklen : k < tS.alphOrderArray.length := by
    rw [h6, h.order_len]
    exact hk
  have hgetk : (tS.alphOrderArray.set k iStar).getD k 0 = iStar := getD_set_eq hklen
  have hgetm : ∀ m, m ≠ k →
      (tS.alphOrderArray.set k iStar).getD m 0 = tS.alphOrderArray.getD m 0 :=
    fun m hm => getD_set_ne (fun he => hm he.symm)
  have hextlen : iStar < ext.length := by
    rw [h5]
    exact hMS.1
  have hlivek : 0 < (oldEntryAt tp k).count := by
    have hmem : oldSlotAt tp k ∈ tp.alphOrderArray := getD_mem (by rw [h.order_len]; exact hk)
    exact h.order_live _ hmem
  have hprev : ∀ m, m < k → 0 < (ext.getD (tS.alphOrderArray.getD m 0) default).count := by
    intro m hm
    rw [(h10 m hm).2.2.2.1]
    have hmem : oldSlotAt tp m ∈ tp.alphOrderArray :=
      getD_mem (by rw [h.order_len]; omega)
    exact h.order_live _ hmem
  have hprev_ne : ∀ m, m < k → tS.alphOrderArray.getD m 0 ≠ iStar := by
    intro m hm he
    have hp := hprev m hm
    rw [he, hMS.2.1] at hp
    exact Nat.lt_irrefl 0 hp
  refine ⟨h1, h2, h3, h4, ?_, ?_, ?_, ?_, ?_, ?_⟩
  · rw [List.length_set]
    exact h5
  · rw [List.length_set]
    exact h6
  · intro m hm
    rw [hgetm m (by omega)]
    exact h7 m (by omega)
  · intro m1 m2 hm1 hm2 hne
    by_cases he1 : m1 = k
    · have hm2k : m2 ≠ k := by omega
      rw [he1, hgetk, hgetm m2 hm2k]
      have hm2lt : m2 < k := by omega
      exact fun he => hprev_ne m2 hm2lt he.symm
    · by_cases he2 : m2 = k
      · rw [he2, hgetk, hgetm m1 he1]
        have hm1lt : m1 < k := by omega
        exact hprev_ne m1 hm1lt
      · rw [hgetm m1 he1, hgetm m2 he2]
        exact h8 m1 m2 (by omega) (by omega) hne
  · intro i hi hpos
    by_cases hii : i = iStar
    · subst hii
      exact ⟨k, by omega, hgetk⟩
    · rw [getD_set_ne' (fun he => hii he.symm)] at hpos
      obtain ⟨m, hm, hmi⟩ := h9 i hi hpos
      exact ⟨m, by omega, by rw [hgetm m (by omega)]; exact hmi⟩
  · intro m hm
    by_cases hmk : m = k
    · rw [hmk, hgetk]
      refine ⟨hMS.1, ?_, ?_, ?_, ?_, ?_⟩
      · rw [getD_set_eq' hextlen]
        show (tS.entries.getD (tS.alphOrderArray.getD k 0) default).letters = _
        rw [h1, hordk]
        rfl
      · rw [getD_set_eq' hextlen]
        show (tS.entries.getD (tS.alphOrderArray.getD k 0) default).length = _
        rw [h1, hordk]
        rfl
      · rw [getD_set_eq' hextlen]
        show (tS.entries.getD (tS.alphOrderArray.getD k 0) default).count = _
        rw [h1, hordk]
        rfl
      · rw [getD_set_eq' hextlen]
        show ((migHash tp C k : Nat) : Int)
            + ((iStar : Int) - ((migHash tp C k : Nat) : Int)) = ((iStar : Nat) : Int)
        omega
      · intro i hi hrank
        have hii : i ≠ iStar := by
          intro he
          rw [he] at hrank
          exact Nat.lt_irrefl _ hrank
        rw [getD_set_ne' (fun he => hii he.symm)]
        exact Nat.pos_of_ne_zero (hMS.2.2 i hi hrank)
    · have hmlt : m < k := by omega
      have hjm := hprev_ne m hmlt
      rw [hgetm m hmk]
      obtain ⟨g1, g2, g3, g4, g5, g6⟩ := h10 m hmlt
      refine ⟨g1, ?_, ?_, ?_, ?_, ?_⟩
      · rw [getD_set_ne' (fun he => hjm he.symm)]
        exact g2
      · rw [getD_set_ne' (fun he => hjm he.symm)]
        exact g3
      · rw [getD_set_ne' (fun he => hjm he.symm)]
        exact g4
      · rw [getD_set_ne' (fun he => hjm he.symm)]
        exact g5
      · intro i hi hrank
        by_cases hii : i = iStar
        · subst hii
          rw [getD_set_eq' hextlen]
          show 0 < (tS.entries.getD (tS.alphOrderArray.getD k 0) default).count
          rw [h1, hordk]
          exact hlivek
        · rw [getD_set_ne' (fun he => hii he.symm)]
          exact g6 i hi hrank

end WordCounter

namespace WordCounter

theorem migInv_fold {tp : WordHashTable} (h : WF tp) {C : Nat} (hC : 0 < C)
    (hsz : tp.size < C) :
    ∀ k, k ≤ tp.size →
      MigInv tp C k ((List.range k).foldl migrateOne
        ({ tp with capacity := C }, List.replicate C default)) := by
  intro k
  induction k with
  | zero =>
    intro _
    simp only [List.range_zero, List.foldl_nil]
    refine ⟨rfl, rfl, rfl, rfl, by simp, rfl, fun m _ => rfl, ?_, ?_, ?_⟩
    · intro m1 m2 hm1 hm2 _
      omega
    · intro i hi hpos
      rw [getD_replicate_entry] at hpos
      exact absurd hpos (Nat.lt_irrefl 0)
    · intro m hm
      omega
  | succ k ih =>
    intro hk1
    rw [List.range_succ, List.foldl_append, List.foldl_cons, List.foldl_nil]
    exact migInv_step h hC hsz (by omega) (ih (by omega))

end WordCounter

namespace WordCounter

theorem pairwise_transfer {l1 l2 : List Nat} {R S : Nat → Nat → Prop}
    (hlen : l1.length = l2.length) (hp : l2.Pairwise S)
    (him : ∀ m1 m2, m1 < m2 → m2 < l1.length →
      S (l2.getD m1 0) (l2.getD m2 0) → R (l1.getD m1 0) (l1.getD m2 0)) :
    l1.Pairwise R := by
  refine List.pairwise_iff_getElem.2 ?_
  intro i j hi hj hij
  have hi2 : i < l2.length := by omega
  have hj2 : j < l2.length := by omega
  have hS := List.pairwise_iff_getElem.1 hp i j hi2 hj2 hij
  rw [← List.getD_eq_getElem l2 0 hi2, ← List.getD_eq_getElem l2 0 hj2] at hS
  have hR := him i j hij hj hS
  rw [List.getD_eq_getElem l1 0 hi, List.getD_eq_getElem l1 0 hj] at hR
  exact hR

theorem map_eq_of_pointwise {l1 l2 : List Nat} {f g : Nat → List Nat × Nat}
    (hlen : l1.length = l2.length)
    (hpt : ∀ m, m < l1.length → f (l1.getD m 0) = g (l2.getD m 0)) :
    l1.map f = l2.map g := by
  refine List.ext_getElem (by simpa using hlen) ?_
  intro i h1 h2
  rw [List.getElem_map, List.getElem_map]
  have hpt2 := hpt i (by simpa using h1)
  rw [List.getD_eq_getElem l1 0 (by simpa using h1),
    List.getD_eq_getElem l2 0 (by simpa using h2)] at hpt2
  exact hpt2


end WordCounter

namespace WordCounter

theorem migrate_final {tp : WordHashTable} (h : WF tp) {C : Nat} (hC : 0 < C)
    (hsz : tp.size < C) {tF : WordHashTable} {extF : List WordHashTabEntry}
    (hrun : WordHashTable_migrate { tp with capacity := C } (List.replicate C default)
      = (tF, extF)) :
    WF { tF with entries := extF } ∧
    WordHashTable_report { tF with entries := extF } = WordHashTable_report tp ∧
    tF.capacity = C ∧ tF.size = tp.size ∧ tF.stringsPool = tp.stringsPool := by
  have hinv := migInv_fold h hC hsz tp.size (le_refl _)
  rw [show (List.range tp.size).foldl migrateOne
        ({ tp with capacity := C }, List.replicate C default)
      = WordHashTable_migrate { tp with capacity := C } (List.replicate C default) from rfl,
    hrun] at hinv
  obtain ⟨h1, h2, h3, h4, h5, h6, h7, h8, h9, h10⟩ := hinv
  have h2' : tF.stringsPool = tp.stringsPool := h2
  have h3' : tF.capacity = C := h3
  have h4' : tF.size = tp.size := h4
  have h5' : extF.length = C := h5
  have h6' : tF.alphOrderArray.length = tp.alphOrderArray.length := h6
  have h9' : ∀ i, i < C → 0 < (extF.getD i default).count →
      ∃ m, m < tp.size ∧ tF.alphOrderArray.getD m 0 = i := h9
  have h10' : ∀ m, m < tp.size →
      tF.alphOrderArray.getD m 0 < C ∧
      (extF.getD (tF.alphOrderArray.getD m 0) default).letters = (oldEntryAt tp m).letters ∧
      (extF.getD (tF.alphOrderArray.getD m 0) default).length = (oldEntryAt tp m).length ∧
      (extF.getD (tF.alphOrderArray.getD m 0) default).count = (oldEntryAt tp m).count ∧
      ((migHash tp C m : Nat) : Int)
          + (extF.getD (tF.alphOrderArray.getD m 0) default).displacement
        = tF.alphOrderArray.getD m 0 ∧
      (∀ i, i < C → probeRank (migHash tp C m) i
          < probeRank (migHash tp C m) (tF.alphOrderArray.getD m 0) →
        0 < (extF.getD i default).count) := h10
  have horderlen : tF.alphOrderArray.length = tp.size := by rw [h6', h.order_len]
  have hmempos : ∀ j ∈ tF.alphOrderArray,
      ∃ m, m < tp.size ∧ tF.alphOrderArray.getD m 0 = j := by
    intro j hj
    obtain ⟨m, hm, he⟩ := List.mem_iff_getElem.1 hj
    refine ⟨m, by rw [← horderlen]; exact hm, ?_⟩
    rw [List.getD_eq_getElem _ _ hm]
    exact he
  have holdmem : ∀ m, m < tp.size → oldSlotAt tp m ∈ tp.alphOrderArray :=
    fun m hm => getD_mem (by rw [h.order_len]; exact hm)
  have hwordT : ∀ m, m < tp.size →
      wordAt { tF with entries := extF } (tF.alphOrderArray.getD m 0)
        = wordAt tp (oldSlotAt tp m) := by
    intro m hm
    obtain ⟨g1, g2, g3, g4, g5, g6⟩ := h10' m hm
    show readBytes tF.stringsPool.mem
        ((extF.getD (tF.alphOrderArray.getD m 0) default).letters - tF.stringsPool.memBase)
        ((extF.getD (tF.alphOrderArray.getD m 0) default).length - 1)
      = wordAt tp (oldSlotAt tp m)
    rw [g2, g3, h2']
    rfl
  have hoffT : ∀ m, m < tp.size →
      offAt { tF with entries := extF } (tF.alphOrderArray.getD m 0)
        = offAt tp (oldSlotAt tp m) := by
    intro m hm
    obtain ⟨g1, g2, g3, g4, g5, g6⟩ := h10' m hm
    show (extF.getD (tF.alphOrderArray.getD m 0) default).letters - tF.stringsPool.memBase
      = offAt tp (oldSlotAt tp m)
    rw [g2, h2']
    rfl
  have hlenT : ∀ m, m < tp.size →
      (entryAt { tF with entries := extF } (tF.alphOrderArray.getD m 0)).length
        = (oldEntryAt tp m).length := fun m hm => (h10' m hm).2.2.1
  have hidealT : ∀ m, m < tp.size →
      idealSlot { tF with entries := extF } (tF.alphOrderArray.getD m 0)
        = migHash tp C m := by
    intro m hm
    unfold idealSlot
    rw [hoffT m hm, hlenT m hm,
      show ({ tF with entries := extF } : WordHashTable).stringsPool = tp.stringsPool
        from h2',
      show ({ tF with entries := extF } : WordHashTable).capacity = C from h3']
    rfl
  refine ⟨?_, ?_, h3', h4', h2'⟩
  · refine ⟨?_, ?_, ?_, ?_, ?_, ?_, ?_, ?_, ?_, ?_⟩
    · show 0 < tF.capacity
      rw [h3']
      exact hC
    · show extF.length = tF.capacity
      rw [h5', h3']
    · show tF.stringsPool.mem.length = tF.stringsPool.capacity
      rw [h2']
      exact h.mem_len
    · show tF.stringsPool.nextChar < tF.stringsPool.capacity
      rw [h2']
      exact h.pool_lt
    · show tF.alphOrderArray.length = tF.size
      rw [horderlen, h4']
    · intro j hj
      obtain ⟨m, hm, he⟩ := hmempos j hj
      show j < tF.capacity
      rw [h3', ← he]
      exact (h10' m hm).1
    · intro j hj
      obtain ⟨m, hm, he⟩ := hmempos j hj
      have hc : (extF.getD (tF.alphOrderArray.getD m 0) default).count
          = (oldEntryAt tp m).count := (h10' m hm).2.2.2.1
      rw [he] at hc
      show 0 < (extF.getD j default).count
      rw [hc]
      exact h.order_live _ (holdmem m hm)
    · intro i hic hpos
      have hiC : i < C := by
        rw [← h3']
        exact hic
      obtain ⟨m, hm, he⟩ := h9' i hiC hpos
      show i ∈ tF.alphOrderArray
      rw [← he]
      exact getD_mem (by rw [horderlen]; exact hm)
    · show tF.alphOrderArray.Pairwise
        (fun a b => c_strcmp (wordAt { tF with entries := extF } a)
          (wordAt { tF with entries := extF } b) < 0)
      refine pairwise_transfer h6' h.sorted ?_
      intro m1 m2 h12 hm2len hS
      have hm2 : m2 < tp.size := by rw [← horderlen]; exact hm2len
      have hm1 : m1 < tp.size := by omega
      rw [hwordT m1 hm1, hwordT m2 hm2]
      exact hS
    · intro j hj
      obtain ⟨m, hm, he⟩ := hmempos j hj
      obtain ⟨g1, g2, g3, g4, g5, g6⟩ := h10' m hm
      obtain ⟨b1, b2, b3, b4, b5, b6, b7, b8⟩ := h.entries_ok (oldSlotAt tp m) (holdmem m hm)
      rw [← he]
      refine ⟨?_, ?_, ?_, ?_, ?_, ?_, ?_, ?_⟩
      · show tF.stringsPool.memBase
          ≤ (extF.getD (tF.alphOrderArray.getD m 0) default).letters
        rw [g2, h2']
        exact b1
      · show 2 ≤ (extF.getD (tF.alphOrderArray.getD m 0) default).length
        rw [g3]
        exact b2
      · show offAt { tF with entries := extF } (tF.alphOrderArray.getD m 0)
            + (extF.getD (tF.alphOrderArray.getD m 0) default).length
          ≤ tF.stringsPool.nextChar
        rw [hoffT m hm, g3, h2']
        exact b3
      · show tF.stringsPool.mem.getD
            (offAt { tF with entries := extF } (tF.alphOrderArray.getD m 0)
              + ((extF.getD (tF.alphOrderArray.getD m 0) default).length - 1)) 0 = 0
        rw [hoffT m hm, g3, h2']
        exact b4
      · intro k hk
        have hk2 : k < (oldEntryAt tp m).length - 1 := by
          rw [← g3]
          exact hk
        show 0 < tF.stringsPool.mem.getD
            (offAt { tF with entries := extF } (tF.alphOrderArray.getD m 0) + k) 0
        rw [hoffT m hm, h2']
        exact b5 k hk2
      · intro k hk
        have hk2 : k < (oldEntryAt tp m).length - 1 := by
          rw [← g3]
          exact hk
        show tF.stringsPool.mem.getD
            (offAt { tF with entries := extF } (tF.alphOrderArray.getD m 0) + k) 0 < 256
        rw [hoffT m hm, h2']
        exact b6 k hk2
      · show (idealSlot { tF with entries := extF } (tF.alphOrderArray.getD m 0) : Int)
            + (extF.getD (tF.alphOrderArray.getD m 0) default).displacement
          = (tF.alphOrderArray.getD m 0 : Nat)
        rw [hidealT m hm]
        exact g5
      · intro i hic hrank
        have hiC : i < C := by
          rw [← h3']
          exact hic
        rw [hidealT m hm] at hrank
        show 0 < (extF.getD i default).count
        exact g6 i hiC hrank
  · show tF.alphOrderArray.map (fun j => (wordAt { tF with entries := extF } j,
        (extF.getD j default).count))
      = tp.alphOrderArray.map (fun j => (wordAt tp j, (tp.entries.getD j default).count))
    refine map_eq_of_pointwise h6' ?_
    intro m hmlen
    have hm : m < tp.size := by rw [← horderlen]; exact hmlen
    show (wordAt { tF with entries := extF } (tF.alphOrderArray.getD m 0),
        (extF.getD (tF.alphOrderArray.getD m 0) default).count)
      = (wordAt tp (tp.alphOrderArray.getD m 0),
        (tp.entries.getD (tp.alphOrderArray.getD m 0) default).count)
    rw [hwordT m hm, (h10' m hm).2.2.2.1]
    rfl

end WordCounter

namespace WordCounter

theorem poolExpand_capacity_comm (t : WordHashTable) (C b : Nat) :
    WordHashTable_MemoryPool_expand { t with capacity := C } b
      = { WordHashTable_MemoryPool_expand t b with capacity := C } := by
  simp only [WordHashTable_MemoryPool_expand, MemoryPool_expand, stringPointers_update]
  by_cases hmove : t.stringsPool.memBase = b
  · rw [if_pos hmove, if_pos hmove]
  · rw [if_neg hmove, if_neg hmove]

theorem expand_spec {t : WordHashTable} (h : WF t) (b : Nat) :
    WF (WordHashTable_expand t b) ∧
    WordHashTable_report (WordHashTable_expand t b) = WordHashTable_report t ∧
    (WordHashTable_expand t b).capacity = t.capacity * 2 ∧
    (WordHashTable_expand t b).size = t.size := by
  have hszle := WF_size_le h
  have hcpos := h.cap_pos
  by_cases hcond : MemoryPool_size_below { t with capacity := t.capacity * 2 }.stringsPool 80
  · have hexp : WordHashTable_expand t b
        = { (WordHashTable_migrate { t with capacity := t.capacity * 2 }
              (List.replicate (t.capacity * 2) default)).1 with
            entries := (WordHashTable_migrate { t with capacity := t.capacity * 2 }
              (List.replicate (t.capacity * 2) default)).2 } := by
      simp only [WordHashTable_expand]
      rw [if_pos hcond]
    obtain ⟨w1, w2, w3, w4, w5⟩ := migrate_final h (by omega) (by omega)
      (show WordHashTable_migrate { t with capacity := t.capacity * 2 }
          (List.replicate (t.capacity * 2) default)
        = ((WordHashTable_migrate { t with capacity := t.capacity * 2 }
            (List.replicate (t.capacity * 2) default)).1,
          (WordHashTable_migrate { t with capacity := t.capacity * 2 }
            (List.replicate (t.capacity * 2) default)).2) from rfl)
    rw [hexp]
    exact ⟨w1, w2, w3, w4⟩
  · have hWFp := WF_poolExpand h b
    obtain ⟨-, -, hpsize, -, -, -, -, -, -, -⟩ := poolExpand_scalars t b
    have hexp : WordHashTable_expand t b
        = { (WordHashTable_migrate
              { WordHashTable_MemoryPool_expand t b with capacity := t.capacity * 2 }
              (List.replicate (t.capacity * 2) default)).1 with
            entries := (WordHashTable_migrate
              { WordHashTable_MemoryPool_expand t b with capacity := t.capacity * 2 }
              (List.replicate (t.capacity * 2) default)).2 } := by
      simp only [WordHashTable_expand]
      rw [if_neg hcond, poolExpand_capacity_comm]
    obtain ⟨w1, w2, w3, w4, w5⟩ := migrate_final hWFp (by omega)
      (by rw [hpsize]; omega)
      (show WordHashTable_migrate
          { WordHashTable_MemoryPool_expand t b with capacity := t.capacity * 2 }
          (List.replicate (t.capacity * 2) default)
        = ((WordHashTable_migrate
            { WordHashTable_MemoryPool_expand t b with capacity := t.capacity * 2 }
            (List.replicate (t.capacity * 2) default)).1,
          (WordHashTable_migrate
            { WordHashTable_MemoryPool_expand t b with capacity := t.capacity * 2 }
            (List.replicate (t.capacity * 2) default)).2) from rfl)
    rw [hexp]
    refine ⟨w1, ?_, w3, ?_⟩
    · rw [w2]
      exact poolExpand_report h b
    · rw [w4, hpsize]

end WordCounter

namespace WordCounter

/-- Every reachable engine state is well formed. -/
theorem reachable_WF {t : WordHashTable} (h : Reachable t) : WF t := by
  induction h with
  | create cap base hcap => exact WF_create cap base hcap
  | add t w ht hw ih => exact WF_add_word ih hw
  | expand t b ht ih => exact (expand_spec ih b).1
  | poolExpand t b ht ih => exact WF_poolExpand ih b

/-- **C3**: in every state reachable by adds and expansions, the
alphabetical index holds exactly `size` distinct slot numbers of live
entries, and the report traversal is sorted (strictly increasing, hence
non-decreasing, in `c_strcmp` order). -/
theorem C3_alphabetical_invariant {t : WordHashTable} (h : Reachable t) :
    t.alphOrderArray.length = t.size ∧
    t.alphOrderArray.Nodup ∧
    (∀ j ∈ t.alphOrderArray, j < t.capacity ∧ 0 < (entryAt t j).count) ∧
    (WordHashTable_report t).Pairwise (fun p q => c_strcmp p.1 q.1 < 0) := by
  have hW := reachable_WF h
  refine ⟨hW.order_len, hW.order_nodup,
    fun j hj => ⟨hW.order_lt j hj, hW.order_live j hj⟩, ?_⟩
  exact List.pairwise_map.2 (hW.sorted.imp fun hab => hab)

/-- **C3 witness** at the table holding the words `"b"` then `"a"`
(capacity 2, pool base 0). -/
theorem C3_alphabetical_invariant_witness :
    (WordHashTable_add_word (WordHashTable_add_word
        (WordHashTable_create 2 0) [98]).2 [97]).2.alphOrderArray.length
      = (WordHashTable_add_word (WordHashTable_add_word
        (WordHashTable_create 2 0) [98]).2 [97]).2.size ∧
    (WordHashTable_add_word (WordHashTable_add_word
        (WordHashTable_create 2 0) [98]).2 [97]).2.alphOrderArray.Nodup ∧
    (∀ j ∈ (WordHashTable_add_word (WordHashTable_add_word
        (WordHashTable_create 2 0) [98]).2 [97]).2.alphOrderArray,
      j < (WordHashTable_add_word (WordHashTable_add_word
        (WordHashTable_create 2 0) [98]).2 [97]).2.capacity ∧
      0 < (entryAt (WordHashTable_add_word (WordHashTable_add_word
        (WordHashTable_create 2 0) [98]).2 [97]).2 j).count) ∧
    (WordHashTable_report (WordHashTable_add_word (WordHashTable_add_word
        (WordHashTable_create 2 0) [98]).2 [97]).2).Pairwise
      (fun p q => c_strcmp p.1 q.1 < 0) :=
  C3_alphabetical_invariant
    (Reachable.add _ [97]
      (Reachable.add _ [98] (Reachable.create 2 0 (by decide))
        (show validWord [98] from ⟨by decide, by decide⟩))
      (show validWord [97] from ⟨by decide, by decide⟩))

end WordCounter

namespace WordCounter

theorem bump_report {t : WordHashTable} (h : WF t) {j : Nat} (hj : j ∈ t.alphOrderArray) :
    WordHashTable_report (bumpedTable t j)
      = bumpRow (wordAt t j) (WordHashTable_report t) := by
  have hjlen : j < t.entries.length := by
    rw [h.entries_len]
    exact h.order_lt j hj
  unfold WordHashTable_report bumpRow
  rw [bumpedTable_order, List.map_map]
  refine List.map_congr_left ?_
  intro k hk
  by_cases hkj : k = j
  · rw [hkj]
    show (wordAt (bumpedTable t j) j, (entryAt (bumpedTable t j) j).count)
        = if wordAt t j = wordAt t j
          then (wordAt t j, (entryAt t j).count + 1) else (wordAt t j, (entryAt t j).count)
    rw [if_pos rfl, bumpedTable_wordAt, bumpedTable_count_eq hjlen]
  · show (wordAt (bumpedTable t j) k, (entryAt (bumpedTable t j) k).count)
        = if wordAt t k = wordAt t j
          then (wordAt t k, (entryAt t k).count + 1) else (wordAt t k, (entryAt t k).count)
    rw [if_neg (h.words_nodup k hk j hj hkj), bumpedTable_wordAt,
      bumpedTable_count_ne (fun he => hkj he.symm)]

theorem bump_sum {t : WordHashTable} (h : WF t) {j : Nat} (hj : j ∈ t.alphOrderArray) :
    sumCounts (WordHashTable_report (bumpedTable t j))
      = sumCounts (WordHashTable_report t) + 1 := by
  have hjlen : j < t.entries.length := by
    rw [h.entries_len]
    exact h.order_lt j hj
  unfold sumCounts WordHashTable_report
  rw [bumpedTable_order, List.map_map, List.map_map]
  refine sum_map_bump h.order_nodup hj ?_ ?_
  · intro k hk hkj
    show (entryAt (bumpedTable t j) k).count = (entryAt t k).count
    exact bumpedTable_count_ne (fun he => hkj he.symm)
  · show (entryAt (bumpedTable t j) j).count = (entryAt t j).count + 1
    exact bumpedTable_count_eq hjlen

theorem insertRow_append {w : List Nat} :
    ∀ {r1 r2 : List (List Nat × Nat)},
      (∀ p ∈ r1, ¬ c_strcmp w p.1 ≤ 0) →
      (r2 = [] ∨ ∃ q r2t, r2 = q :: r2t ∧ c_strcmp w q.1 ≤ 0) →
      insertRow w (r1 ++ r2) = r1 ++ (w, 1) :: r2 := by
  intro r1
  induction r1 with
  | nil =>
    intro r2 h1 h2
    rcases h2 with he | ⟨q, r2t, he, hq⟩
    · rw [he]
      rfl
    · rw [he]
      show insertRow w (q :: r2t) = (w, 1) :: q :: r2t
      unfold insertRow
      rw [if_pos hq]
  | cons p r1t ih =>
    intro r2 h1 h2
    show insertRow w (p :: (r1t ++ r2)) = p :: (r1t ++ (w, 1) :: r2)
    unfold insertRow
    rw [if_neg (h1 p (List.mem_cons_self _ _)),
      ih (fun q hq => h1 q (List.mem_cons_of_mem _ hq)) h2]

end WordCounter

namespace WordCounter

theorem report_words {t : WordHashTable} {u : List Nat}
    (hu : u ∈ (WordHashTable_report t).map Prod.fst) :
    ∃ j ∈ t.alphOrderArray, wordAt t j = u := by
  obtain ⟨p, hp, hpu⟩ := List.mem_map.1 hu
  obtain ⟨j, hj, hjp⟩ := List.mem_map.1 hp
  exact ⟨j, hj, by rw [← hjp] at hpu; exact hpu⟩

theorem insert_report {t : WordHashTable} (h : WF t) {w : List Nat} {c : Nat} {displ : Int}
    (hc0 : (entryAt t c).count = 0) (hccap : c < t.capacity)
    (hroom : t.stringsPool.nextChar + (w.length + 1) < t.stringsPool.capacity)
    (hnostore : ∀ j ∈ t.alphOrderArray, wordAt t j ≠ w) :
    WordHashTable_report (insertedTable t w c displ)
      = insertRow w (WordHashTable_report t) := by
  have hclen : c < t.entries.length := by
    rw [h.entries_len]
    exact hccap
  have hcnot : c ∉ t.alphOrderArray := h.dead_not_in_order hc0
  have hwordof : ∀ j ∈ t.alphOrderArray,
      entryWordFn (insertedTable t w c displ).entries
        (insertedTable t w c displ).stringsPool j = wordAt t j := by
    intro j hj
    have hfits := (h.entries_ok j hj).fits
    have hl2 := (h.entries_ok j hj).len2
    exact insertedTable_wordAt_ne (fun he => hcnot (he ▸ hj)) hfits (by omega)
  obtain ⟨l1, l2, hsplit, hins, hl2p, hl1p⟩ :=
    orderArray_insert_decomp
      (entryWordFn (insertedTable t w c displ).entries
        (insertedTable t w c displ).stringsPool)
      w c t.alphOrderArray
  have hl1mem : ∀ j ∈ l1, j ∈ t.alphOrderArray := by
    intro j hj
    rw [hsplit]
    exact List.mem_append_left _ hj
  have hl2mem : ∀ j ∈ l2, j ∈ t.alphOrderArray := by
    intro j hj
    rw [hsplit]
    exact List.mem_append_right _ hj
  have hl1all : ∀ j ∈ l1, ¬ c_strcmp w (wordAt t j) ≤ 0 := by
    rcases hl1p with he | ⟨j0, l1f, he, hj0⟩
    · rw [he]
      intro j hj
      cases hj
    · have hj0mem : j0 ∈ t.alphOrderArray := hl1mem j0 (by rw [he]; simp)
      rw [hwordof j0 hj0mem] at hj0
      have hj0w : c_strcmp (wordAt t j0) w < 0 := c_strcmp_pos_of_not_le hj0
      intro j hj
      rw [he] at hj
      rcases List.mem_append.1 hj with hjf | hjl
      · have hpair : c_strcmp (wordAt t j) (wordAt t j0) < 0 := by
          have hs := h.sorted
          rw [hsplit, he] at hs
          have hp1 := (List.pairwise_append.1 hs).1
          exact (List.pairwise_append.1 hp1).2.2 j hjf j0 (by simp)
        have htr := c_strcmp_lt_trans hpair hj0w
        have hneg := c_strcmp_neg w (wordAt t j)
        omega
      · rw [List.mem_singleton.1 hjl]
        exact hj0
  have hmap1 : l1.map (fun j => (wordAt (insertedTable t w c displ) j,
      ((insertedTable t w c displ).entries.getD j default).count))
      = l1.map (fun j => (wordAt t j, (t.entries.getD j default).count)) := by
    refine List.map_congr_left ?_
    intro j hj
    have hjmem := hl1mem j hj
    have hfits := (h.entries_ok j hjmem).fits
    have hl2' := (h.entries_ok j hjmem).len2
    have hcne : c ≠ j := fun he => hcnot (he ▸ hjmem)
    show (wordAt (insertedTable t w c displ) j,
        (entryAt (insertedTable t w c displ) j).count) = (wordAt t j, (entryAt t j).count)
    rw [insertedTable_wordAt_ne hcne hfits (by omega), insertedTable_count_ne hcne]
  have hmap2 : l2.map (fun j => (wordAt (insertedTable t w c displ) j,
      ((insertedTable t w c displ).entries.getD j default).count))
      = l2.map (fun j => (wordAt t j, (t.entries.getD j default).count)) := by
    refine List.map_congr_left ?_
    intro j hj
    have hjmem := hl2mem j hj
    have hfits := (h.entries_ok j hjmem).fits
    have hl2' := (h.entries_ok j hjmem).len2
    have hcne : c ≠ j := fun he => hcnot (he ▸ hjmem)
    show (wordAt (insertedTable t w c displ) j,
        (entryAt (insertedTable t w c displ) j).count) = (wordAt t j, (entryAt t j).count)
    rw [insertedTable_wordAt_ne hcne hfits (by omega), insertedTable_count_ne hcne]
  have hf1c : (wordAt (insertedTable t w c displ) c,
      ((insertedTable t w c displ).entries.getD c default).count)
      = ((w, 1) : List Nat × Nat) := by
    show (wordAt (insertedTable t w c displ) c,
      (entryAt (insertedTable t w c displ) c).count) = (w, 1)
    rw [insertedTable_wordAt_self hclen hroom h.mem_len, insertedTable_count_self hclen]
  show (insertedTable t w c displ).alphOrderArray.map _ = _
  rw [insertedTable_order, hins, List.map_append, List.map_cons, hmap1, hmap2, hf1c]
  show _ = insertRow w (t.alphOrderArray.map _)
  rw [hsplit, List.map_append]
  rw [insertRow_append ?h1 ?h2]
  case h1 =>
    intro p hp
    obtain ⟨j, hj, hjp⟩ := List.mem_map.1 hp
    rw [← hjp]
    exact hl1all j hj
  case h2 =>
    cases l2 with
    | nil => exact Or.inl rfl
    | cons j0 l2t =>
      refine Or.inr ⟨(wordAt t j0, (t.entries.getD j0 default).count),
        l2t.map _, rfl, ?_⟩
      have hj0mem : j0 ∈ t.alphOrderArray := hl2mem j0 (by simp)
      have hcmp := hl2p j0 (by simp)
      rw [hwordof j0 hj0mem] at hcmp
      exact hcmp

end WordCounter

namespace WordCounter

theorem sumCounts_insertRow (w : List Nat) :
    ∀ r, sumCounts (insertRow w r) = sumCounts r + 1 := by
  intro r
  induction r with
  | nil => rfl
  | cons p rest ih =>
    show sumCounts (if c_strcmp w p.1 ≤ 0 then (w, 1) :: p :: rest
      else p :: insertRow w rest) = _
    split
    · simp only [sumCounts, List.map_cons, List.sum_cons]
      omega
    · simp only [sumCounts, List.map_cons, List.sum_cons] at ih ⊢
      omega

theorem bumpRow_map_fst (w : List Nat) :
    ∀ r, (bumpRow w r).map Prod.fst = r.map Prod.fst := by
  intro r
  induction r with
  | nil => rfl
  | cons p rest ih =>
    show ((if p.1 = w then (p.1, p.2 + 1) else p) :: bumpRow w rest).map Prod.fst = _
    simp only [List.map_cons, ih]
    congr 1
    split
    · rfl
    · rfl

theorem countFor_cons (p : List Nat × Nat) (rest : List (List Nat × Nat)) (w : List Nat) :
    reportCountFor (p :: rest) w
      = (if p.1 = w then p.2 else 0) + reportCountFor rest w := by
  unfold reportCountFor
  by_cases hp : p.1 = w
  · rw [List.filter_cons_of_pos (by simpa using hp), if_pos hp]
    simp
  · rw [List.filter_cons_of_neg (by simpa using hp), if_neg hp]
    simp

theorem countFor_bumpRow_ne {w u : List Nat} (hne : u ≠ w) :
    ∀ r, reportCountFor (bumpRow w r) u = reportCountFor r u := by
  intro r
  induction r with
  | nil => rfl
  | cons p rest ih =>
    show reportCountFor ((if p.1 = w then (p.1, p.2 + 1) else p) :: bumpRow w rest) u = _
    rw [countFor_cons, countFor_cons, ih]
    by_cases hp : p.1 = w
    · have hpu : ¬ p.1 = u := by
        rw [hp]
        exact fun he => hne he.symm
      have hwu : ¬ w = u := fun he => hne he.symm
      simp [hp, hpu, hwu]
    · simp [hp]

theorem countTok_cons (u v : List Nat) (l : List (List Nat)) :
    countTok u (v :: l) = countTok u l + (if v = u then 1 else 0) := by
  unfold countTok
  rw [List.countP_cons]
  by_cases hv : v = u
  · rw [if_pos hv, if_pos (by simpa using hv)]
  · rw [if_neg hv, if_neg (by simpa using hv)]

theorem countTok_append (u : List Nat) (l1 l2 : List (List Nat)) :
    countTok u (l1 ++ l2) = countTok u l1 + countTok u l2 := by
  unfold countTok
  rw [List.countP_append]

theorem countTok_eq_one_of_nodup_mem {w : List Nat} :
    ∀ {l : List (List Nat)}, l.Nodup → w ∈ l → countTok w l = 1 := by
  intro l
  induction l with
  | nil =>
    intro _ hm
    cases hm
  | cons b bs ih =>
    intro hnd hm
    rw [countTok_cons]
    rcases List.mem_cons.1 hm with he | hm2
    · rw [if_pos he.symm]
      have hz : countTok w bs = 0 := by
        unfold countTok
        rw [List.countP_eq_zero]
        intro v hv
        simp only [decide_eq_true_eq]
        intro hvw
        exact (List.nodup_cons.1 hnd).1 (by rw [← he, ← hvw]; exact hv)
      omega
    · have hbw : ¬ b = w := by
        intro he
        exact (List.nodup_cons.1 hnd).1 (he ▸ hm2)
      rw [if_neg hbw, ih (List.nodup_cons.1 hnd).2 hm2]

theorem countFor_bumpRow_self (w : List Nat) :
    ∀ r, reportCountFor (bumpRow w r) w
      = reportCountFor r w + countTok w (r.map Prod.fst) := by
  intro r
  induction r with
  | nil => rfl
  | cons p rest ih =>
    show reportCountFor ((if p.1 = w then (p.1, p.2 + 1) else p) :: bumpRow w rest) w = _
    by_cases hp : p.1 = w
    · simp only [if_pos hp]
      rw [countFor_cons, countFor_cons, ih, List.map_cons, countTok_cons]
      rw [if_pos (show ((p.1, p.2 + 1) : List Nat × Nat).1 = w from hp),
        if_pos hp, if_pos hp]
      have hproj : ((p.1, p.2 + 1) : List Nat × Nat).2 = p.2 + 1 := rfl
      rw [hproj]
      omega
    · simp only [if_neg hp]
      rw [countFor_cons, countFor_cons, ih, List.map_cons, countTok_cons]
      rw [if_neg hp, if_neg hp]
      omega

theorem countFor_insertRow_self (w : List Nat) :
    ∀ r, reportCountFor (insertRow w r) w = reportCountFor r w + 1 := by
  intro r
  induction r with
  | nil =>
    show reportCountFor [(w, 1)] w = reportCountFor [] w + 1
    rw [countFor_cons, if_pos (show ((w, 1) : List Nat × Nat).1 = w from rfl)]
    show 1 + reportCountFor [] w = reportCountFor [] w + 1
    omega
  | cons p rest ih =>
    show reportCountFor (if c_strcmp w p.1 ≤ 0 then (w, 1) :: p :: rest
      else p :: insertRow w rest) w = _
    split
    · rw [countFor_cons, countFor_cons,
        if_pos (show ((w, 1) : List Nat × Nat).1 = w from rfl)]
      show 1 + ((if p.1 = w then p.2 else 0) + reportCountFor rest w)
        = (if p.1 = w then p.2 else 0) + reportCountFor rest w + 1
      omega
    · rw [countFor_cons, countFor_cons, ih]
      omega

theorem countFor_insertRow_ne {w u : List Nat} (hne : u ≠ w) :
    ∀ r, reportCountFor (insertRow w r) u = reportCountFor r u := by
  intro r
  induction r with
  | nil =>
    show reportCountFor [(w, 1)] u = reportCountFor [] u
    rw [countFor_cons]
    have hwu : ¬ w = u := fun he => hne he.symm
    simp [hwu]
  | cons p rest ih =>
    show reportCountFor (if c_strcmp w p.1 ≤ 0 then (w, 1) :: p :: rest
      else p :: insertRow w rest) u = _
    split
    · rw [countFor_cons, countFor_cons]
      have : ¬ (w, 1).1 = u := fun he => hne he.symm
      simp [this]
    · rw [countFor_cons, countFor_cons, ih]

theorem mem_insertRow_fst {w u : List Nat} :
    ∀ r, u ∈ (insertRow w r).map Prod.fst ↔ u = w ∨ u ∈ r.map Prod.fst := by
  intro r
  induction r with
  | nil => simp [insertRow]
  | cons p rest ih =>
    show u ∈ ((if c_strcmp w p.1 ≤ 0 then (w, 1) :: p :: rest
      else p :: insertRow w rest)).map Prod.fst ↔ _
    split
    · simp only [List.map_cons, List.mem_cons]
    · simp only [List.map_cons, List.mem_cons, ih]
      tauto

theorem nodup_insertRow_fst {w : List Nat} :
    ∀ {r}, (r.map Prod.fst).Nodup → w ∉ r.map Prod.fst →
      ((insertRow w r).map Prod.fst).Nodup := by
  intro r
  induction r with
  | nil =>
    intro _ _
    simp [insertRow]
  | cons p rest ih =>
    intro hnd hnm
    show ((if c_strcmp w p.1 ≤ 0 then (w, 1) :: p :: rest
      else p :: insertRow w rest).map Prod.fst).Nodup
    simp only [List.map_cons, List.mem_cons, not_or] at hnm
    split
    · simp only [List.map_cons, List.nodup_cons] at hnd ⊢
      refine ⟨?_, hnd⟩
      simp only [List.mem_cons, not_or]
      exact hnm
    · simp only [List.map_cons, List.nodup_cons] at hnd ⊢
      refine ⟨?_, ih hnd.2 hnm.2⟩
      rw [mem_insertRow_fst]
      push_neg
      exact ⟨fun he => hnm.1 he.symm, hnd.1⟩

end WordCounter

namespace WordCounter

theorem modelFold_inv :
    ∀ (toks : List (List Nat)) (r : List (List Nat × Nat)) (prev : List (List Nat)),
      (r.map Prod.fst).Nodup → (∀ u, reportCountFor r u = countTok u prev) →
      (((toks.foldl modelAdd r).map Prod.fst).Nodup ∧
        ∀ u, reportCountFor (toks.foldl modelAdd r) u = countTok u (prev ++ toks)) := by
  intro toks
  induction toks with
  | nil =>
    intro r prev h1 h2
    refine ⟨h1, ?_⟩
    intro u
    rw [List.append_nil]
    exact h2 u
  | cons w ws ih =>
    intro r prev h1 h2
    rw [List.foldl_cons]
    have hstep : ((modelAdd r w).map Prod.fst).Nodup ∧
        ∀ u, reportCountFor (modelAdd r w) u = countTok u (prev ++ [w]) := by
      unfold modelAdd
      split
      · rename_i hmem
        refine ⟨by rw [bumpRow_map_fst]; exact h1, ?_⟩
        intro u
        rw [countTok_append]
        by_cases huw : u = w
        · have hone : countTok w (r.map Prod.fst) = 1 :=
            countTok_eq_one_of_nodup_mem h1 hmem
          have hbs := countFor_bumpRow_self w r
          have h2w := h2 w
          have hsw : countTok w [w] = 1 := by
            rw [countTok_cons]
            simp [countTok]
          rw [huw]
          omega
        · have hb := countFor_bumpRow_ne huw r
          have h2u := h2 u
          have hz : countTok u [w] = 0 := by
            rw [countTok_cons]
            rw [if_neg (fun he => huw he.symm)]
            simp [countTok]
          omega
      · rename_i hmem
        refine ⟨nodup_insertRow_fst h1 hmem, ?_⟩
        intro u
        rw [countTok_append]
        by_cases huw : u = w
        · have hbs := countFor_insertRow_self w r
          have h2w := h2 w
          have hsw : countTok w [w] = 1 := by
            rw [countTok_cons]
            simp [countTok]
          rw [huw]
          omega
        · have hb := countFor_insertRow_ne huw r
          have h2u := h2 u
          have hz : countTok u [w] = 0 := by
            rw [countTok_cons]
            rw [if_neg (fun he => huw he.symm)]
            simp [countTok]
          omega
    have hres := ih (modelAdd r w) (prev ++ [w]) hstep.1 hstep.2
    refine ⟨hres.1, ?_⟩
    intro u
    rw [hres.2 u, List.append_assoc]
    rfl

theorem modelReport_count (toks : List (List Nat)) (u : List Nat) :
    reportCountFor (modelReport toks) u = countTok u toks := by
  have h := modelFold_inv toks [] [] (by simp) (fun u => rfl)
  have h2 := h.2 u
  rw [List.nil_append] at h2
  exact h2

end WordCounter

namespace WordCounter

theorem add_word_success_spec {t : WordHashTable} (h : WF t) {w : List Nat}
    (hw : validWord w) (hsz : t.size < t.capacity) {t1 : WordHashTable}
    (heq : WordHashTable_add_word t w = (.SUCCESS, t1)) :
    WF t1 ∧ t1.capacity = t.capacity ∧ t1.size ≤ t.size + 1 ∧
    sumCounts (WordHashTable_report t1) = sumCounts (WordHashTable_report t) + 1 ∧
    ((∀ j ∈ t.alphOrderArray, wordSig (wordAt t j) = wordSig w → wordAt t j = w) →
      WordHashTable_report t1 = modelAdd (WordHashTable_report t) w) ∧
    (∀ u ∈ (WordHashTable_report t1).map Prod.fst,
      u ∈ (WordHashTable_report t).map Prod.fst ∨ u = w) := by
  rcases add_word_step h hw hsz with ⟨j, hj, hsig, heq2⟩ |
    ⟨hns, c, hc0, hccap, hpath, hcase⟩
  · rw [heq2] at heq
    injection heq with h1 h2
    subst h2
    refine ⟨WF_bumpedTable h hj, bumpedTable_capacity t j, ?_, bump_sum h hj, ?_, ?_⟩
    · rw [bumpedTable_size]
      omega
    · intro hsigh
      have hwj : wordAt t j = w := hsigh j hj hsig
      rw [bump_report h hj, hwj]
      unfold modelAdd
      rw [if_pos ?hmem]
      case hmem =>
        refine List.mem_map.2 ⟨(wordAt t j, (t.entries.getD j default).count), ?_, hwj⟩
        exact List.mem_map.2 ⟨j, hj, rfl⟩
    · intro u hu
      rw [bump_report h hj, bumpRow_map_fst] at hu
      exact Or.inl hu
  · rcases hcase with ⟨hroom, heq2⟩ | ⟨hfull, heq2⟩
    · rw [heq2] at heq
      injection heq with h1 h2
      subst h2
      have hwnotin : w ∉ (WordHashTable_report t).map Prod.fst := by
        intro hmem
        obtain ⟨j, hj, hje⟩ := report_words hmem
        exact hns j hj hje
      refine ⟨WF_insertedTable h hw hc0 hccap hroom rfl hpath hns,
        insertedTable_capacity t w c _, ?_, ?_, ?_, ?_⟩
      · rw [insertedTable_size]
      · rw [insert_report h hc0 hccap hroom hns, sumCounts_insertRow]
      · intro _
        rw [insert_report h hc0 hccap hroom hns]
        unfold modelAdd
        rw [if_neg hwnotin]
      · intro u hu
        rw [insert_report h hc0 hccap hroom hns] at hu
        rcases (mem_insertRow_fst _).1 hu with he | hm
        · exact Or.inr he
        · exact Or.inl hm
    · rw [heq2] at heq
      simp at heq

end WordCounter

namespace WordCounter

theorem addWithRetry_spec {w : List Nat} (hw : validWord w) :
    ∀ fuel (t : WordHashTable), WF t → t.size < t.capacity →
      t.stringsPool.nextChar + w.length + 3 ≤ (fuel + 1) + t.stringsPool.capacity →
      ∃ t1, addWithRetry (fuel + 1) t w = (.SUCCESS, t1) ∧ WF t1 ∧
        t1.capacity = t.capacity ∧ t1.size ≤ t.size + 1 ∧
        sumCounts (WordHashTable_report t1) = sumCounts (WordHashTable_report t) + 1 ∧
        ((∀ j ∈ t.alphOrderArray, wordSig (wordAt t j) = wordSig w → wordAt t j = w) →
          WordHashTable_report t1 = modelAdd (WordHashTable_report t) w) ∧
        (∀ u ∈ (WordHashTable_report t1).map Prod.fst,
          u ∈ (WordHashTable_report t).map Prod.fst ∨ u = w) := by
  intro fuel
  induction fuel with
  | zero =>
    intro t h hsz hfuel
    have hroom : t.stringsPool.nextChar + (w.length + 1) < t.stringsPool.capacity := by
      omega
    have hS : ∃ tX, WordHashTable_add_word t w = (.SUCCESS, tX) := by
      rcases add_word_step h hw hsz with ⟨j, hj, hsig, heq⟩ |
        ⟨hns, c, hc0, hccap, hpath, hcase⟩
      · exact ⟨_, heq⟩
      · rcases hcase with ⟨hroom2, heq⟩ | ⟨hfull, heq⟩
        · exact ⟨_, heq⟩
        · exact absurd hroom hfull
    obtain ⟨tX, heqS⟩ := hS
    obtain ⟨s1, s2, s3, s4, s5, s6⟩ := add_word_success_spec h hw hsz heqS
    refine ⟨tX, ?_, s1, s2, s3, s4, s5, s6⟩
    simp only [addWithRetry, heqS]
  | succ fuel ih =>
    intro t h hsz hfuel
    rcases add_word_step h hw hsz with ⟨j, hj, hsig0, heq⟩ |
      ⟨hns, c, hc0, hccap, hpath, hcase⟩
    · obtain ⟨s1, s2, s3, s4, s5, s6⟩ := add_word_success_spec h hw hsz heq
      refine ⟨_, ?_, s1, s2, s3, s4, s5, s6⟩
      simp only [addWithRetry, heq]
    · rcases hcase with ⟨hroom2, heq⟩ | ⟨hfull, heq⟩
      · obtain ⟨s1, s2, s3, s4, s5, s6⟩ := add_word_success_spec h hw hsz heq
        refine ⟨_, ?_, s1, s2, s3, s4, s5, s6⟩
        simp only [addWithRetry, heq]
      · have hWFf := WF_fullFailTable h hc0
        obtain ⟨hord2a, hcap2, hsize2, hnext2, hpcap2, -, -, -, -, -⟩ :=
          poolExpand_scalars (fullFailTable t c) (movedBase (fullFailTable t c).stringsPool)
        have hWF2 := WF_poolExpand hWFf (movedBase (fullFailTable t c).stringsPool)
        have hsz2 : (WordHashTable_MemoryPool_expand (fullFailTable t c)
            (movedBase (fullFailTable t c).stringsPool)).size
            < (WordHashTable_MemoryPool_expand (fullFailTable t c)
              (movedBase (fullFailTable t c).stringsPool)).capacity := by
          rw [hcap2, hsize2, fullFailTable_capacity, fullFailTable_size]
          exact hsz
        have hfuel2 : (WordHashTable_MemoryPool_expand (fullFailTable t c)
              (movedBase (fullFailTable t c).stringsPool)).stringsPool.nextChar
              + w.length + 3
            ≤ (fuel + 1) + (WordHashTable_MemoryPool_expand (fullFailTable t c)
              (movedBase (fullFailTable t c).stringsPool)).stringsPool.capacity := by
          rw [hnext2, hpcap2, fullFailTable_pool]
          have hc1 := h.pool_lt
          omega
        obtain ⟨t1, hrun, s1, s2, s3, s4, s5, s6⟩ := ih _ hWF2 hsz2 hfuel2
        have hrep : WordHashTable_report (WordHashTable_MemoryPool_expand (fullFailTable t c)
              (movedBase (fullFailTable t c).stringsPool))
            = WordHashTable_report t := by
          rw [poolExpand_report hWFf _, fullFailTable_report h hc0]
        have hord2 : (WordHashTable_MemoryPool_expand (fullFailTable t c)
              (movedBase (fullFailTable t c).stringsPool)).alphOrderArray
            = t.alphOrderArray := by
          rw [hord2a, fullFailTable_order]
        have hword2 : ∀ j ∈ t.alphOrderArray,
            wordAt (WordHashTable_MemoryPool_expand (fullFailTable t c)
              (movedBase (fullFailTable t c).stringsPool)) j = wordAt t j := by
          intro j hj
          have hcnotj : c ≠ j := fun he => (h.dead_not_in_order hc0) (he ▸ hj)
          have hj2 : j ∈ (fullFailTable t c).alphOrderArray := by
            rw [fullFailTable_order]
            exact hj
          rw [poolExpand_wordAt_live hWFf hj2 _, fullFailTable_wordAt_ne hcnotj]
        refine ⟨t1, ?_, s1, ?_, ?_, ?_, ?_, ?_⟩
        · simp only [addWithRetry, heq]
          exact hrun
        · rw [s2, hcap2, fullFailTable_capacity]
        · rw [hsize2, fullFailTable_size] at s3
          exact s3
        · rw [hrep] at s4
          exact s4
        · intro hsigh
          rw [hrep] at s5
          refine s5 ?_
          intro j hj hs
          rw [hord2] at hj
          rw [hword2 j hj] at hs ⊢
          exact hsigh j hj hs
        · intro u hu
          rcases s6 u hu with hm | he
          · rw [hrep] at hm
            exact Or.inl hm
          · exact Or.inr he

end WordCounter

namespace WordCounter

theorem processWord_spec {t : WordHashTable} (h : WF t) {w : List Nat} (hw : validWord w)
    (hsz : t.size < t.capacity) :
    ∃ t2, processWord t w = (.SUCCESS, t2) ∧ WF t2 ∧ t2.size < t2.capacity ∧
      sumCounts (WordHashTable_report t2) = sumCounts (WordHashTable_report t) + 1 ∧
      ((∀ j ∈ t.alphOrderArray, wordSig (wordAt t j) = wordSig w → wordAt t j = w) →
        WordHashTable_report t2 = modelAdd (WordHashTable_report t) w) ∧
      (∀ u ∈ (WordHashTable_report t2).map Prod.fst,
        u ∈ (WordHashTable_report t).map Prod.fst ∨ u = w) := by
  have hc1 := h.pool_lt
  obtain ⟨t1, hrun0, s1, s2, s3, s4, s5, s6⟩ :=
    addWithRetry_spec hw (t.stringsPool.nextChar + w.length + 1) t h hsz (by omega)
  have hrun : addWithRetry (retryFuel t w) t w = (.SUCCESS, t1) := hrun0
  by_cases hbelow : WordHashTable_size_below t1 70 = true
  · refine ⟨t1, ?_, s1, ?_, s4, s5, s6⟩
    · simp only [processWord, hrun, hbelow]
      rfl
    · unfold WordHashTable_size_below at hbelow
      simp only [decide_eq_true_eq] at hbelow
      have hd : t1.capacity * 70 / 100 ≤ t1.capacity :=
        Nat.div_le_of_le_mul (by omega)
      omega
  · obtain ⟨e1, e2, e3, e4⟩ := expand_spec s1 (movedBase t1.stringsPool)
    refine ⟨WordHashTable_expand t1 (movedBase t1.stringsPool), ?_, e1, ?_, ?_, ?_, ?_⟩
    · simp only [processWord, hrun]
      rw [if_neg hbelow]
    · have hle := WF_size_le s1
      have hpos := s1.cap_pos
      rw [e3, e4]
      omega
    · rw [e2]
      exact s4
    · intro hsigh
      rw [e2]
      exact s5 hsigh
    · intro u hu
      rw [e2] at hu
      exact s6 u hu

end WordCounter

namespace WordCounter

theorem runWords_spec :
    ∀ (ws : List (List Nat)) (t : WordHashTable), WF t → t.size < t.capacity →
      (∀ w ∈ ws, validWord w) →
      ∃ tF, runWords t ws = (.SUCCESS, tF) ∧ WF tF ∧ tF.size < tF.capacity ∧
        sumCounts (WordHashTable_report tF)
          = sumCounts (WordHashTable_report t) + ws.length ∧
        ((∀ w1, (w1 ∈ (WordHashTable_report t).map Prod.fst ∨ w1 ∈ ws) →
          ∀ w2, (w2 ∈ (WordHashTable_report t).map Prod.fst ∨ w2 ∈ ws) →
            wordSig w1 = wordSig w2 → w1 = w2) →
          WordHashTable_report tF = ws.foldl modelAdd (WordHashTable_report t)) ∧
        (∀ u ∈ (WordHashTable_report tF).map Prod.fst,
          u ∈ (WordHashTable_report t).map Prod.fst ∨ u ∈ ws) := by
  intro ws
  induction ws with
  | nil =>
    intro t h hsz hv
    exact ⟨t, rfl, h, hsz, by simp, fun _ => rfl, fun u hu => Or.inl hu⟩
  | cons w ws ih =>
    intro t h hsz hv
    obtain ⟨t2, hpw, p1, p2, p3, p4, p5⟩ :=
      processWord_spec h (hv w (List.mem_cons_self _ _)) hsz
    obtain ⟨tF, hrunF, q1, q2, q3, q4, q5⟩ :=
      ih t2 p1 p2 (fun u hu => hv u (List.mem_cons_of_mem _ hu))
    refine ⟨tF, ?_, q1, q2, ?_, ?_, ?_⟩
    · show (match processWord t w with
        | (.SUCCESS, t1) => runWords t1 ws
        | r => r) = (.SUCCESS, tF)
      rw [hpw]
      exact hrunF
    · rw [q3, p3, List.length_cons]
      omega
    · intro hclo
      have hsig : ∀ j ∈ t.alphOrderArray,
          wordSig (wordAt t j) = wordSig w → wordAt t j = w := by
        intro j hj hs
        refine hclo (wordAt t j) (Or.inl ?_) w (Or.inr (List.mem_cons_self _ _)) hs
        exact List.mem_map.2 ⟨(wordAt t j, (t.entries.getD j default).count),
          List.mem_map.2 ⟨j, hj, rfl⟩, rfl⟩
      have hrep2 : WordHashTable_report t2 = modelAdd (WordHashTable_report t) w :=
        p4 hsig
      have hclo2 : ∀ w1, (w1 ∈ (WordHashTable_report t2).map Prod.fst ∨ w1 ∈ ws) →
          ∀ w2, (w2 ∈ (WordHashTable_report t2).map Prod.fst ∨ w2 ∈ ws) →
            wordSig w1 = wordSig w2 → w1 = w2 := by
        intro w1 hw1 w2 hw2 hs
        have hconv : ∀ u, (u ∈ (WordHashTable_report t2).map Prod.fst ∨ u ∈ ws) →
            (u ∈ (WordHashTable_report t).map Prod.fst ∨ u ∈ w :: ws) := by
          intro u hu
          rcases hu with hm | hl
          · rcases p5 u hm with hm2 | he
            · exact Or.inl hm2
            · exact Or.inr (he ▸ List.mem_cons_self _ _)
          · exact Or.inr (List.mem_cons_of_mem _ hl)
        exact hclo w1 (hconv w1 hw1) w2 (hconv w2 hw2) hs
      rw [q4 hclo2, hrep2, List.foldl_cons]
    · intro u hu
      rcases q5 u hu with hm | hl
      · rcases p5 u hm with hm2 | he
        · exact Or.inl hm2
        · exact Or.inr (he ▸ List.mem_cons_self _ _)
      · exact Or.inr (List.mem_cons_of_mem _ hl)

end WordCounter

namespace WordCounter

theorem next_2power_pos (n : Nat) : 0 < next_2power n := by
  unfold next_2power
  split
  · exact Nat.one_pos
  · exact Nat.succ_pos _

theorem wtabInitSize_pos (n : Nat) : 0 < wtabInitSize n := by
  simp only [wtabInitSize]
  split
  · exact next_2power_pos n
  · rename_i hcond
    omega

/-- **C2**: on every input, the whole engine run succeeds and the sum of
the reported occurrence counts equals the number of tokens the tokenizer
produced — every successful `WordHashTable_add_word` call increments
exactly one entry's count by exactly one. -/
theorem C2_sum_of_counts (input : List Nat) :
    (wordcount_final input).1 = .SUCCESS ∧
    sumCounts (wordcountReport input) = (tokenize input).length := by
  have hW := WF_create (wtabInitSize (tokenize input).length) 0 (wtabInitSize_pos _)
  have hsz : (WordHashTable_create (wtabInitSize (tokenize input).length) 0).size
      < (WordHashTable_create (wtabInitSize (tokenize input).length) 0).capacity :=
    wtabInitSize_pos _
  obtain ⟨tF, hrun, q1, q2, q3, q4, q5⟩ :=
    runWords_spec (tokenize input)
      (WordHashTable_create (wtabInitSize (tokenize input).length) 0)
      hW hsz (tokenize_validWord input)
  constructor
  · show (runWords (WordHashTable_create (wtabInitSize (tokenize input).length) 0)
      (tokenize input)).1 = .SUCCESS
    rw [hrun]
  · show sumCounts (WordHashTable_report
      (runWords (WordHashTable_create (wtabInitSize (tokenize input).length) 0)
        (tokenize input)).2) = (tokenize input).length
    rw [hrun]
    show sumCounts (WordHashTable_report tF) = (tokenize input).length
    rw [q3]
    have hz : sumCounts (WordHashTable_report
        (WordHashTable_create (wtabInitSize (tokenize input).length) 0)) = 0 := rfl
    omega

end WordCounter

namespace WordCounter

/-- **C1 amended**: on every input whose token list is free of fast-path
signature collisions (`Distinguishable`: any two tokens agreeing on
length, first byte and last byte are equal), the run succeeds and the
count the alphabetical report gives each word equals the number of
tokens equal to that word. -/
theorem C1_amended_counting {input : List Nat}
    (hdist : Distinguishable (tokenize input)) :
    (wordcount_final input).1 = .SUCCESS ∧
    ∀ w, reportCountFor (wordcountReport input) w = countTok w (tokenize input) := by
  have hW := WF_create (wtabInitSize (tokenize input).length) 0 (wtabInitSize_pos _)
  have hsz : (WordHashTable_create (wtabInitSize (tokenize input).length) 0).size
      < (WordHashTable_create (wtabInitSize (tokenize input).length) 0).capacity :=
    wtabInitSize_pos _
  obtain ⟨tF, hrun, q1, q2, q3, q4, q5⟩ :=
    runWords_spec (tokenize input)
      (WordHashTable_create (wtabInitSize (tokenize input).length) 0)
      hW hsz (tokenize_validWord input)
  have hclo : ∀ w1, (w1 ∈ (WordHashTable_report
        (WordHashTable_create (wtabInitSize (tokenize input).length) 0)).map Prod.fst
        ∨ w1 ∈ tokenize input) →
      ∀ w2, (w2 ∈ (WordHashTable_report
        (WordHashTable_create (wtabInitSize (tokenize input).length) 0)).map Prod.fst
        ∨ w2 ∈ tokenize input) →
        wordSig w1 = wordSig w2 → w1 = w2 := by
    intro w1 hw1 w2 hw2 hs
    rcases hw1 with hm | hm
    · cases hm
    · rcases hw2 with hm2 | hm2
      · cases hm2
      · exact hdist w1 hm w2 hm2 hs
  have hrep := q4 hclo
  constructor
  · show (runWords (WordHashTable_create (wtabInitSize (tokenize input).length) 0)
      (tokenize input)).1 = .SUCCESS
    rw [hrun]
  · intro w
    show reportCountFor (WordHashTable_report
      (runWords (WordHashTable_create (wtabInitSize (tokenize input).length) 0)
        (tokenize input)).2) w = countTok w (tokenize input)
    rw [hrun]
    show reportCountFor (WordHashTable_report tF) w = countTok w (tokenize input)
    rw [hrep]
    exact modelReport_count (tokenize input) w

/-- **C1 amended witness** at the input `"ab ba"`, whose two tokens have
distinct fast-path signatures. -/
theorem C1_amended_counting_witness :
    (wordcount_final [97, 98, 32, 98, 97]).1 = .SUCCESS ∧
    ∀ w, reportCountFor (wordcountReport [97, 98, 32, 98, 97]) w
      = countTok w (tokenize [97, 98, 32, 98, 97]) :=
  C1_amended_counting
    (show ∀ w1 ∈ tokenize [97, 98, 32, 98, 97], ∀ w2 ∈ tokenize [97, 98, 32, 98, 97],
        wordSig w1 = wordSig w2 → w1 = w2 from by decide)

end WordCounter

namespace WordCounter

theorem runWordsNoResize_spec :
    ∀ (ws : List (List Nat)) (t : WordHashTable), WF t →
      t.size + ws.length < t.capacity →
      (∀ w ∈ ws, validWord w) →
      ∃ tF, runWordsNoResize t ws = (.SUCCESS, tF) ∧ WF tF ∧
        ((∀ w1, (w1 ∈ (WordHashTable_report t).map Prod.fst ∨ w1 ∈ ws) →
          ∀ w2, (w2 ∈ (WordHashTable_report t).map Prod.fst ∨ w2 ∈ ws) →
            wordSig w1 = wordSig w2 → w1 = w2) →
          WordHashTable_report tF = ws.foldl modelAdd (WordHashTable_report t)) := by
  intro ws
  induction ws with
  | nil =>
    intro t h hsz hv
    exact ⟨t, rfl, h, fun _ => rfl⟩
  | cons w ws ih =>
    intro t h hsz hv
    have hc1 := h.pool_lt
    have hszlen := List.length_cons w ws
    obtain ⟨t2, hrun0, s1, s2, s3, s4, s5, s6⟩ :=
      addWithRetry_spec (hv w (List.mem_cons_self _ _))
        (t.stringsPool.nextChar + w.length + 1) t h (by omega) (by omega)
    have hrun : addWithRetry (retryFuel t w) t w = (.SUCCESS, t2) := hrun0
    obtain ⟨tF, hrunF, q1, q2⟩ := ih t2 s1 (by rw [s2]; omega)
      (fun u hu => hv u (List.mem_cons_of_mem _ hu))
    refine ⟨tF, ?_, q1, ?_⟩
    · show (match addWithRetry (retryFuel t w) t w with
        | (.SUCCESS, t1) => runWordsNoResize t1 ws
        | r => r) = (.SUCCESS, tF)
      rw [hrun]
      exact hrunF
    · intro hclo
      have hsig : ∀ j ∈ t.alphOrderArray,
          wordSig (wordAt t j) = wordSig w → wordAt t j = w := by
        intro j hj hs
        refine hclo (wordAt t j) (Or.inl ?_) w (Or.inr (List.mem_cons_self _ _)) hs
        exact List.mem_map.2 ⟨(wordAt t j, (t.entries.getD j default).count),
          List.mem_map.2 ⟨j, hj, rfl⟩, rfl⟩
      have hrep2 : WordHashTable_report t2 = modelAdd (WordHashTable_report t) w :=
        s5 hsig
      have hclo2 : ∀ w1, (w1 ∈ (WordHashTable_report t2).map Prod.fst ∨ w1 ∈ ws) →
          ∀ w2, (w2 ∈ (WordHashTable_report t2).map Prod.fst ∨ w2 ∈ ws) →
            wordSig w1 = wordSig w2 → w1 = w2 := by
        intro w1 hw1 w2 hw2 hs
        have hconv : ∀ u, (u ∈ (WordHashTable_report t2).map Prod.fst ∨ u ∈ ws) →
            (u ∈ (WordHashTable_report t).map Prod.fst ∨ u ∈ w :: ws) := by
          intro u hu
          rcases hu with hm | hl
          · rcases s6 u hm with hm2 | he
            · exact Or.inl hm2
            · exact Or.inr (he ▸ List.mem_cons_self _ _)
          · exact Or.inr (List.mem_cons_of_mem _ hl)
        exact hclo w1 (hconv w1 hw1) w2 (hconv w2 hw2) hs
      rw [q2 hclo2, hrep2, List.foldl_cons]

/-- **C5 amended**: when the token sequence is free of fast-path
signature collisions, running it through the self-resizing pipeline
table produces exactly the same report rows, in the same order, as
feeding it with no table expansion into a table created large enough
(capacity exceeding the number of words) to never need one. -/
theorem C5_amended_resize_equivalence (ws : List (List Nat)) (bigcap : Nat)
    (hv : ∀ w ∈ ws, validWord w) (hdist : Distinguishable ws)
    (hcap : ws.length < bigcap) :
    ∃ t1 t2,
      runWords (WordHashTable_create (wtabInitSize ws.length) 0) ws = (.SUCCESS, t1) ∧
      runWordsNoResize (WordHashTable_create bigcap 0) ws = (.SUCCESS, t2) ∧
      WordHashTable_report t1 = WordHashTable_report t2 := by
  have hW1 := WF_create (wtabInitSize ws.length) 0 (wtabInitSize_pos _)
  have hW2 := WF_create bigcap 0 (by omega)
  obtain ⟨t1, hrun1, q1, q2, q3, q4, q5⟩ :=
    runWords_spec ws (WordHashTable_create (wtabInitSize ws.length) 0)
      hW1 (wtabInitSize_pos _) hv
  obtain ⟨t2, hrun2, r1, r2⟩ :=
    runWordsNoResize_spec ws (WordHashTable_create bigcap 0) hW2
      (by show 0 + ws.length < bigcap; omega) hv
  have hclo1 : ∀ w1, (w1 ∈ (WordHashTable_report
        (WordHashTable_create (wtabInitSize ws.length) 0)).map Prod.fst ∨ w1 ∈ ws) →
      ∀ w2, (w2 ∈ (WordHashTable_report
        (WordHashTable_create (wtabInitSize ws.length) 0)).map Prod.fst ∨ w2 ∈ ws) →
        wordSig w1 = wordSig w2 → w1 = w2 := by
    intro w1 hw1 w2 hw2 hs
    rcases hw1 with hm | hm
    · cases hm
    · rcases hw2 with hm2 | hm2
      · cases hm2
      · exact hdist w1 hm w2 hm2 hs
  have hclo2 : ∀ w1, (w1 ∈ (WordHashTable_report
        (WordHashTable_create bigcap 0)).map Prod.fst ∨ w1 ∈ ws) →
      ∀ w2, (w2 ∈ (WordHashTable_report
        (WordHashTable_create bigcap 0)).map Prod.fst ∨ w2 ∈ ws) →
        wordSig w1 = wordSig w2 → w1 = w2 := by
    intro w1 hw1 w2 hw2 hs
    rcases hw1 with hm | hm
    · cases hm
    · rcases hw2 with hm2 | hm2
      · cases hm2
      · exact hdist w1 hm w2 hm2 hs
  refine ⟨t1, t2, hrun1, hrun2, ?_⟩
  rw [q4 hclo1, r2 hclo2]
  rfl

/-- **C5 amended witness** at the word sequence `"a" "b" "a"` and a
never-resizing table of capacity 4. -/
theorem C5_amended_resize_equivalence_witness :
    ∃ t1 t2,
      runWords (WordHashTable_create (wtabInitSize [[97], [98], [97]].length) 0)
        [[97], [98], [97]] = (.SUCCESS, t1) ∧
      runWordsNoResize (WordHashTable_create 4 0) [[97], [98], [97]]
        = (.SUCCESS, t2) ∧
      WordHashTable_report t1 = WordHashTable_report t2 :=
  C5_amended_resize_equivalence [[97], [98], [97]] 4
    (show ∀ w ∈ [[97], [98], [97]], w ≠ [] ∧ ∀ b ∈ w, 0 < b ∧ b < 256 from by decide)
    (show ∀ w1 ∈ [[97], [98], [97]], ∀ w2 ∈ [[97], [98], [97]],
        wordSig w1 = wordSig w2 → w1 = w2 from by decide)
    (by decide)

end WordCounter
